/-
  Verification of the aergo contract-compiler middle end (trans / gen)
  against its natural-language specification.

  Shallow embedding of the C sources under src/contract/native/:
    - enum.c        : type tag universe and the three lookup tables
    - ast_func.h    : function modifier constants
    - trans_stmt.c  : statement lowering, AST -> CFG
    - gen_stmt.c    : statement emission, CFG -> WebAssembly

  Code of the repository that is referenced but not present in src/
  (ir_bb.c, ir_fn.c, trans_blk.c, trans_exp.c, gen_exp.c, the per-function
  trans driver) is modelled from the specification; every such definition
  carries a doc comment starting with "Modelled from the spec:".
-/
import Mathlib

/-! ## Type tags (enum.h / enum.c)

The closed tag universe, in the declaration order of `type_names_` in
enum.c: none ("undefined"), bool, byte, int8, int16, int32, int64,
int128, int256, float, double, string, account, struct, map, object,
cursor, void, tuple. -/

inductive Ty where
  | none_
  | bool_
  | byte
  | int8
  | int16
  | int32
  | int64
  | int128
  | int256
  | float_
  | double_
  | string_
  | account
  | struct_
  | map
  | object
  | cursor
  | void
  | tuple
deriving DecidableEq, Repr

/-- `type_names_` from enum.c: display name per type tag. -/
def type_names_ : Ty → String
  | .none_ => "undefined"
  | .bool_ => "bool"
  | .byte => "byte"
  | .int8 => "int8"
  | .int16 => "int16"
  | .int32 => "int32"
  | .int64 => "int64"
  | .int128 => "int128"
  | .int256 => "int256"
  | .float_ => "float"
  | .double_ => "double"
  | .string_ => "string"
  | .account => "account"
  | .struct_ => "struct"
  | .map => "map"
  | .object => "object"
  | .cursor => "cursor"
  | .void => "void"
  | .tuple => "tuple"

/-- `type_sizes_` from enum.c: linear-memory size per type tag,
with I32 = 4, I64 = 8, F32 = 4, F64 = 8, ADDR = 4. -/
def type_sizes_ : Ty → Nat
  | .none_ => 0
  | .bool_ => 4
  | .byte => 4
  | .int8 => 4
  | .int16 => 4
  | .int32 => 4
  | .int64 => 8
  | .int128 => 4
  | .int256 => 4
  | .float_ => 4
  | .double_ => 8
  | .string_ => 4
  | .account => 4
  | .struct_ => 4
  | .map => 8
  | .object => 4
  | .cursor => 4
  | .void => 0
  | .tuple => 4

/-- `type_bytes_` from enum.c: host-memory size per type tag, using the
host's sizeof values (sizeof(bool)=1, sizeof(uint8_t)=1, sizeof(int8_t)=1,
sizeof(int16_t)=2, sizeof(int32_t)=4, sizeof(int64_t)=8,
sizeof(uint32_t)=4, sizeof(float)=4, sizeof(double)=8). -/
def type_bytes_ : Ty → Nat
  | .none_ => 0
  | .bool_ => 1
  | .byte => 1
  | .int8 => 1
  | .int16 => 2
  | .int32 => 4
  | .int64 => 8
  | .int128 => 4
  | .int256 => 4
  | .float_ => 4
  | .double_ => 8
  | .string_ => 4
  | .account => 4
  | .struct_ => 4
  | .map => 4
  | .object => 4
  | .cursor => 4
  | .void => 0
  | .tuple => 0

/-- The linear-memory width table of spec section 6.3, written from the
spec's words (not from the source), for comparison with `type_sizes_`:
bool, byte, int8, int16, int32 -> 4; int64, map -> 8; float -> 4;
double -> 8; int128, int256, string, account, struct, object, cursor,
tuple -> pointer-sized (4); void, none -> 0. -/
def specLinearWidth : Ty → Nat
  | .bool_ | .byte | .int8 | .int16 | .int32 => 4
  | .int64 | .map => 8
  | .float_ => 4
  | .double_ => 8
  | .int128 | .int256 | .string_ | .account | .struct_ | .object
  | .cursor | .tuple => 4
  | .void | .none_ => 0

/-! ## Function modifiers (ast_func.h, `modifier_t`) -/

def MOD_GLOBAL : Nat := 0x00
def MOD_LOCAL : Nat := 0x01
def MOD_SHARED : Nat := 0x02
def MOD_TRANSFER : Nat := 0x04
def MOD_READONLY : Nat := 0x08

/-- The value a set of modifiers denotes: bitwise or of its members,
as modifier sets are combined in C. -/
def modsValue (l : List Nat) : Nat := l.foldl (· ||| ·) 0

/-- The modifier value selecting each of the four nonzero modifiers by a
boolean, used to enumerate every subset of {local, shared, transfer,
readonly}. -/
def modSel (lo sh tr ro : Bool) : Nat :=
  (cond lo MOD_LOCAL 0) ||| (cond sh MOD_SHARED 0) |||
  (cond tr MOD_TRANSFER 0) ||| (cond ro MOD_READONLY 0)

/-- All 16 subset values of the four nonzero modifiers. -/
def modSubsetVals : List Nat :=
  (List.range 16).map (fun n =>
    modSel (n % 2 == 1) (n / 2 % 2 == 1) (n / 4 % 2 == 1) (n / 8 % 2 == 1))

/-- Boolean duplicate check on a list of naturals. -/
def nodupB : List Nat → Bool
  | [] => true
  | x :: r => !(r.contains x) && nodupB r

/-! ## AST metadata and expressions

`meta_t` fields used by trans_stmt.c / gen_stmt.c: the type tag
(`is_map_meta`, `is_tuple_type`), the tuple element count (`elem_cnt`),
and the array dimension (`is_array_meta`). -/

structure Meta where
  ty : Ty
  elemCnt : Nat
  arrDim : Nat
deriving DecidableEq, Repr

/-- `ast_id_t` fields used by gen_stmt.c: the identifier's meta
(`is_map_meta(&id->meta)`, `is_array_meta(&id->meta)`), its local index
(`id->idx`), and whether it is a return identifier (`is_return_id`). -/
structure AstId where
  meta : Meta
  idx : Int
  isRet : Bool
deriving DecidableEq, Repr

/-- `ast_exp_t`, restricted to the fields and kinds trans_stmt.c and
gen_stmt.c inspect.  `atom` stands for every other expression kind
(literals, identifier references, array accesses, binaries, ...); the
`tag` field keeps distinct atoms distinct.  `glob`/`loc`/`stk` are the
synthesized lvalue forms (EXP_GLOBAL / EXP_LOCAL / EXP_STACK) tested by
`is_global_exp` / `is_local_exp` / `is_stack_exp` in gen_stmt.c. -/
inductive Exp where
  | atom (m : Meta) (id : Option AstId) (tag : Nat)
  | call (m : Meta) (id : Option AstId) (tag : Nat)
  | tuple (m : Meta) (exps : List Exp)
  | glob (m : Meta) (id : Option AstId) (name : Option String)
  | loc (m : Meta) (id : Option AstId) (idx : Int)
  | stk (m : Meta) (id : Option AstId) (base : Int) (addr : Int) (offset : Nat) (sty : Ty)
deriving Repr

/-- `exp->meta`. -/
def Exp.meta : Exp → Meta
  | .atom m _ _ => m
  | .call m _ _ => m
  | .tuple m _ => m
  | .glob m _ _ => m
  | .loc m _ _ => m
  | .stk m _ _ _ _ _ => m

/-- `exp->id` (NULL for tuple expressions). -/
def Exp.expId : Exp → Option AstId
  | .atom _ i _ => i
  | .call _ i _ => i
  | .tuple _ _ => none
  | .glob _ i _ => i
  | .loc _ i _ => i
  | .stk _ i _ _ _ _ => i

/-- `is_tuple_exp`. -/
def isTupleExp : Exp → Bool
  | .tuple _ _ => true
  | _ => false

/-- `is_call_exp`. -/
def isCallExp : Exp → Bool
  | .call _ _ _ => true
  | _ => false

/-! ## Statements (ast_stmt.h as used by trans_stmt.c)

A statement is a statement kind together with its optional pre-allocated
label block (`stmt->label_bb`, an IR basic-block id attached by the
resolver to labeled statements).  The two loop kinds LOOP_FOR and
LOOP_ARRAY of STMT_LOOP are the two loop constructors; STMT_LOOP with
any other `u_loop.kind` is the `ASSERT1(!"invalid loop")` case and is
not representable.  `arrayLoop` carries the statement position
(`stmt->pos`, as reported by `ERROR(ERROR_NOT_SUPPORTED, &stmt->pos)`)
and its (never lowered) body block. -/

mutual
inductive Stmt where
  | mk (labelBB : Option Nat) (kind : SKind)
deriving Repr
inductive SKind where
  | nullS
  | expS (e : Exp)
  | assignS (l r : Exp)
  | ifS (cond : Exp) (ifBlk : List Stmt) (elifs : List (Exp × List Stmt))
        (elseBlk : Option (List Stmt))
  | forLoop (init : Option Stmt) (body : List Stmt)
  | arrayLoop (pos : Nat) (body : List Stmt)
  | switchS (cases : List (Option Exp × List Stmt)) (hasDflt : Bool)
  | caseS
  | retS (arg : Option Exp)
  | contS
  | breakS (cond : Option Exp)
  | gotoS (target : Nat)
  | ddlS (tag : Nat)
  | blkS (b : List Stmt)
deriving Repr
end

def Stmt.labelOf : Stmt → Option Nat
  | .mk lb _ => lb

def Stmt.kindOf : Stmt → SKind
  | .mk _ k => k

/-- The structured statement kinds that must not survive `trans`
(if / loop / switch / case / break / continue / goto / blk). -/
def structuredKind : SKind → Bool
  | .ifS _ _ _ _ => true
  | .forLoop _ _ => true
  | .arrayLoop _ _ => true
  | .switchS _ _ => true
  | .caseS => true
  | .breakS _ => true
  | .contS => true
  | .gotoS _ => true
  | .blkS _ => true
  | _ => false

/-! ## IR basic blocks and the translation state -/

/-- A CFG branch (ir_bb.h): optional guard expression and target block id.
A branch with `guard = none` is unconditional. -/
structure Branch where
  guard : Option Exp
  target : Nat
deriving Repr

/-- An IR basic block (ir_bb.h): statement list, outgoing branch list,
and the piggyback statement list flushed by `stmt_trans_exp`. -/
structure BB where
  stmts : List Stmt
  branches : List Branch
  pgbacks : List Stmt
deriving Repr

def emptyBB : BB := ⟨[], [], []⟩

inductive ErrKind where
  | notSupported
deriving DecidableEq, Repr

/-- The translation context `trans_t` together with the function under
construction (`ir_fn_t`): `blocks` is the per-function arena of all
basic blocks ever created, addressed by id; `bbs` is the function's
committed block vector (`fn->bbs`, filled by `fn_add_basic_blk`);
`exitBB` is `fn->exit_bb`; `cur` is `trans->bb` (null right after a
terminator); `contBB`/`breakBB` are `trans->cont_bb`/`trans->break_bb`;
`isLval` is `trans->is_lval`; `errors` is the diagnostics list the
ERROR macro appends to. -/
structure TransSt where
  blocks : List BB
  bbs : List Nat
  exitBB : Nat
  cur : Option Nat
  contBB : Option Nat
  breakBB : Option Nat
  isLval : Bool
  errors : List (ErrKind × Nat)
deriving Repr

/-- Look up a block by id in the arena. -/
def getBlock (s : TransSt) (i : Nat) : BB := s.blocks.getD i emptyBB

/-- Update the i-th entry of a list in place. -/
def updAt {α : Type} (f : α → α) : Nat → List α → List α
  | _, [] => []
  | 0, x :: xs => f x :: xs
  | n + 1, x :: xs => x :: updAt f n xs

/-- Modelled from the spec: `bb_new` (ir_bb.c is not in src/) creates a
fresh basic block with a fresh id; blocks live in a per-function arena
addressed by integer id (spec section 9, "Cyclic graphs").  Returns the
new id and the grown arena. -/
def bbNew (s : TransSt) : Nat × TransSt :=
  (s.blocks.length, { s with blocks := s.blocks ++ [emptyBB] })

/-- Modelled from the spec: `bb_add_stmt` (ir_bb.c is not in src/)
appends a simple statement to a block (spec section 4.D). -/
def bbAddStmt (s : TransSt) (b : Nat) (st : Stmt) : TransSt :=
  { s with blocks := updAt (fun bb => { bb with stmts := bb.stmts ++ [st] }) b s.blocks }

/-- Modelled from the spec: `bb_add_branch` (ir_bb.c is not in src/)
appends a branch with an optional guard; `guard = none` is
unconditional (spec section 4.D). -/
def bbAddBranch (s : TransSt) (b : Nat) (g : Option Exp) (t : Nat) : TransSt :=
  { s with blocks := updAt (fun bb => { bb with branches := bb.branches ++ [⟨g, t⟩] }) b s.blocks }

/-- Modelled from the spec: `fn_add_basic_blk` (ir_fn.c is not in src/)
appends a block to the function's block vector, idempotently by id
(spec section 4.C: "re-adding the same block is a no-op by id"). -/
def fnAddBB (s : TransSt) (b : Nat) : TransSt :=
  if s.bbs.contains b then s else { s with bbs := s.bbs ++ [b] }

/-- Modelled from the spec: closing the current block into a join block.
trans_stmt.c calls `bb_add_branch(trans->bb, NULL, t)` followed by
`fn_add_basic_blk(trans->fn, trans->bb)` at points where `trans->bb`
may already be null (after an arm ended in return/continue/goto, cf.
spec E4); on a null current block both calls are no-ops, as spec
section 4.F requires the current block to "become null immediately
after a terminator" and scenario E4 shows no effect on the CFG. -/
def closeTo (s : TransSt) (t : Nat) : TransSt :=
  match s.cur with
  | none => s
  | some cb => fnAddBB (bbAddBranch s cb none t) cb

/-! ## Tuple-assignment lowering helpers (trans_stmt.c, stmt_trans_assign)

Assertion failures (the ASSERT macros abort the compiler) are modelled
as `none`; so is an out-of-bounds `array_get_exp`, which asserts on its
index. -/

/-- Build the statement created by `stmt_new_assign(var, val, pos)`. -/
def mkAssign (var val : Exp) : Stmt := .mk none (.assignS var val)

/-- The equal-arity branch of `stmt_trans_assign` (lines 55-67): pairwise
per-element assignments, with `ASSERT(meta_cmp(&var->meta, &val->meta) == 0)`
on each pair.  `meta_cmp == 0` is modelled as meta equality. -/
def assignEach (cb : Nat) : TransSt → List Exp → List Exp → Option TransSt
  | s, [], [] => some s
  | s, var :: vars, val :: vals =>
    if var.meta = val.meta then
      assignEach cb (bbAddStmt s cb (mkAssign var val)) vars vals
    else none
  | _, _, _ => none

/-- The inner loop of the flattening branch (lines 81-89): for
`j = 0 .. cnt-1`, take `var_exps[var_idx++]` and `elems[j]`, assert the
metas match, and append the per-element assignment.  `cnt` is
`val_meta->elem_cnt`; reading past either array asserts. -/
def assignElems (cb : Nat) (varExps elems : List Exp) :
    TransSt → Nat → Nat → Nat → Option (TransSt × Nat)
  | s, vi, _, 0 => some (s, vi)
  | s, vi, j, cnt + 1 =>
    match varExps[vi]?, elems[j]? with
    | some var, some elem =>
      if var.meta = elem.meta then
        assignElems cb varExps elems (bbAddStmt s cb (mkAssign var elem)) (vi + 1) (j + 1) cnt
      else none
    | _, _ => none

/-- The `|lhs| > |rhs|` branch of `stmt_trans_assign` (lines 76-99).
For a tuple-typed rhs element the element loop runs; reading `u_tup.exps`
of a non-tuple expression is undefined in C and modelled as a failure.
For a non-tuple rhs element the source advances `var_idx` twice: it
checks the meta of `var_exps[var_idx]` and then emits the assignment
into `var_exps[var_idx + 1]` (lines 92-97). -/
def assignFlat (cb : Nat) (varExps : List Exp) :
    TransSt → Nat → List Exp → Option TransSt
  | s, _, [] => some s
  | s, vi, val :: vals =>
    if val.meta.ty = Ty.tuple then
      match val with
      | .tuple _ elems =>
        match assignElems cb varExps elems s vi 0 val.meta.elemCnt with
        | some (s', vi') => assignFlat cb varExps s' vi' vals
        | none => none
      | _ => none
    else
      match varExps[vi]? with
      | some var =>
        if var.meta = val.meta then
          match varExps[vi + 1]? with
          | some var2 => assignFlat cb varExps (bbAddStmt s cb (mkAssign var2 val)) (vi + 2) vals
          | none => none
        else none
      | none => none

/-- `stmt_trans_assign` (lines 37-105), after the current block `cb` has
been established by `stmt_trans`.  `exp_trans_to_lval` and
`exp_trans_to_rval` live in trans_exp.c, which is not in src/; they are
modelled as the identity on the already-lowered expression forms, so
`l` and `r` stand for the lhs and rhs after expression lowering.
On a tuple lhs the rhs must be a tuple (`ASSERT1(is_tuple_exp(r_exp))`);
a non-tuple lhs appends the original assignment unchanged. -/
def stmtTransAssign (s : TransSt) (cb : Nat) (orig : Stmt) (l r : Exp) : Option TransSt :=
  if isTupleExp l then
    match l, r with
    | .tuple _ varExps, .tuple _ valExps =>
      if varExps.length = valExps.length then
        assignEach cb s varExps valExps
      else if valExps.length < varExps.length then
        assignFlat cb varExps s 0 valExps
      else none
    | _, _ => none
  else
    some (bbAddStmt s cb orig)

/-! ## The statement translator (trans_stmt.c, stmt_trans) -/

/-- Result of a (fuel-indexed) translator run: `ok` is a normal return,
`failed` is an ASSERT abort, `fuelOut` only signals exhausted fuel of
the embedding (the C recursion is structural over the AST and always
terminates, so every run has sufficient fuel). -/
inductive TRes where
  | ok (s : TransSt)
  | failed
  | fuelOut
deriving Repr

/-- Work items of the translator: a single statement (`stmt_trans`),
a statement list (`blk_trans` over a block's statements), the else-if
chain of an if statement (the loop at lines 144-158), and the case
chain of a switch statement (the loop at lines 284-315, which needs the
remaining case list to test `i == array_size(&blk->stmts) - 1`). -/
inductive Work where
  | one (st : Stmt)
  | many (sts : List Stmt)
  | elifs (prevBB nextBB : Nat) (es : List (Exp × List Stmt))
  | cases (prevBB nextBB : Nat) (cs : List (Option Exp × List Stmt))

/-- The label handling of `stmt_trans` (lines 400-410): a labeled
statement closes the current block into its pre-allocated label block
and continues there; otherwise a null current block is replaced by a
fresh one. -/
def labelStep (s0 : TransSt) (lb? : Option Nat) : TransSt :=
  match lb? with
  | some lb =>
    let s :=
      match s0.cur with
      | some cb => fnAddBB (bbAddBranch s0 cb none lb) cb
      | none => s0
    { s with cur := some lb }
  | none =>
    match s0.cur with
    | some _ => s0
    | none =>
      { (bbNew s0).2 with cur := some (bbNew s0).1 }

/-- `stmt_trans_exp` (lines 16-35), after the current block `cb` is
established: append the expression statement only if it is a call
expression; otherwise flush the block's piggyback statements. -/
def expStep (s0 : TransSt) (cb : Nat) (e : Exp) : TransSt :=
  let s := { s0 with isLval := false }
  if isCallExp e then
    bbAddStmt s cb (.mk none (.expS e))
  else
    let bb := getBlock s cb
    if bb.pgbacks.isEmpty then
      s
    else
      { s with blocks :=
          (updAt (fun b => { b with stmts := b.stmts ++ b.pgbacks, pgbacks := [] })
            cb s.blocks) }

/-- `stmt_trans_return` (lines 324-336): append the return statement,
branch unconditionally to the exit block, commit the block, current
block becomes null. -/
def retStep (s : TransSt) (cb : Nat) (arg : Option Exp) : TransSt :=
  let s1 := bbAddStmt s cb (.mk none (.retS arg))
  let s2 := fnAddBB (bbAddBranch s1 cb none s1.exitBB) cb
  { s2 with cur := none }

/-- `stmt_trans_continue` (lines 338-347): `ASSERT(trans->cont_bb !=
NULL)`, branch unconditionally to the continue target, commit, current
block becomes null. -/
def contStep (s : TransSt) (cb : Nat) : TRes :=
  match s.contBB with
  | none => .failed
  | some ct => .ok { fnAddBB (bbAddBranch s cb none ct) cb with cur := none }

/-- `stmt_trans_break` (lines 349-369): a fresh continuation block is
always created; `ASSERT(trans->break_bb != NULL)`; a conditional break
adds a guarded branch to the break target followed by an unconditional
branch to the continuation block, an unconditional break only the
branch to the break target; the continuation block becomes current. -/
def breakStep (s : TransSt) (cb : Nat) (cond : Option Exp) : TRes :=
  let nb := (bbNew s).1
  let s1 := (bbNew s).2
  match s1.breakBB with
  | none => .failed
  | some bt =>
    let s2 :=
      match cond with
      | some c => bbAddBranch (bbAddBranch s1 cb (some c) bt) cb none nb
      | none => bbAddBranch s1 cb none bt
    .ok { fnAddBB s2 cb with cur := some nb }

/-- `stmt_trans_goto` (lines 371-382): branch unconditionally to the
target statement's pre-allocated label block, commit, current block
becomes null. -/
def gotoStep (s : TransSt) (cb : Nat) (target : Nat) : TransSt :=
  { fnAddBB (bbAddBranch s cb none target) cb with cur := none }

/-- `stmt_trans_if` (lines 107-175), parameterized by the translator
`recur` used for the arm blocks and the else-if chain. -/
def ifStep (recur : TransSt → Work → TRes) (s : TransSt) (cb : Nat) (cond : Exp)
    (ifBlk : List Stmt) (elifs : List (Exp × List Stmt)) (elseBlk : Option (List Stmt)) : TRes :=
  let next := (bbNew s).1
  let s1 := (bbNew s).2
  let s2 := fnAddBB s1 cb
  let b1 := (bbNew s2).1
  let s3 := (bbNew s2).2
  let s4 := bbAddBranch { s3 with cur := some b1 } cb (some cond) b1
  match recur s4 (.many ifBlk) with
  | .ok s5 =>
    let s6 := closeTo s5 next
    match recur s6 (.elifs cb next elifs) with
    | .ok s7 =>
      match elseBlk with
      | some eb =>
        let be := (bbNew s7).1
        let s8 := (bbNew s7).2
        let s9 := bbAddBranch { s8 with cur := some be } cb none be
        match recur s9 (.many eb) with
        | .ok s10 => .ok { closeTo s10 next with cur := some next }
        | r => r
      | none => .ok { bbAddBranch s7 cb none next with cur := some next }
    | r => r
  | r => r

/-- `stmt_trans_for_loop` (lines 177-229), parameterized by the
translator `recur` used for the init statement and the body; the
predecessor block `cb` is captured before the init statement runs. -/
def forLoopStep (recur : TransSt → Work → TRes) (s : TransSt) (cb : Nat)
    (init : Option Stmt) (body : List Stmt) : TRes :=
  let condBB := (bbNew s).1
  let s1 := (bbNew s).2
  let next := (bbNew s1).1
  let s2 := (bbNew s1).2
  match (match init with
         | some i => recur s2 (.one i)
         | none => .ok s2) with
  | .ok s3 =>
    let s4 := fnAddBB (bbAddBranch s3 cb none condBB) cb
    let s5 := { s4 with cur := some condBB, contBB := some condBB, breakBB := some next }
    match recur s5 (.many body) with
    | .ok s6 =>
      let s7 := { s6 with contBB := none, breakBB := none }
      match s7.cur with
      | some cb2 =>
        .ok { fnAddBB (bbAddBranch s7 cb2 none condBB) cb2 with cur := some next }
      | none =>
        .ok { bbAddBranch s7 condBB none condBB with cur := some next }
    | r => r
  | r => r

/-- `stmt_trans_switch` (lines 254-322), parameterized by the
translator `recur` used for the case chain. -/
def switchStep (recur : TransSt → Work → TRes) (s : TransSt) (cb : Nat)
    (cs : List (Option Exp × List Stmt)) (hasDflt : Bool) : TRes :=
  let next := (bbNew s).1
  let s1 := (bbNew s).2
  let s2 := fnAddBB s1 cb
  let s3 := { s2 with contBB := none, breakBB := some next }
  let b0 := (bbNew s3).1
  let s4 := (bbNew s3).2
  match recur { s4 with cur := some b0 } (.cases cb next cs) with
  | .ok s5 =>
    let s6 := if hasDflt then s5 else bbAddBranch s5 cb none next
    .ok { s6 with breakBB := none, cur := some next }
  | r => r

/-- `blk_trans` over a statement list, parameterized by the
translator.  Modelled from the spec ("blk — recurse into the contained
block", trans_blk.c is not in src/): the block's statements are lowered
in order. -/
def manyStep (recur : TransSt → Work → TRes) (s0 : TransSt) : List Stmt → TRes
  | [] => .ok s0
  | st :: rest =>
    match recur s0 (.one st) with
    | .ok s1 => recur s1 (.many rest)
    | r => r

/-- The else-if chain of `stmt_trans_if` (lines 144-158), parameterized
by the translator. -/
def elifsStep (recur : TransSt → Work → TRes) (s0 : TransSt) (prev next : Nat) :
    List (Exp × List Stmt) → TRes
  | [] => .ok s0
  | (cond, blk) :: rest =>
    let b := (bbNew s0).1
    let s2 := { (bbNew s0).2 with cur := some b }
    let s3 := bbAddBranch s2 prev (some cond) b
    match recur s3 (.many blk) with
    | .ok s4 =>
      let s5 := closeTo s4 next
      recur s5 (.elifs prev next rest)
    | r => r

/-- The case chain of `stmt_trans_switch` (lines 284-315),
parameterized by the translator; `trans->bb` is non-null at each loop
entry, and the last case is recognized by the remaining list being a
singleton (`i == array_size(&blk->stmts) - 1`). -/
def casesStep (recur : TransSt → Work → TRes) (s0 : TransSt) (prev next : Nat) :
    List (Option Exp × List Stmt) → TRes
  | [] => .ok s0
  | (val, body) :: rest =>
    match s0.cur with
    | none => .failed
    | some cb =>
      let s1 := bbAddBranch s0 prev val cb
      match recur s1 (.many body) with
      | .ok s2 =>
        match s2.cur with
        | some cb2 =>
          match rest with
          | [] =>
            let s3 := fnAddBB (bbAddBranch s2 cb2 none next) cb2
            recur s3 (.cases prev next [])
          | _ =>
            let caseBB := (bbNew s2).1
            let s3 := (bbNew s2).2
            let s4 := fnAddBB (bbAddBranch s3 cb2 none caseBB) cb2
            recur { s4 with cur := some caseBB } (.cases prev next rest)
        | none =>
          match rest with
          | [] => recur s2 (.cases prev next [])
          | _ =>
            recur { (bbNew s2).2 with cur := some (bbNew s2).1 } (.cases prev next rest)
      | r => r

/-- `stmt_trans` on one statement (lines 397-466): label handling
first (lines 400-410), then the dispatch on the statement kind,
parameterized by the translator `recur` for the structured kinds.
Expression lowering (`exp_trans`, `exp_trans_to_lval`,
`exp_trans_to_rval`; trans_exp.c is not in src/) is modelled from the
spec as leaving the CFG state unchanged: per spec section 4.F.2 it only
rewrites expressions and may defer piggyback statements, and no
piggyback sources arise at the statement level modelled here. -/
def oneStep (recur : TransSt → Work → TRes) (s0 : TransSt) (st : Stmt) : TRes :=
  let s := labelStep s0 st.labelOf
  match s.cur with
  | none => .failed
  | some cb =>
    match st.kindOf with
    | .nullS => .ok s
    | .caseS => .ok s
    | .expS e => .ok (expStep s cb e)
    | .assignS l r =>
      match stmtTransAssign s cb (.mk none (.assignS l r)) l r with
      | some s1 => .ok s1
      | none => .failed
    | .ifS cond ifBlk elifs elseBlk => ifStep recur s cb cond ifBlk elifs elseBlk
    | .forLoop init body => forLoopStep recur s cb init body
    | .arrayLoop pos _ =>
      -- stmt_trans_array_loop, lines 231-235
      .ok { s with errors := s.errors ++ [(.notSupported, pos)] }
    | .switchS cs hasDflt => switchStep recur s cb cs hasDflt
    | .retS arg => .ok (retStep s cb arg)
    | .contS => contStep s cb
    | .breakS cond => breakStep s cb cond
    | .gotoS target => .ok (gotoStep s cb target)
    | .ddlS tag => .ok (bbAddStmt s cb (.mk none (.ddlS tag)))
    | .blkS b => recur s (.many b)

/-- The fuel-indexed statement translator tying the handlers together;
the C recursion is structural over the AST and always terminates, so
every run has sufficient fuel. -/
def transF : Nat → TransSt → Work → TRes
  | 0, _, _ => .fuelOut
  | n + 1, s0, w =>
    match w with
    | .one st => oneStep (transF n) s0 st
    | .many sts => manyStep (transF n) s0 sts
    | .elifs prev next es => elifsStep (transF n) s0 prev next es
    | .cases prev next cs => casesStep (transF n) s0 prev next cs

/-! ## Per-function driver and program well-formedness -/

/-- Modelled from the spec: the per-function trans driver (trans_id.c /
ir_fn.c are not in src/).  `fn_new` constructs the function with an
entry block (id 0) and an exit block (id 1) (spec section 4.C); labeled
statements carry pre-allocated label blocks (spec section 6.1), so the
initial arena holds `nBlocks >= 2` blocks: entry, exit, and the label
blocks at ids 2..nBlocks-1.  Translation starts in the entry block. -/
def initSt (nBlocks : Nat) : TransSt :=
  { blocks := List.replicate nBlocks emptyBB, bbs := [], exitBB := 1,
    cur := some 0, contBB := none, breakBB := none, isLval := false, errors := [] }

/-- Modelled from the spec: after the body is lowered, the trailing
block falls through to the exit block and the exit block belongs to the
function ("exit_bb ∈ f.bbs", spec section 8; the exit block terminates
with the actual return, section 3.5). -/
def transFn (fuel nBlocks : Nat) (body : List Stmt) : TRes :=
  match transF fuel (initSt nBlocks) (.many body) with
  | .ok s => .ok (fnAddBB (closeTo s s.exitBB) s.exitBB)
  | r => r

def TRes.isOk : TRes → Bool
  | .ok _ => true
  | _ => false

/-- The state of an `ok` result (junk state otherwise). -/
def TRes.resSt : TRes → TransSt
  | .ok s => s
  | _ => initSt 0

/-- `trans->cont_bb` after a run, when it succeeded. -/
def TRes.contOf : TRes → Option Nat
  | .ok s => s.contBB
  | _ => none

/-- `trans->break_bb` after a run, when it succeeded. -/
def TRes.breakOf : TRes → Option Nat
  | .ok s => s.breakBB
  | _ => none

/-! Label and goto-target collectors over the statement tree. -/

mutual
def stmtLabels : Stmt → List Nat
  | .mk lb k => (match lb with | some l => [l] | none => []) ++ kindLabels k
def kindLabels : SKind → List Nat
  | .ifS _ a es e => stmtsLabels a ++ elifsLabels es ++ optBlkLabels e
  | .forLoop i b => optStmtLabels i ++ stmtsLabels b
  | .arrayLoop _ b => stmtsLabels b
  | .switchS cs _ => casesLabels cs
  | .blkS b => stmtsLabels b
  | _ => []
def optStmtLabels : Option Stmt → List Nat
  | none => []
  | some st => stmtLabels st
def optBlkLabels : Option (List Stmt) → List Nat
  | none => []
  | some b => stmtsLabels b
def stmtsLabels : List Stmt → List Nat
  | [] => []
  | st :: r => stmtLabels st ++ stmtsLabels r
def elifsLabels : List (Exp × List Stmt) → List Nat
  | [] => []
  | (_, b) :: r => stmtsLabels b ++ elifsLabels r
def casesLabels : List (Option Exp × List Stmt) → List Nat
  | [] => []
  | (_, b) :: r => stmtsLabels b ++ casesLabels r
end

mutual
def stmtGotos : Stmt → List Nat
  | .mk _ k => kindGotos k
def kindGotos : SKind → List Nat
  | .ifS _ a es e => stmtsGotos a ++ elifsGotos es ++ optBlkGotos e
  | .forLoop i b => optStmtGotos i ++ stmtsGotos b
  | .arrayLoop _ b => stmtsGotos b
  | .switchS cs _ => casesGotos cs
  | .blkS b => stmtsGotos b
  | .gotoS t => [t]
  | _ => []
def optStmtGotos : Option Stmt → List Nat
  | none => []
  | some st => stmtGotos st
def optBlkGotos : Option (List Stmt) → List Nat
  | none => []
  | some b => stmtsGotos b
def stmtsGotos : List Stmt → List Nat
  | [] => []
  | st :: r => stmtGotos st ++ stmtsGotos r
def elifsGotos : List (Exp × List Stmt) → List Nat
  | [] => []
  | (_, b) :: r => stmtsGotos b ++ elifsGotos r
def casesGotos : List (Option Exp × List Stmt) → List Nat
  | [] => []
  | (_, b) :: r => stmtsGotos b ++ casesGotos r
end

/-- Well-formedness of a function body against the resolver's
guarantees (spec section 6.1): every pre-allocated label block id lies
in the arena above entry (0) and exit (1), and every goto targets the
label block of some labeled statement of the body. -/
def wfBody (nBlocks : Nat) (body : List Stmt) : Bool :=
  2 ≤ nBlocks &&
  (stmtsLabels body).all (fun lb => 2 ≤ lb && lb < nBlocks) &&
  (stmtsGotos body).all (fun t => (stmtsLabels body).contains t)

/-- The CFG well-formedness checker of spec section 8, without the
reachability condition: every branch target of a committed block is
committed, the entry block (0) and the exit block are committed, the
exit block has no outgoing branches, and no committed block contains a
structured statement kind. -/
def cfgOkNoReach (s : TransSt) : Bool :=
  s.bbs.contains 0 &&
  s.bbs.contains s.exitBB &&
  (getBlock s s.exitBB).branches.isEmpty &&
  s.bbs.all (fun b =>
    (getBlock s b).branches.all (fun br => s.bbs.contains br.target) &&
    (getBlock s b).stmts.all (fun st => !structuredKind st.kindOf))

/-- Reachability along branches, from block `a` to block `b`. -/
inductive Reaches (s : TransSt) : Nat → Nat → Prop
  | refl (b : Nat) : Reaches s b b
  | step {a b c : Nat} (br : Branch) : Reaches s a b →
      br ∈ (getBlock s b).branches → br.target = c → Reaches s a c

/-! ## Emission (gen_stmt.c) -/

inductive WTy where
  | i32
  | i64
  | f32
  | f64
  | noneW
deriving DecidableEq, Repr

/-- Modelled from the spec: `type_gen` (the WebAssembly register width
of a type tag; its source is not in src/), from the tables in spec
sections 3.1 and 6.3: bool, byte, int8, int16, int32 are i32; int64 and
map are i64; float is f32; double is f64; the by-address types are i32
pointers; void and none have no register width. -/
def type_gen : Ty → WTy
  | .bool_ | .byte | .int8 | .int16 | .int32 => .i32
  | .int64 | .map => .i64
  | .float_ => .f32
  | .double_ => .f64
  | .int128 | .int256 | .string_ | .account | .struct_ | .object
  | .cursor | .tuple => .i32
  | .void | .none_ => .noneW

/-- Modelled from the spec: `meta_gen` is the register width of the
meta's type tag. -/
def meta_gen (m : Meta) : WTy := type_gen m.ty

/-- The Binaryen expressions gen_stmt.c builds (BinaryenExpressionRef):
GetLocal, i32 constant, i32 Add, SetGlobal, SetLocal, Store (bytes,
constant offset, align, address, value, type), Return, and Call (the
form env.map.set emission would take). -/
inductive WExpr where
  | getLocal (idx : Int) (ty : WTy)
  | constI32 (n : Int)
  | add32 (a b : WExpr)
  | setGlobal (name : String) (v : WExpr)
  | setLocal (idx : Int) (v : WExpr)
  | store (bytes : Nat) (offset : Nat) (align : Nat) (addr : WExpr) (value : WExpr) (ty : WTy)
  | ret (v : Option WExpr)
  | wcall (name : String) (args : List WExpr)
deriving Repr

/-- `i32_gen`: build an i32 constant. -/
def i32_gen (n : Int) : WExpr := .constI32 n

/-- Result of `stmt_gen` on one statement: an emitted instruction, a
NULL result (nothing emitted), or an ASSERT abort. -/
inductive GenRes where
  | emit (e : WExpr)
  | nothing
  | abort
deriving Repr

/-- `stmt_gen_assign` (gen_stmt.c lines 13-94).  `exp_gen` lives in
gen_exp.c, which is not in src/, and is passed in as `expGen`, indexed
by the `gen->is_lval` flag; a `none` result is a NULL
BinaryenExpressionRef.  The map check of lines 22-25 comes first: when
the lhs identifier is map-typed the function returns NULL ("TODO:
lvalue and rvalue must be combined into a call expression"), so nothing
is emitted.  A NULL rhs value also emits nothing (lines 29-30). -/
def stmt_gen_assign (expGen : Bool → Exp → Option WExpr) (l r : Exp) : GenRes :=
  let idOf := l.expId
  if (match idOf with
      | some id => id.meta.ty == Ty.map
      | none => false) then
    .nothing
  else
    match expGen false r with
    | none => .nothing
    | some value =>
      match l with
      | .glob _ _ name =>
        match name with
        | some nm => .emit (.setGlobal nm value)
        | none => .abort
      | .loc _ _ idx =>
        if 0 ≤ idx then .emit (.setLocal idx value) else .abort
      | .stk _ _ base addr offset sty =>
        if 0 ≤ base ∧ 0 ≤ addr then
          let address := WExpr.getLocal base .i32
          let address := if 0 < addr then WExpr.add32 address (i32_gen addr) else address
          .emit (.store (type_sizes_ sty) offset 0 address value (type_gen sty))
        else .abort
      | _ =>
        match idOf with
        | none => .abort
        | some id =>
          if id.isRet then
            if 0 ≤ id.idx then
              .emit (.store (type_sizes_ l.meta.ty) 0 0
                       (.getLocal id.idx .i32) value (meta_gen l.meta))
            else .abort
          else if 0 < id.meta.arrDim then
            match expGen true l with
            | some address =>
              .emit (.store (type_sizes_ l.meta.ty) 0 0 address value (meta_gen l.meta))
            | none => .abort
          else .abort

/-- `stmt_gen_return` (lines 96-100): a single Return of the generated
argument (NULL argument gives a bare return). -/
def stmt_gen_return (expGen : Bool → Exp → Option WExpr) (arg : Option Exp) : GenRes :=
  .emit (.ret (arg.bind (expGen false)))

/-- `stmt_gen` (lines 109-130): dispatch over the statement kinds that
survive trans; any other kind is `ASSERT1(!"invalid statement")`.
STMT_DDL is a TODO and emits nothing. -/
def stmt_gen (expGen : Bool → Exp → Option WExpr) (st : Stmt) : GenRes :=
  match st.kindOf with
  | .expS e =>
    match expGen false e with
    | some v => .emit v
    | none => .nothing
  | .assignS l r => stmt_gen_assign expGen l r
  | .retS arg => stmt_gen_return expGen arg
  | .ddlS _ => .nothing
  | _ => .abort

/-! ## C2: tuple-assignment arity -/

/-- The rhs element count flattened to depth 1: a tuple-typed element
contributes its element count, any other element contributes 1. -/
def flatCount : List Exp → Nat
  | [] => 0
  | e :: r => (if e.meta.ty = Ty.tuple then e.meta.elemCnt else 1) + flatCount r

def i32meta : Meta := ⟨Ty.int32, 0, 0⟩

/-- The lhs variables of the C2 failing input: three int32 locals. -/
def c2vars : List Exp := [.loc i32meta none 5, .loc i32meta none 6, .loc i32meta none 7]

/-- The rhs of the C2 failing input: a 2-element tuple followed by an
int32 atom; flattened count 2 + 1 = 3 = |lhs|. -/
def c2vals : List Exp :=
  [.tuple ⟨Ty.tuple, 2, 0⟩ [.atom i32meta none 0, .atom i32meta none 1],
   .atom i32meta none 2]

def c2lhs : Exp := .tuple ⟨Ty.tuple, 3, 0⟩ c2vars
def c2rhs : Exp := .tuple ⟨Ty.tuple, 2, 0⟩ c2vals

/-- Monotonicity facts every translator step obeys: the arena only
grows, the exit block is fixed, committed blocks stay committed, errors
are only appended, a block once committed-or-current stays
committed-or-current, and the jump targets only ever keep their entry
value or become null. -/
structure StepInv (s s' : TransSt) : Prop where
  len : s.blocks.length ≤ s'.blocks.length
  exit : s'.exitBB = s.exitBB
  bbs : ∀ x, x ∈ s.bbs → x ∈ s'.bbs
  err : ∃ d, s'.errors = s.errors ++ d
  persist : ∀ x, (x ∈ s.bbs ∨ s.cur = some x) → (x ∈ s'.bbs ∨ s'.cur = some x)
  contSh : s'.contBB = s.contBB ∨ s'.contBB = none
  breakSh : s'.breakBB = s.breakBB ∨ s'.breakBB = none

/-- The combined induction invariant of a translator run, difference
style: `gl` is the allowance of goto targets, `al` the allowance of
pending join blocks of an enclosing handler, `lbs` the labels processed
by the run.  `tgt`: every branch of the final state was already present
or targets a committed-or-current block, the exit block, an allowed
goto target, the entry continue/break target, or an allowed join.
`lab`: when the run reported no error, every processed label is
committed-or-current.  `stm`/`pgb`: new block statements are
non-structured unless recycled from entry piggybacks, and piggybacks
are never created. -/
structure FullInv (gl al lbs : List Nat) (s s' : TransSt) : Prop where
  step : StepInv s s'
  tgt : ∀ b br, br ∈ (getBlock s' b).branches →
      br ∈ (getBlock s b).branches ∨ br.target ∈ s'.bbs ∨ s'.cur = some br.target ∨
      br.target = s.exitBB ∨ br.target ∈ gl ∨
      s.contBB = some br.target ∨ s.breakBB = some br.target ∨ br.target ∈ al
  lab : s'.errors = s.errors → ∀ lb, lb ∈ lbs → (lb ∈ s'.bbs ∨ s'.cur = some lb)
  stm : ∀ b x, x ∈ (getBlock s' b).stmts →
      x ∈ (getBlock s b).stmts ∨ x ∈ (getBlock s b).pgbacks ∨
      structuredKind x.kindOf = false
  pgb : ∀ b x, x ∈ (getBlock s' b).pgbacks → x ∈ (getBlock s b).pgbacks

/-- A for-loop init statement as the spec requires: "optional init
statement emitted into the predecessor" (section 4.F.1) — an unlabeled
null, expression, assignment or DDL statement, which only appends to
the predecessor block. -/
def simpleInitKind : SKind → Bool
  | .nullS => true
  | .expS _ => true
  | .assignS _ _ => true
  | .ddlS _ => true
  | _ => false

def simpleInit : Option Stmt → Bool
  | none => true
  | some (.mk lb k) => lb.isNone && simpleInitKind k

mutual
def initsOkS : Stmt → Bool
  | .mk _ k => initsOkK k
def initsOkK : SKind → Bool
  | .ifS _ a es e => initsOkL a && initsOkEl es && initsOkOB e
  | .forLoop i b => simpleInit i && initsOkL b
  | .arrayLoop _ b => initsOkL b
  | .switchS cs _ => initsOkCs cs
  | .blkS b => initsOkL b
  | _ => true
def initsOkOB : Option (List Stmt) → Bool
  | none => true
  | some b => initsOkL b
def initsOkL : List Stmt → Bool
  | [] => true
  | st :: r => initsOkS st && initsOkL r
def initsOkEl : List (Exp × List Stmt) → Bool
  | [] => true
  | (_, b) :: r => initsOkL b && initsOkEl r
def initsOkCs : List (Option Exp × List Stmt) → Bool
  | [] => true
  | (_, b) :: r => initsOkL b && initsOkCs r
end

def workLabels : Work → List Nat
  | .one st => stmtLabels st
  | .many sts => stmtsLabels sts
  | .elifs _ _ es => elifsLabels es
  | .cases _ _ cs => casesLabels cs

def workGotos : Work → List Nat
  | .one st => stmtGotos st
  | .many sts => stmtsGotos sts
  | .elifs _ _ es => elifsGotos es
  | .cases _ _ cs => casesGotos cs

def workAllow : Work → List Nat
  | .one _ => []
  | .many _ => []
  | .elifs _ next _ => [next]
  | .cases _ next _ => [next]

def workInits : Work → Bool
  | .one st => initsOkS st
  | .many sts => initsOkL sts
  | .elifs _ _ es => initsOkEl es
  | .cases _ _ cs => initsOkCs cs

/-- Entry condition a work item needs: the else-if chain runs with a
committed-or-null current block (it is entered right after `closeTo`). -/
def workPre (w : Work) (s : TransSt) : Prop :=
  match w with
  | .elifs _ _ _ => ∀ x, s.cur = some x → x ∈ s.bbs
  | _ => True

/-- Exit guarantee of a work item: the else-if chain also ends with a
committed-or-null current block. -/
def workPost (w : Work) (s' : TransSt) : Prop :=
  match w with
  | .elifs _ _ _ => ∀ x, s'.cur = some x → x ∈ s'.bbs
  | _ => True

/-- The induction contract of the translator callback. -/
def RecOK (recur : TransSt → Work → TRes) : Prop :=
  ∀ s w s', recur s w = .ok s' → workInits w = true → workPre w s →
    FullInv (workGotos w) (workAllow w) (workLabels w) s s' ∧ workPost w s'

/-! Frame argument: the exit block (id 1) never gains branches.  Every
`bb_add_branch` in trans_stmt.c targets the current block or a freshly
created block, and the current block is never the exit block. -/

/-- Outgoing branches of the exit block. -/
def exbr (s : TransSt) : List Branch := (getBlock s 1).branches

/-- The `prev` argument of a pending chain work item is never the exit
block: it is always a block that was once the current block. -/
def workPrevOK : Work → Prop
  | .elifs p _ _ => p ≠ 1
  | .cases p _ _ => p ≠ 1
  | _ => True

def EPre (w : Work) (s : TransSt) : Prop :=
  2 ≤ s.blocks.length ∧ s.cur ≠ some 1 ∧ (1 ∈ workLabels w → False) ∧ workPrevOK w

def EOut (s s' : TransSt) : Prop :=
  exbr s' = exbr s ∧ s'.cur ≠ some 1 ∧ 2 ≤ s'.blocks.length

def ERecOK (recur : TransSt → Work → TRes) : Prop :=
  ∀ s w s', recur s w = .ok s' → EPre w s → EOut s s'

/-- The one-statement body `for (;;) { break; }`: the loop condition
block is pre-created, `break` leaves it for the fresh continuation
block, and the loop close commits the never-entered condition
block behind an unreachable back-edge. -/
def body0 : List Stmt := [Stmt.mk none (.forLoop none [Stmt.mk none (.breakS none)])]

/-! Frame argument for the switch layout: a label-free run whose
current block lies at or above a waterline `N` never modifies any block
below `N`; every block it writes is the current block or a fresh one. -/

def FOut (N : Nat) (s s' : TransSt) : Prop :=
  (∀ b, b < N → getBlock s' b = getBlock s b) ∧
  (∀ c, s'.cur = some c → N ≤ c) ∧
  N ≤ s'.blocks.length

def FPre (N : Nat) (w : Work) (s : TransSt) : Prop :=
  N ≤ s.blocks.length ∧ (∀ c, s.cur = some c → N ≤ c) ∧ workLabels w = [] ∧
  (match w with
   | .elifs p _ _ => N ≤ p
   | .cases p _ _ => N ≤ p
   | _ => True)

def FRecOK (recur : TransSt → Work → TRes) : Prop :=
  ∀ (N : Nat) s w s', recur s w = .ok s' → FPre N w s → FOut N s s'

/-- A concrete two-case switch (one valued case, one default) used to
instantiate the switch layout theorem. -/
def c4cases : List (Option Exp × List Stmt) :=
  [(some (.atom i32meta none 1), [Stmt.mk none (.breakS none)]),
   (none, [Stmt.mk none (.breakS none)])]

theorem transF_zero (s : TransSt) (w : Work) : transF 0 s w = .fuelOut := rfl

theorem transF_one (n : Nat) (s : TransSt) (st : Stmt) :
    transF (n + 1) s (.one st) = oneStep (transF n) s st := rfl

theorem transF_many (n : Nat) (s : TransSt) (sts : List Stmt) :
    transF (n + 1) s (.many sts) = manyStep (transF n) s sts := rfl

theorem transF_elifs (n : Nat) (s : TransSt) (prev next : Nat) (es : List (Exp × List Stmt)) :
    transF (n + 1) s (.elifs prev next es) = elifsStep (transF n) s prev next es := rfl

theorem transF_cases (n : Nat) (s : TransSt) (prev next : Nat)
    (cs : List (Option Exp × List Stmt)) :
    transF (n + 1) s (.cases prev next cs) = casesStep (transF n) s prev next cs := rfl

/-! ## Basic lemmas about the state helpers -/

theorem updAt_length {α : Type} (f : α → α) :
    ∀ (i : Nat) (l : List α), (updAt f i l).length = l.length := by
  intro i l
  induction l generalizing i with
  | nil => cases i <;> rfl
  | cons x xs ih => cases i with
    | zero => rfl
    | succ n => simpa [updAt] using ih n

theorem updAt_getD {α : Type} (f : α → α) :
    ∀ (i : Nat) (l : List α) (d : α), i < l.length →
      (updAt f i l).getD i d = f (l.getD i d) := by
  intro i l
  induction l generalizing i with
  | nil => intro d h; simp at h
  | cons x xs ih =>
    intro d h
    cases i with
    | zero => rfl
    | succ n => simpa [updAt] using ih n d (by simpa using h)

theorem updAt_getD_ne {α : Type} (f : α → α) :
    ∀ (i j : Nat) (l : List α) (d : α), i ≠ j →
      (updAt f i l).getD j d = l.getD j d := by
  intro i j l
  induction l generalizing i j with
  | nil => intro d _; cases i <;> rfl
  | cons x xs ih =>
    intro d hne
    cases i with
    | zero =>
      cases j with
      | zero => exact absurd rfl hne
      | succ m => rfl
    | succ n =>
      cases j with
      | zero => rfl
      | succ m => simpa [updAt, List.getD] using ih n m d (by omega)

/-! ## C5: the type table -/

/-- C5: for every type tag in the closed universe, the display-name,
linear-memory-size, and host-size lookups are total functions returning
a fixed value, and the linear-memory sizes agree with the table of spec
section 6.3 (4 for bool, byte, int8, int16, int32, float and the
pointer types; 8 for int64, map and double; 0 for void and none). -/
theorem type_table_total_and_matches_spec :
    ∀ t : Ty, type_sizes_ t = specLinearWidth t ∧
      ∃ nm sz hb, type_names_ t = nm ∧ type_sizes_ t = sz ∧ type_bytes_ t = hb := by
  intro t
  refine ⟨by cases t <;> rfl, _, _, _, rfl, rfl, rfl⟩

/-! ## C7: the modifier bit-set -/

/-- C7 counterexample: the five modifiers do not all correspond to
distinct bits.  MOD_GLOBAL is 0x00, so the modifier set {global} has
the same combined value as the empty set, oring global into local
changes nothing, and no value can test the presence of global by
masking.  Hence not every subset of the five modifiers is representable
as a distinct value and global is not independently testable. -/
theorem modifier_global_is_not_a_bit :
    MOD_GLOBAL = 0 ∧
    modsValue [ MOD_GLOBAL ] = modsValue [] ∧
    (MOD_GLOBAL ||| MOD_LOCAL) = modsValue [ MOD_LOCAL ] ∧
    (MOD_LOCAL &&& MOD_GLOBAL) = (0 &&& MOD_GLOBAL) := by
  decide

/-- C7 amended: the four nonzero modifiers local, shared, transfer,
readonly correspond to distinct bits (0x01, 0x02, 0x04, 0x08), so every
subset of these four is representable as one distinct modifier value
and the presence of each of the four is independently testable by
masking; MOD_GLOBAL is the zero value, the default meaning the absence
of the other modifiers. -/
theorem modifier_four_form_bitset :
    MOD_GLOBAL = 0 ∧ MOD_LOCAL = 1 ∧ MOD_SHARED = 2 ∧
    MOD_TRANSFER = 4 ∧ MOD_READONLY = 8 ∧
    nodupB modSubsetVals = true ∧
    ∀ lo sh tr ro : Bool,
      (decide (modSel lo sh tr ro &&& MOD_LOCAL ≠ 0) = lo) ∧
      (decide (modSel lo sh tr ro &&& MOD_SHARED ≠ 0) = sh) ∧
      (decide (modSel lo sh tr ro &&& MOD_TRANSFER ≠ 0) = tr) ∧
      (decide (modSel lo sh tr ro &&& MOD_READONLY ≠ 0) = ro) := by
  decide

/-! ## C8: array-loop lowering -/

/-- C8: lowering an array-loop statement reports the not-supported user
error carrying the statement's source position and appends nothing to
the function's CFG: the committed block vector is unchanged, every
existing block (its statements and branches) is unchanged, and the
arena grows by at most the dispatcher's fresh empty current block
(created before the kind dispatch when the current block was null,
lines 408-410; it is neither committed nor filled). -/
theorem array_loop_reports_not_supported :
    ∀ (fuel : Nat) (s : TransSt) (pos : Nat) (body : List Stmt),
    ∃ s', transF (fuel + 1) s (.one (.mk none (.arrayLoop pos body))) = .ok s' ∧
      s'.errors = s.errors ++ [(.notSupported, pos)] ∧
      s'.bbs = s.bbs ∧
      s'.blocks.take s.blocks.length = s.blocks ∧
      (s'.blocks = s.blocks ∨ s'.blocks = s.blocks ++ [emptyBB]) := by
  intro fuel s pos body
  cases h : s.cur with
  | some cb =>
    refine ⟨{ s with errors := s.errors ++ [(.notSupported, pos)] },
            by simp [transF, oneStep, labelStep, Stmt.labelOf, Stmt.kindOf, h], rfl, rfl, by simp, Or.inl rfl⟩
  | none =>
    refine ⟨{ s with
              blocks := s.blocks ++ [emptyBB]
              cur := some s.blocks.length
              errors := s.errors ++ [(.notSupported, pos)] },
            by simp [transF, oneStep, labelStep, Stmt.labelOf, Stmt.kindOf, h, bbNew], rfl, rfl,
            by simp, Or.inr rfl⟩

/-! ## C10: a tuple lhs demands a tuple rhs -/

/-- C10: whenever `stmt_trans_assign` lowers an assignment whose lhs is
a tuple expression, the rhs (after rvalue lowering, modelled as the
identity since trans_exp.c is not in src/) must itself be a tuple
expression: for every other rhs form the `ASSERT1(is_tuple_exp(r_exp))`
at line 53 is a fatal assertion failure and no assignment is emitted. -/
theorem tuple_lhs_requires_tuple_rhs :
    ∀ (fuel : Nat) (s : TransSt) (lb : Option Nat) (m : Meta)
      (es : List Exp) (r : Exp), isTupleExp r = false →
      transF (fuel + 1) s (.one (.mk lb (.assignS (.tuple m es) r))) = .failed := by
  intro fuel s lb m es r hr
  cases lb with
  | some l =>
    cases h : s.cur with
    | some cb =>
      cases r <;> simp_all [transF, oneStep, labelStep, Stmt.labelOf, Stmt.kindOf, stmtTransAssign, isTupleExp]
    | none =>
      cases r <;> simp_all [transF, oneStep, labelStep, Stmt.labelOf, Stmt.kindOf, stmtTransAssign, isTupleExp]
  | none =>
    cases h : s.cur with
    | some cb =>
      cases r <;> simp_all [transF, oneStep, labelStep, Stmt.labelOf, Stmt.kindOf, stmtTransAssign, isTupleExp]
    | none =>
      cases r <;> simp_all [transF, oneStep, labelStep, Stmt.labelOf, Stmt.kindOf, stmtTransAssign, isTupleExp, bbNew]

/-- C10 witness: a concrete tuple-lhs assignment with a non-tuple rhs
(an int32 atom) aborts. -/
theorem tuple_lhs_requires_tuple_rhs_witness :
    isTupleExp (.atom ⟨Ty.int32, 0, 0⟩ none 0) = false ∧
    transF 1 (initSt 2)
      (.one (.mk none (.assignS (.tuple ⟨Ty.tuple, 0, 0⟩ [])
        (.atom ⟨Ty.int32, 0, 0⟩ none 0)))) = .failed :=
  ⟨rfl, tuple_lhs_requires_tuple_rhs 0 (initSt 2) none ⟨Ty.tuple, 0, 0⟩ []
          (.atom ⟨Ty.int32, 0, 0⟩ none 0) rfl⟩

/-! ## C1: map-typed assignment emission -/

/-- C1 evaluation: for every assignment statement whose lhs identifier
is map-typed (the `m[k] = v` case), `stmt_gen` returns NULL (lines
22-25 of gen_stmt.c): no WebAssembly Store is emitted, but no call to
the imported env.map.set primitive is emitted either — nothing at all
is emitted; combining lvalue and rvalue into the call expression is the
TODO left in the source. -/
theorem map_assign_emits_no_instruction :
    ∀ (expGen : Bool → Exp → Option WExpr) (m : Meta) (ec ad : Nat) (ix : Int)
      (rt : Bool) (tag : Nat) (r : Exp),
      stmt_gen expGen
        (.mk none (.assignS (.atom m (some ⟨⟨Ty.map, ec, ad⟩, ix, rt⟩) tag) r)) =
        .nothing := by
  intro expGen m ec ad ix rt tag r
  rfl

/-- C2 evaluation at the failing input: the tuple assignment
`(a, b, c) = (pair, x)` satisfies the claim's premises — the flattened
rhs element count equals the lhs element count (2 + 1 = 3),
`|lhs| = 3 > 2 = |rhs|`, and every per-element type matches (all
int32) — yet `stmt_trans_assign` aborts instead of emitting one
assignment per lhs slot: after consuming two lhs slots for the tuple
element, the duplicated `var_idx++` of lines 92-96 checks the meta of
lhs slot 2 against the non-tuple element but then reads lhs slot 3,
which does not exist. -/
theorem tuple_assign_flatten_aborts :
    flatCount c2vals = 3 ∧
    c2vars.length = 3 ∧ c2vals.length = 2 ∧
    c2vars.all (fun e => e.meta == i32meta) = true ∧
    stmtTransAssign (initSt 2) 0 (mkAssign c2lhs c2rhs) c2lhs c2rhs = none ∧
    transF 1 (initSt 2) (.one (.mk none (.assignS c2lhs c2rhs))) = .failed :=
  ⟨rfl, rfl, rfl, rfl, rfl, rfl⟩

/-! State-operation field lemmas. -/

@[simp] theorem bbAddStmt_bbs (s : TransSt) (b : Nat) (st : Stmt) : (bbAddStmt s b st).bbs = s.bbs := rfl
@[simp] theorem bbAddStmt_exitBB (s : TransSt) (b : Nat) (st : Stmt) : (bbAddStmt s b st).exitBB = s.exitBB := rfl
@[simp] theorem bbAddStmt_cur (s : TransSt) (b : Nat) (st : Stmt) : (bbAddStmt s b st).cur = s.cur := rfl
@[simp] theorem bbAddStmt_contBB (s : TransSt) (b : Nat) (st : Stmt) : (bbAddStmt s b st).contBB = s.contBB := rfl
@[simp] theorem bbAddStmt_breakBB (s : TransSt) (b : Nat) (st : Stmt) : (bbAddStmt s b st).breakBB = s.breakBB := rfl
@[simp] theorem bbAddStmt_errors (s : TransSt) (b : Nat) (st : Stmt) : (bbAddStmt s b st).errors = s.errors := rfl
@[simp] theorem bbAddStmt_length (s : TransSt) (b : Nat) (st : Stmt) :
    (bbAddStmt s b st).blocks.length = s.blocks.length := by
  simp [bbAddStmt, updAt_length]

@[simp] theorem bbAddBranch_bbs (s : TransSt) (b : Nat) (g : Option Exp) (t : Nat) : (bbAddBranch s b g t).bbs = s.bbs := rfl
@[simp] theorem bbAddBranch_exitBB (s : TransSt) (b : Nat) (g : Option Exp) (t : Nat) : (bbAddBranch s b g t).exitBB = s.exitBB := rfl
@[simp] theorem bbAddBranch_cur (s : TransSt) (b : Nat) (g : Option Exp) (t : Nat) : (bbAddBranch s b g t).cur = s.cur := rfl
@[simp] theorem bbAddBranch_contBB (s : TransSt) (b : Nat) (g : Option Exp) (t : Nat) : (bbAddBranch s b g t).contBB = s.contBB := rfl
@[simp] theorem bbAddBranch_breakBB (s : TransSt) (b : Nat) (g : Option Exp) (t : Nat) : (bbAddBranch s b g t).breakBB = s.breakBB := rfl
@[simp] theorem bbAddBranch_errors (s : TransSt) (b : Nat) (g : Option Exp) (t : Nat) : (bbAddBranch s b g t).errors = s.errors := rfl
@[simp] theorem bbAddBranch_length (s : TransSt) (b : Nat) (g : Option Exp) (t : Nat) :
    (bbAddBranch s b g t).blocks.length = s.blocks.length := by
  simp [bbAddBranch, updAt_length]

@[simp] theorem fnAddBB_blocks (s : TransSt) (b : Nat) : (fnAddBB s b).blocks = s.blocks := by
  unfold fnAddBB; split <;> rfl
@[simp] theorem fnAddBB_exitBB (s : TransSt) (b : Nat) : (fnAddBB s b).exitBB = s.exitBB := by
  unfold fnAddBB; split <;> rfl
@[simp] theorem fnAddBB_cur (s : TransSt) (b : Nat) : (fnAddBB s b).cur = s.cur := by
  unfold fnAddBB; split <;> rfl
@[simp] theorem fnAddBB_contBB (s : TransSt) (b : Nat) : (fnAddBB s b).contBB = s.contBB := by
  unfold fnAddBB; split <;> rfl
@[simp] theorem fnAddBB_breakBB (s : TransSt) (b : Nat) : (fnAddBB s b).breakBB = s.breakBB := by
  unfold fnAddBB; split <;> rfl
@[simp] theorem fnAddBB_errors (s : TransSt) (b : Nat) : (fnAddBB s b).errors = s.errors := by
  unfold fnAddBB; split <;> rfl

@[simp] theorem getBlock_fnAddBB (s : TransSt) (b i : Nat) :
    getBlock (fnAddBB s b) i = getBlock s i := by
  unfold getBlock; rw [fnAddBB_blocks]

theorem fnAddBB_contains_self (s : TransSt) (b : Nat) : (fnAddBB s b).bbs.contains b = true := by
  unfold fnAddBB
  split
  · assumption
  · simp

theorem getBlock_bbAddStmt_self (s : TransSt) (b : Nat) (st : Stmt) (h : b < s.blocks.length) :
    getBlock (bbAddStmt s b st) b =
      { getBlock s b with stmts := (getBlock s b).stmts ++ [st] } := by
  unfold getBlock bbAddStmt
  rw [updAt_getD _ _ _ _ h]

theorem getBlock_bbAddBranch_self (s : TransSt) (b : Nat) (g : Option Exp) (t : Nat)
    (h : b < s.blocks.length) :
    getBlock (bbAddBranch s b g t) b =
      { getBlock s b with branches := (getBlock s b).branches ++ [⟨g, t⟩] } := by
  unfold getBlock bbAddBranch
  rw [updAt_getD _ _ _ _ h]

theorem getBlock_bbAddStmt_ne (s : TransSt) (b i : Nat) (st : Stmt) (h : b ≠ i) :
    getBlock (bbAddStmt s b st) i = getBlock s i := by
  unfold getBlock bbAddStmt
  rw [updAt_getD_ne _ _ _ _ _ h]

theorem getBlock_bbAddBranch_ne (s : TransSt) (b i : Nat) (g : Option Exp) (t : Nat) (h : b ≠ i) :
    getBlock (bbAddBranch s b g t) i = getBlock s i := by
  unfold getBlock bbAddBranch
  rw [updAt_getD_ne _ _ _ _ _ h]

/-- C6: for every return statement lowered with current block `cb`:
trans appends the return statement to `cb`, adds one unconditional
branch from `cb` to the function's exit block, commits `cb`, and the
current block becomes null (the argument expression, when present, is
lowered first; expression lowering is state-neutral here, trans_exp.c
not being in src/); gen then emits a single WebAssembly Return of the
generated argument. -/
theorem return_lowering_and_emission :
    ∀ (fuel : Nat) (s : TransSt) (cb : Nat) (arg : Option Exp)
      (expGen : Bool → Exp → Option WExpr),
      s.cur = some cb → cb < s.blocks.length →
      ∃ s', transF (fuel + 1) s (.one (.mk none (.retS arg))) = .ok s' ∧
        (getBlock s' cb).stmts = (getBlock s cb).stmts ++ [.mk none (.retS arg)] ∧
        (getBlock s' cb).branches = (getBlock s cb).branches ++ [⟨none, s.exitBB⟩] ∧
        s'.bbs.contains cb = true ∧
        s'.cur = none ∧
        stmt_gen expGen (.mk none (.retS arg)) = .emit (.ret (arg.bind (expGen false))) := by
  intro fuel s cb arg expGen hcur hlt
  refine ⟨{ fnAddBB (bbAddBranch (bbAddStmt s cb (.mk none (.retS arg))) cb none
              (bbAddStmt s cb (.mk none (.retS arg))).exitBB) cb
            with cur := none },
          by simp [transF, oneStep, labelStep, retStep, Stmt.labelOf, Stmt.kindOf, hcur], ?_, ?_,
          fnAddBB_contains_self _ _, rfl, rfl⟩
  · show (getBlock (fnAddBB _ _) cb).stmts = _
    rw [getBlock_fnAddBB,
        getBlock_bbAddBranch_self _ _ _ _ (by simpa using hlt),
        getBlock_bbAddStmt_self _ _ _ hlt]
  · show (getBlock (fnAddBB _ _) cb).branches = _
    rw [getBlock_fnAddBB,
        getBlock_bbAddBranch_self _ _ _ _ (by simpa using hlt),
        getBlock_bbAddStmt_self _ _ _ hlt]
    rfl

/-- C6 witness: lowering `return;` from the entry block of a fresh
function, with a trivial expression generator. -/
theorem return_lowering_and_emission_witness :
    (initSt 2).cur = some 0 ∧ 0 < (initSt 2).blocks.length ∧
    (∃ s', transF 1 (initSt 2) (.one (.mk none (.retS none))) = .ok s' ∧
      (getBlock s' 0).stmts = (getBlock (initSt 2) 0).stmts ++ [.mk none (.retS none)] ∧
      (getBlock s' 0).branches = (getBlock (initSt 2) 0).branches ++ [⟨none, (initSt 2).exitBB⟩] ∧
      s'.bbs.contains 0 = true ∧
      s'.cur = none ∧
      stmt_gen (fun _ _ => none) (.mk none (.retS none)) = .emit (.ret none)) :=
  ⟨rfl, by decide,
   return_lowering_and_emission 0 (initSt 2) 0 none (fun _ _ => none) rfl (by decide)⟩

/-! More state-operation simp lemmas. -/

@[simp] theorem bbNew_fst (s : TransSt) : (bbNew s).1 = s.blocks.length := rfl
@[simp] theorem bbNew_snd_blocks (s : TransSt) : (bbNew s).2.blocks = s.blocks ++ [emptyBB] := rfl
@[simp] theorem bbNew_snd_bbs (s : TransSt) : (bbNew s).2.bbs = s.bbs := rfl
@[simp] theorem bbNew_snd_exitBB (s : TransSt) : (bbNew s).2.exitBB = s.exitBB := rfl
@[simp] theorem bbNew_snd_cur (s : TransSt) : (bbNew s).2.cur = s.cur := rfl
@[simp] theorem bbNew_snd_contBB (s : TransSt) : (bbNew s).2.contBB = s.contBB := rfl
@[simp] theorem bbNew_snd_breakBB (s : TransSt) : (bbNew s).2.breakBB = s.breakBB := rfl
@[simp] theorem bbNew_snd_errors (s : TransSt) : (bbNew s).2.errors = s.errors := rfl

/-! Per-kind equations of `oneStep` on concrete statement kinds. -/

theorem oneStep_forLoop (recur : TransSt → Work → TRes) (s : TransSt) (lb : Option Nat)
    (init : Option Stmt) (body : List Stmt) :
    oneStep recur s (.mk lb (.forLoop init body)) =
      match (labelStep s lb).cur with
      | none => .failed
      | some cb => forLoopStep recur (labelStep s lb) cb init body := rfl

theorem oneStep_switch (recur : TransSt → Work → TRes) (s : TransSt) (lb : Option Nat)
    (cs : List (Option Exp × List Stmt)) (d : Bool) :
    oneStep recur s (.mk lb (.switchS cs d)) =
      match (labelStep s lb).cur with
      | none => .failed
      | some cb => switchStep recur (labelStep s lb) cb cs d := rfl

theorem oneStep_cont (recur : TransSt → Work → TRes) (s : TransSt) (lb : Option Nat) :
    oneStep recur s (.mk lb .contS) =
      match (labelStep s lb).cur with
      | none => .failed
      | some cb => contStep (labelStep s lb) cb := rfl

theorem oneStep_break (recur : TransSt → Work → TRes) (s : TransSt) (lb : Option Nat)
    (cond : Option Exp) :
    oneStep recur s (.mk lb (.breakS cond)) =
      match (labelStep s lb).cur with
      | none => .failed
      | some cb => breakStep (labelStep s lb) cb cond := rfl

theorem labelStep_none_of_cur (s : TransSt) (nb : Nat) (h : s.cur = some nb) :
    labelStep s none = s := by
  simp [labelStep, h]

/-- A successful for-loop lowering ends with both jump targets
cleared (lines 214-215) and a non-null current block (line 228). -/
theorem forLoopStep_clears (recur : TransSt → Work → TRes) (s : TransSt) (cb : Nat)
    (init : Option Stmt) (body : List Stmt) (s' : TransSt)
    (h : forLoopStep recur s cb init body = .ok s') :
    s'.contBB = none ∧ s'.breakBB = none ∧ ∃ nb, s'.cur = some nb := by
  unfold forLoopStep at h
  repeat' (first | split at h | dsimp only at h)
  all_goals first
    | (cases h; exact ⟨by simp, by simp, _, rfl⟩)
    | simp_all

/-- A successful switch lowering ends with the break target cleared
(line 320) and a non-null current block (line 321). -/
theorem switchStep_clears (recur : TransSt → Work → TRes) (s : TransSt) (cb : Nat)
    (cs : List (Option Exp × List Stmt)) (hasDflt : Bool) (s' : TransSt)
    (h : switchStep recur s cb cs hasDflt = .ok s') :
    s'.breakBB = none ∧ ∃ nb, s'.cur = some nb := by
  unfold switchStep at h
  repeat' (first | split at h | dsimp only at h)
  all_goals first
    | (cases h; exact ⟨by simp, _, rfl⟩)
    | simp_all

theorem transF_forLoop_ok (n : Nat) (s : TransSt) (lb : Option Nat) (init : Option Stmt)
    (body : List Stmt) (s1 : TransSt)
    (h : transF n s (.one (.mk lb (.forLoop init body))) = .ok s1) :
    s1.contBB = none ∧ s1.breakBB = none ∧ ∃ nb, s1.cur = some nb := by
  cases n with
  | zero => simp [transF_zero] at h
  | succ m =>
    rw [transF_one, oneStep_forLoop] at h
    cases hc : (labelStep s lb).cur with
    | none => rw [hc] at h; simp at h
    | some cb => rw [hc] at h; exact forLoopStep_clears _ _ _ _ _ _ h

theorem transF_switch_ok (n : Nat) (s : TransSt) (lb : Option Nat)
    (cs : List (Option Exp × List Stmt)) (d : Bool) (s1 : TransSt)
    (h : transF n s (.one (.mk lb (.switchS cs d))) = .ok s1) :
    s1.breakBB = none ∧ ∃ nb, s1.cur = some nb := by
  cases n with
  | zero => simp [transF_zero] at h
  | succ m =>
    rw [transF_one, oneStep_switch] at h
    cases hc : (labelStep s lb).cur with
    | none => rw [hc] at h; simp at h
    | some cb => rw [hc] at h; exact switchStep_clears _ _ _ _ _ _ h

theorem contStep_failed (s : TransSt) (cb : Nat) (h : s.contBB = none) :
    contStep s cb = .failed := by
  simp [contStep, h]

theorem breakStep_failed (s : TransSt) (cb : Nat) (cond : Option Exp) (h : s.breakBB = none) :
    breakStep s cb cond = .failed := by
  simp [breakStep, h]

/-- C9: after `stmt_trans` finishes a for-loop, the continue and break
targets are null; after a switch, the break target is null — cleared,
not restored to any enclosing loop's targets, whatever they were on
entry.  Consequently, for any program in which a continue (resp. an
unconditional or conditional break) directly follows a completed
nested for-loop (resp. switch) — as happens inside an outer loop body —
lowering that continue/break hits the fatal `ASSERT(trans->cont_bb !=
NULL)` / `ASSERT(trans->break_bb != NULL)` and never returns normally
(the remaining disjunct is the fuel artifact of the embedding). -/
theorem clearing_of_jump_targets_aborts_later_jumps :
    (∀ (fuel : Nat) (s : TransSt) (lb : Option Nat) (init : Option Stmt) (body : List Stmt),
      (transF fuel s (.one (.mk lb (.forLoop init body)))).contOf = none ∧
      (transF fuel s (.one (.mk lb (.forLoop init body)))).breakOf = none) ∧
    (∀ (fuel : Nat) (s : TransSt) (lb : Option Nat) (cs : List (Option Exp × List Stmt)) (d : Bool),
      (transF fuel s (.one (.mk lb (.switchS cs d)))).breakOf = none) ∧
    (∀ (fuel : Nat) (s : TransSt) (init : Option Stmt) (body : List Stmt) (rest : List Stmt),
      transF fuel s (.many (.mk none (.forLoop init body) :: .mk none .contS :: rest)) = .failed ∨
      transF fuel s (.many (.mk none (.forLoop init body) :: .mk none .contS :: rest)) = .fuelOut) ∧
    (∀ (fuel : Nat) (s : TransSt) (cs : List (Option Exp × List Stmt)) (d : Bool)
       (cond : Option Exp) (rest : List Stmt),
      transF fuel s (.many (.mk none (.switchS cs d) :: .mk none (.breakS cond) :: rest)) = .failed ∨
      transF fuel s (.many (.mk none (.switchS cs d) :: .mk none (.breakS cond) :: rest)) = .fuelOut) := by
  refine ⟨?_, ?_, ?_, ?_⟩
  · intro fuel s lb init body
    cases h : transF fuel s (.one (.mk lb (.forLoop init body))) with
    | ok s1 =>
      obtain ⟨h1, h2, _⟩ := transF_forLoop_ok fuel s lb init body s1 h
      exact ⟨by simp [TRes.contOf, h1], by simp [TRes.breakOf, h2]⟩
    | failed => exact ⟨rfl, rfl⟩
    | fuelOut => exact ⟨rfl, rfl⟩
  · intro fuel s lb cs d
    cases h : transF fuel s (.one (.mk lb (.switchS cs d))) with
    | ok s1 =>
      obtain ⟨h1, _⟩ := transF_switch_ok fuel s lb cs d s1 h
      simp [TRes.breakOf, h1]
    | failed => rfl
    | fuelOut => rfl
  · intro fuel s init body rest
    cases fuel with
    | zero => exact Or.inr rfl
    | succ n =>
      rw [transF_many]
      cases h1 : transF n s (.one (.mk none (.forLoop init body))) with
      | failed => left; simp [manyStep, h1]
      | fuelOut => right; simp [manyStep, h1]
      | ok s1 =>
        obtain ⟨hc, _, nb, hnb⟩ := transF_forLoop_ok n s none init body s1 h1
        cases n with
        | zero => right; simp [manyStep, h1, transF_zero]
        | succ m =>
          cases m with
          | zero => right; simp [manyStep, h1, transF_many, transF_zero]
          | succ k =>
            have h2 : transF (k + 1) s1 (.one (.mk none .contS)) = .failed := by
              rw [transF_one, oneStep_cont, labelStep_none_of_cur s1 nb hnb, hnb]
              exact contStep_failed s1 nb hc
            left
            simp [manyStep, h1, transF_many, h2]
  · intro fuel s cs d cond rest
    cases fuel with
    | zero => exact Or.inr rfl
    | succ n =>
      rw [transF_many]
      cases h1 : transF n s (.one (.mk none (.switchS cs d))) with
      | failed => left; simp [manyStep, h1]
      | fuelOut => right; simp [manyStep, h1]
      | ok s1 =>
        obtain ⟨hb, nb, hnb⟩ := transF_switch_ok n s none cs d s1 h1
        cases n with
        | zero => right; simp [manyStep, h1, transF_zero]
        | succ m =>
          cases m with
          | zero => right; simp [manyStep, h1, transF_many, transF_zero]
          | succ k =>
            have h2 : transF (k + 1) s1 (.one (.mk none (.breakS cond))) = .failed := by
              rw [transF_one, oneStep_break, labelStep_none_of_cur s1 nb hnb, hnb]
              exact breakStep_failed s1 nb cond hb
            left
            simp [manyStep, h1, transF_many, h2]

theorem stepInvRefl (s : TransSt) : StepInv s s :=
  ⟨Nat.le.refl, Eq.refl _, fun _ h => h, ⟨[], by simp⟩, fun _ h => h,
   Or.inl (Eq.refl _), Or.inl (Eq.refl _)⟩

theorem StepInv.chain {s1 s2 s3 : TransSt} (a : StepInv s1 s2) (b : StepInv s2 s3) :
    StepInv s1 s3 := by
  refine ⟨Nat.le_trans a.len b.len, b.exit.trans a.exit,
          fun x h => b.bbs x (a.bbs x h), ?_,
          fun x h => b.persist x (a.persist x h), ?_, ?_⟩
  · obtain ⟨d1, h1⟩ := a.err
    obtain ⟨d2, h2⟩ := b.err
    exact ⟨d1 ++ d2, by rw [h2, h1, List.append_assoc]⟩
  · rcases b.contSh with h | h
    · rw [h]; exact a.contSh
    · exact .inr h
  · rcases b.breakSh with h | h
    · rw [h]; exact a.breakSh
    · exact .inr h

theorem mem_fnAddBB (s : TransSt) (b x : Nat) (h : x ∈ s.bbs) : x ∈ (fnAddBB s b).bbs := by
  unfold fnAddBB
  split
  · exact h
  · exact List.mem_append_left _ h

theorem self_mem_fnAddBB (s : TransSt) (b : Nat) : b ∈ (fnAddBB s b).bbs := by
  unfold fnAddBB
  split
  · next hc => simpa using hc
  · simp

theorem fnAddBB_bbs_sup (s : TransSt) (b x : Nat) (h : x ∈ (fnAddBB s b).bbs) :
    x ∈ s.bbs ∨ x = b := by
  unfold fnAddBB at h
  split at h
  · exact .inl h
  · rcases List.mem_append.mp h with h | h
    · exact .inl h
    · simp at h; exact Or.inr h

/-! Membership characterizations of the block operations. -/

theorem getBlock_oob (s : TransSt) (b : Nat) (h : ¬ b < s.blocks.length) :
    getBlock s b = emptyBB := by
  unfold getBlock
  rw [List.getD_eq_getElem?_getD, List.getElem?_eq_none (by omega), Option.getD_none]

theorem getBlock_bbNew (s : TransSt) (b : Nat) :
    getBlock (bbNew s).2 b = getBlock s b ∨ getBlock (bbNew s).2 b = emptyBB := by
  by_cases hb : b < s.blocks.length
  · left
    unfold getBlock bbNew
    simp only
    rw [List.getD_eq_getElem?_getD, List.getD_eq_getElem?_getD,
        List.getElem?_append_left hb]
  · right
    by_cases he : b = s.blocks.length
    · unfold getBlock bbNew
      simp only
      rw [List.getD_eq_getElem?_getD, he]
      rw [List.getElem?_append_right (by omega)]
      simp
    · exact getBlock_oob _ _ (by simp [bbNew]; omega)

theorem branches_bbAddStmt (s : TransSt) (cb b : Nat) (st : Stmt) :
    (getBlock (bbAddStmt s cb st) b).branches = (getBlock s b).branches := by
  by_cases hc : cb = b
  · subst hc
    by_cases hb : cb < s.blocks.length
    · rw [getBlock_bbAddStmt_self s cb st hb]
    · rw [getBlock_oob _ _ hb, getBlock_oob _ _ (by simpa using hb)]
  · rw [getBlock_bbAddStmt_ne s cb b st hc]

theorem pgbacks_bbAddStmt (s : TransSt) (cb b : Nat) (st : Stmt) :
    (getBlock (bbAddStmt s cb st) b).pgbacks = (getBlock s b).pgbacks := by
  by_cases hc : cb = b
  · subst hc
    by_cases hb : cb < s.blocks.length
    · rw [getBlock_bbAddStmt_self s cb st hb]
    · rw [getBlock_oob _ _ hb, getBlock_oob _ _ (by simpa using hb)]
  · rw [getBlock_bbAddStmt_ne s cb b st hc]

theorem stmts_bbAddStmt (s : TransSt) (cb b : Nat) (stm : Stmt) (x : Stmt)
    (h : x ∈ (getBlock (bbAddStmt s cb stm) b).stmts) :
    x ∈ (getBlock s b).stmts ∨ x = stm := by
  by_cases hc : cb = b
  · subst hc
    by_cases hb : cb < s.blocks.length
    · rw [getBlock_bbAddStmt_self s cb stm hb] at h
      simpa using h
    · rw [getBlock_oob _ _ (by simpa using hb)] at h
      simp [emptyBB] at h
  · rw [getBlock_bbAddStmt_ne s cb b stm hc] at h
    exact Or.inl h

theorem stmts_bbAddBranch (s : TransSt) (cb b : Nat) (g : Option Exp) (t : Nat) :
    (getBlock (bbAddBranch s cb g t) b).stmts = (getBlock s b).stmts := by
  by_cases hc : cb = b
  · subst hc
    by_cases hb : cb < s.blocks.length
    · rw [getBlock_bbAddBranch_self s cb g t hb]
    · rw [getBlock_oob _ _ hb, getBlock_oob _ _ (by simpa using hb)]
  · rw [getBlock_bbAddBranch_ne s cb b g t hc]

theorem pgbacks_bbAddBranch (s : TransSt) (cb b : Nat) (g : Option Exp) (t : Nat) :
    (getBlock (bbAddBranch s cb g t) b).pgbacks = (getBlock s b).pgbacks := by
  by_cases hc : cb = b
  · subst hc
    by_cases hb : cb < s.blocks.length
    · rw [getBlock_bbAddBranch_self s cb g t hb]
    · rw [getBlock_oob _ _ hb, getBlock_oob _ _ (by simpa using hb)]
  · rw [getBlock_bbAddBranch_ne s cb b g t hc]

theorem branches_bbAddBranch (s : TransSt) (cb b : Nat) (g : Option Exp) (t : Nat) (br : Branch)
    (h : br ∈ (getBlock (bbAddBranch s cb g t) b).branches) :
    br ∈ (getBlock s b).branches ∨ br = ⟨g, t⟩ := by
  by_cases hc : cb = b
  · subst hc
    by_cases hb : cb < s.blocks.length
    · rw [getBlock_bbAddBranch_self s cb g t hb] at h
      simpa using h
    · rw [getBlock_oob _ _ (by simpa using hb)] at h
      simp [emptyBB] at h
  · rw [getBlock_bbAddBranch_ne s cb b g t hc] at h
    exact Or.inl h

theorem fullInvRefl (gl al : List Nat) (s : TransSt) : FullInv gl al [] s s :=
  ⟨stepInvRefl s, fun _ _ h => Or.inl h, fun _ lb h => by simp at h,
   fun _ _ h => Or.inl h, fun _ _ h => h⟩

theorem errors_cancel {s1 s2 s3 : TransSt} (a : StepInv s1 s2) (b : StepInv s2 s3)
    (h : s3.errors = s1.errors) : s2.errors = s1.errors ∧ s3.errors = s2.errors := by
  obtain ⟨d1, h1⟩ := a.err
  obtain ⟨d2, h2⟩ := b.err
  rw [h2, h1] at h
  have hd : d1 = [] ∧ d2 = [] := by
    have hl := congrArg List.length h
    simp at hl
    exact hl
  constructor
  · rw [h1, hd.1]; simp
  · rw [h2, h1, hd.1, hd.2]; simp

theorem FullInv.comp {gl al lbs1 lbs2 : List Nat} {s1 s2 s3 : TransSt}
    (a : FullInv gl al lbs1 s1 s2) (b : FullInv gl al lbs2 s2 s3) :
    FullInv gl al (lbs1 ++ lbs2) s1 s3 := by
  refine ⟨a.step.chain b.step, ?_, ?_, ?_, fun b' x h => a.pgb b' x (b.pgb b' x h)⟩
  · intro b' br h
    rcases b.tgt b' br h with h | h | h | h | h | h | h | h
    · rcases a.tgt b' br h with h | h | h | h | h | h | h | h
      · exact .inl h
      · exact .inr (.inl (b.step.bbs _ h))
      · rcases b.step.persist br.target (Or.inr h) with h' | h'
        · exact .inr (.inl h')
        · exact .inr (.inr (.inl h'))
      · exact .inr (.inr (.inr (.inl h)))
      · exact .inr (.inr (.inr (.inr (.inl h))))
      · exact .inr (.inr (.inr (.inr (.inr (.inl h)))))
      · exact .inr (.inr (.inr (.inr (.inr (.inr (.inl h))))))
      · exact .inr (.inr (.inr (.inr (.inr (.inr (.inr h))))))
    · exact .inr (.inl h)
    · exact .inr (.inr (.inl h))
    · exact .inr (.inr (.inr (.inl (h.trans a.step.exit))))
    · exact .inr (.inr (.inr (.inr (.inl h))))
    · rcases a.step.contSh with h' | h'
      · rw [h'] at h
        exact Or.inr (Or.inr (Or.inr (Or.inr (Or.inr (Or.inl h)))))
      · rw [h'] at h; cases h
    · rcases a.step.breakSh with h' | h'
      · rw [h'] at h
        exact Or.inr (Or.inr (Or.inr (Or.inr (Or.inr (Or.inr (Or.inl h))))))
      · rw [h'] at h; cases h
    · exact .inr (.inr (.inr (.inr (.inr (.inr (.inr h))))))
  · intro herr lb hlb
    obtain ⟨h12, h23⟩ := errors_cancel a.step b.step herr
    rcases List.mem_append.mp hlb with hlb | hlb
    · exact b.step.persist lb (a.lab h12 lb hlb)
    · exact b.lab h23 lb hlb
  · intro b' x h
    rcases b.stm b' x h with h | h | h
    · rcases a.stm b' x h with h | h | h
      · exact .inl h
      · exact .inr (.inl h)
      · exact .inr (.inr h)
    · exact .inr (.inl (a.pgb b' x h))
    · exact .inr (.inr h)

theorem FullInv.mono {gl al lbs : List Nat} {G A L : List Nat} {s s' : TransSt}
    (hgl : ∀ x, x ∈ gl → x ∈ G) (hal : ∀ x, x ∈ al → x ∈ A)
    (hlbs : ∀ x, x ∈ L → x ∈ lbs)
    (a : FullInv gl al lbs s s') : FullInv G A L s s' := by
  refine ⟨a.step, ?_, fun he lb hlb => a.lab he lb (hlbs lb hlb), a.stm, a.pgb⟩
  intro b br h
  rcases a.tgt b br h with h | h | h | h | h | h | h | h
  · exact .inl h
  · exact .inr (.inl h)
  · exact .inr (.inr (.inl h))
  · exact .inr (.inr (.inr (.inl h)))
  · exact .inr (.inr (.inr (.inr (.inl (hgl _ h)))))
  · exact .inr (.inr (.inr (.inr (.inr (.inl h)))))
  · exact .inr (.inr (.inr (.inr (.inr (.inr (.inl h))))))
  · exact .inr (.inr (.inr (.inr (.inr (.inr (.inr (hal _ h)))))))

/-! FullInv for the atomic state operations. -/

theorem fullInv_bbAddStmt (gl al : List Nat) (s : TransSt) (cb : Nat) (st : Stmt)
    (hsim : structuredKind st.kindOf = false) :
    FullInv gl al [] s (bbAddStmt s cb st) := by
  refine ⟨⟨by simp, rfl, fun x h => h, ⟨[], by simp⟩, fun x h => h,
          Or.inl rfl, Or.inl rfl⟩, ?_, ?_, ?_, ?_⟩
  · intro b br h
    rw [branches_bbAddStmt] at h
    exact Or.inl h
  · intro _ lb h; simp at h
  · intro b x h
    rcases stmts_bbAddStmt s cb b st x h with h | h
    · exact .inl h
    · subst h; exact Or.inr (Or.inr hsim)
  · intro b x h
    rw [pgbacks_bbAddStmt] at h
    exact h

theorem fullInv_bbAddBranch (gl al : List Nat) (s : TransSt) (cb : Nat) (g : Option Exp) (t : Nat)
    (hbkt : t ∈ s.bbs ∨ s.cur = some t ∨ t = s.exitBB ∨ t ∈ gl ∨
            s.contBB = some t ∨ s.breakBB = some t ∨ t ∈ al) :
    FullInv gl al [] s (bbAddBranch s cb g t) := by
  refine ⟨⟨by simp, rfl, fun x h => h, ⟨[], by simp⟩, fun x h => h,
          Or.inl rfl, Or.inl rfl⟩, ?_, ?_, ?_, ?_⟩
  · intro b br h
    rcases branches_bbAddBranch s cb b g t br h with h | h
    · exact .inl h
    · subst h
      rcases hbkt with h | h | h | h | h | h | h
      · exact .inr (.inl h)
      · exact .inr (.inr (.inl h))
      · exact .inr (.inr (.inr (.inl h)))
      · exact .inr (.inr (.inr (.inr (.inl h))))
      · exact .inr (.inr (.inr (.inr (.inr (.inl h)))))
      · exact .inr (.inr (.inr (.inr (.inr (.inr (.inl h))))))
      · exact .inr (.inr (.inr (.inr (.inr (.inr (.inr h))))))
  · intro _ lb h; simp at h
  · intro b x h
    rw [stmts_bbAddBranch] at h
    exact Or.inl h
  · intro b x h
    rw [pgbacks_bbAddBranch] at h
    exact h

theorem fullInv_fnAddBB (gl al : List Nat) (s : TransSt) (b : Nat) :
    FullInv gl al [] s (fnAddBB s b) := by
  refine ⟨⟨by simp, by simp, fun x h => mem_fnAddBB s b x h, ⟨[], by simp⟩, ?_,
          Or.inl (by simp), Or.inl (by simp)⟩, ?_, ?_, ?_, ?_⟩
  · intro x h
    rcases h with h | h
    · exact .inl (mem_fnAddBB s b x h)
    · right; rw [fnAddBB_cur]; exact h
  · intro b' br h
    rw [getBlock_fnAddBB] at h
    exact Or.inl h
  · intro _ lb h; simp at h
  · intro b' x h
    rw [getBlock_fnAddBB] at h
    exact Or.inl h
  · intro b' x h
    rw [getBlock_fnAddBB] at h
    exact h

theorem fullInv_bbNew (gl al : List Nat) (s : TransSt) :
    FullInv gl al [] s (bbNew s).2 := by
  refine ⟨⟨by simp, by simp, fun x h => by simpa using h, ⟨[], by simp⟩,
          fun x h => by simpa using h, Or.inl (by simp), Or.inl (by simp)⟩, ?_, ?_, ?_, ?_⟩
  · intro b br h
    rcases getBlock_bbNew s b with he | he
    · rw [he] at h; exact Or.inl h
    · rw [he] at h; simp [emptyBB] at h
  · intro _ lb h; simp at h
  · intro b x h
    rcases getBlock_bbNew s b with he | he
    · rw [he] at h; exact Or.inl h
    · rw [he] at h; simp [emptyBB] at h
  · intro b x h
    rcases getBlock_bbNew s b with he | he
    · rw [he] at h; exact h
    · rw [he] at h; simp [emptyBB] at h

theorem fullInv_setCur (gl al : List Nat) (s : TransSt) (v : Option Nat)
    (hcm : ∀ x, s.cur = some x → x ∈ s.bbs) :
    FullInv gl al [] s { s with cur := v } := by
  refine ⟨⟨by simp, rfl, fun x h => h, ⟨[], by simp⟩, ?_, Or.inl rfl, Or.inl rfl⟩,
          ?_, ?_, ?_, ?_⟩
  · intro x h
    rcases h with h | h
    · exact .inl h
    · exact .inl (hcm x h)
  · intro b br h; exact Or.inl h
  · intro _ lb h; simp at h
  · intro b x h; exact Or.inl h
  · intro b x h; exact h

/-- Discharging a pending join allowance once the join block is known
to be committed-or-current in the final state. -/
theorem FullInv.resolveAllow {gl al lbs : List Nat} {nx : Nat} {s s' : TransSt}
    (h : FullInv gl (nx :: al) lbs s s')
    (hnx : nx ∈ s'.bbs ∨ s'.cur = some nx) :
    FullInv gl al lbs s s' := by
  refine ⟨h.step, ?_, h.lab, h.stm, h.pgb⟩
  intro b br hbr
  rcases h.tgt b br hbr with h' | h' | h' | h' | h' | h' | h' | h'
  · exact .inl h'
  · exact .inr (.inl h')
  · exact .inr (.inr (.inl h'))
  · exact .inr (.inr (.inr (.inl h')))
  · exact .inr (.inr (.inr (.inr (.inl h'))))
  · exact .inr (.inr (.inr (.inr (.inr (.inl h')))))
  · exact .inr (.inr (.inr (.inr (.inr (.inr (.inl h'))))))
  · rcases List.mem_cons.mp h' with h' | h'
    · subst h'
      rcases hnx with h'' | h''
      · exact .inr (.inl h'')
      · exact .inr (.inr (.inl h''))
    · exact .inr (.inr (.inr (.inr (.inr (.inr (.inr h'))))))

/-- `closeTo` obeys the invariant whenever its target is allowed. -/
theorem closeTo_fullInv (gl al : List Nat) (s : TransSt) (t : Nat)
    (hbkt : t ∈ s.bbs ∨ s.cur = some t ∨ t = s.exitBB ∨ t ∈ gl ∨
            s.contBB = some t ∨ s.breakBB = some t ∨ t ∈ al) :
    FullInv gl al [] s (closeTo s t) := by
  unfold closeTo
  cases hc : s.cur with
  | none => exact fullInvRefl gl al s
  | some cb =>
    have h1 := fullInv_bbAddBranch gl al s cb none t hbkt
    have h2 := fullInv_fnAddBB gl al (bbAddBranch s cb none t) cb
    simpa using h1.comp h2

/-! FullInv for the pure statement handlers. -/

theorem fullInv_eqFields (gl al : List Nat) (s s' : TransSt)
    (h1 : s'.blocks = s.blocks) (h2 : s'.bbs = s.bbs) (h3 : s'.exitBB = s.exitBB)
    (h4 : s'.cur = s.cur) (h5 : s'.contBB = s.contBB) (h6 : s'.breakBB = s.breakBB)
    (h7 : s'.errors = s.errors) : FullInv gl al [] s s' := by
  have hg : ∀ b, getBlock s' b = getBlock s b := by
    intro b; unfold getBlock; rw [h1]
  refine ⟨⟨by rw [h1], h3, fun x h => by rw [h2]; exact h, ⟨[], by simp [h7]⟩,
          fun x h => by rw [h2, h4]; exact h, Or.inl h5, Or.inl h6⟩,
          ?_, ?_, ?_, ?_⟩
  · intro b br h; rw [hg] at h; exact Or.inl h
  · intro _ lb h; simp at h
  · intro b x h; rw [hg] at h; exact Or.inl h
  · intro b x h; rw [hg] at h; exact h

theorem updAt_oob {α : Type} (f : α → α) :
    ∀ (i : Nat) (l : List α), l.length ≤ i → updAt f i l = l := by
  intro i l
  induction l generalizing i with
  | nil => intro _; cases i <;> rfl
  | cons x xs ih =>
    intro h
    cases i with
    | zero => simp at h
    | succ n => simp [updAt]; exact ih n (by simpa using h)

theorem getBlock_updAt_cases (f : BB → BB) (s : TransSt) (cb b : Nat) :
    getBlock { s with blocks := updAt f cb s.blocks } b = getBlock s b ∨
    getBlock { s with blocks := updAt f cb s.blocks } b = f (getBlock s b) := by
  by_cases hc : cb = b
  · subst hc
    by_cases hb : cb < s.blocks.length
    · right
      unfold getBlock
      exact updAt_getD _ _ _ _ hb
    · left
      unfold getBlock
      simp only
      rw [updAt_oob _ _ _ (by omega)]
  · left
    unfold getBlock
    exact updAt_getD_ne _ _ _ _ _ hc

theorem expStep_fullInv (gl al : List Nat) (s : TransSt) (cb : Nat) (e : Exp) :
    FullInv gl al [] s (expStep s cb e) ∧ (expStep s cb e).cur = s.cur := by
  have hiso : FullInv gl al [] s { s with isLval := false } :=
    fullInv_eqFields gl al s _ rfl rfl rfl rfl rfl rfl rfl
  unfold expStep
  by_cases hc : isCallExp e
  · simp only [hc, if_true]
    refine ⟨hiso.comp (fullInv_bbAddStmt gl al _ cb _ (by rfl)), by simp⟩
  · simp only [hc, if_false, Bool.false_eq_true]
    by_cases hp : (getBlock { s with isLval := false } cb).pgbacks.isEmpty
    · simp only [hp, if_true]
      exact ⟨hiso, trivial⟩
    · simp only [hp, if_false, Bool.false_eq_true]
      refine ⟨hiso.comp ?_, trivial⟩
      set s1 : TransSt := { s with isLval := false } with hs1
      have hgb : ∀ b, getBlock s1 b = getBlock s b := fun b => rfl
      refine ⟨⟨by simp [updAt_length], rfl, fun x h => h, ⟨[], by simp⟩, fun x h => h,
              Or.inl rfl, Or.inl rfl⟩, ?_, ?_, ?_, ?_⟩
      · intro b br h
        rcases getBlock_updAt_cases _ s1 cb b with he | he
        · rw [he] at h; exact Or.inl h
        · rw [he] at h; exact Or.inl h
      · intro _ lb h; simp at h
      · intro b x h
        rcases getBlock_updAt_cases _ s1 cb b with he | he
        · rw [he] at h; exact Or.inl h
        · rw [he] at h
          simp only at h
          rcases List.mem_append.mp h with h | h
          · exact .inl h
          · exact .inr (.inl h)
      · intro b x h
        rcases getBlock_updAt_cases _ s1 cb b with he | he
        · rw [he] at h; exact h
        · rw [he] at h; simp at h

theorem assignEach_fullInv (gl al : List Nat) (cb : Nat) :
    ∀ (vars vals : List Exp) (s s' : TransSt), assignEach cb s vars vals = some s' →
      FullInv gl al [] s s' ∧ s'.cur = s.cur := by
  intro vars
  induction vars with
  | nil =>
    intro vals s s' h
    cases vals with
    | nil => cases h; exact ⟨fullInvRefl _ _ _, rfl⟩
    | cons v vs => simp [assignEach] at h
  | cons var vars ih =>
    intro vals s s' h
    cases vals with
    | nil => simp [assignEach] at h
    | cons val vals =>
      unfold assignEach at h
      split at h
      · obtain ⟨hinv, hcur⟩ := ih vals _ s' h
        refine ⟨(fullInv_bbAddStmt gl al s cb (mkAssign var val) (by rfl)).comp hinv, ?_⟩
        rw [hcur]; simp
      · cases h

theorem assignElems_fullInv (gl al : List Nat) (cb : Nat) (varExps elems : List Exp) :
    ∀ (cnt : Nat) (s : TransSt) (vi j : Nat) (s' : TransSt) (vi' : Nat),
      assignElems cb varExps elems s vi j cnt = some (s', vi') →
      FullInv gl al [] s s' ∧ s'.cur = s.cur := by
  intro cnt
  induction cnt with
  | zero =>
    intro s vi j s' vi' h
    cases h; exact ⟨fullInvRefl _ _ _, rfl⟩
  | succ n ih =>
    intro s vi j s' vi' h
    unfold assignElems at h
    cases hv : varExps[vi]? with
    | none => rw [hv] at h; simp at h
    | some var =>
      cases he : elems[j]? with
      | none => rw [hv, he] at h; simp at h
      | some elem =>
        rw [hv, he] at h
        dsimp only at h
        by_cases hm : var.meta = elem.meta
        · rw [if_pos hm] at h
          obtain ⟨hinv, hcur⟩ := ih _ _ _ _ _ h
          refine ⟨(fullInv_bbAddStmt gl al s cb (mkAssign var elem) (by rfl)).comp hinv, ?_⟩
          rw [hcur]; simp
        · rw [if_neg hm] at h; cases h

theorem assignFlat_fullInv (gl al : List Nat) (cb : Nat) (varExps : List Exp) :
    ∀ (vals : List Exp) (s : TransSt) (vi : Nat) (s' : TransSt),
      assignFlat cb varExps s vi vals = some s' →
      FullInv gl al [] s s' ∧ s'.cur = s.cur := by
  intro vals
  induction vals with
  | nil =>
    intro s vi s' h
    cases h; exact ⟨fullInvRefl _ _ _, rfl⟩
  | cons val vals ih =>
    intro s vi s' h
    unfold assignFlat at h
    by_cases ht : val.meta.ty = Ty.tuple
    · rw [if_pos ht] at h
      cases val with
      | tuple m exps =>
        dsimp only at h
        cases heq : assignElems cb varExps exps s vi 0 (Exp.tuple m exps).meta.elemCnt with
        | none => rw [heq] at h; simp at h
        | some p =>
          obtain ⟨s1, vi1⟩ := p
          rw [heq] at h
          dsimp only at h
          obtain ⟨hinv1, hcur1⟩ := assignElems_fullInv gl al cb varExps exps _ s vi 0 s1 vi1 heq
          obtain ⟨hinv2, hcur2⟩ := ih _ _ _ h
          exact ⟨hinv1.comp hinv2, by rw [hcur2, hcur1]⟩
      | atom m i t => simp at h
      | call m i t => simp at h
      | glob m i nm => simp at h
      | loc m i ix => simp at h
      | stk m i b a o ty => simp at h
    · rw [if_neg ht] at h
      cases hv : varExps[vi]? with
      | none => rw [hv] at h; simp at h
      | some var =>
        rw [hv] at h
        dsimp only at h
        by_cases hm : var.meta = val.meta
        · rw [if_pos hm] at h
          cases hv2 : varExps[vi + 1]? with
          | none => rw [hv2] at h; simp at h
          | some var2 =>
            rw [hv2] at h
            dsimp only at h
            obtain ⟨hinv, hcur⟩ := ih _ _ _ h
            refine ⟨(fullInv_bbAddStmt gl al s cb (mkAssign var2 val) (by rfl)).comp hinv, ?_⟩
            rw [hcur]; simp
        · rw [if_neg hm] at h; cases h

theorem stmtTransAssign_fullInv (gl al : List Nat) (s : TransSt) (cb : Nat) (l r : Exp)
    (s' : TransSt) (h : stmtTransAssign s cb (.mk none (.assignS l r)) l r = some s') :
    FullInv gl al [] s s' ∧ s'.cur = s.cur := by
  unfold stmtTransAssign at h
  split at h
  · split at h
    · split at h
      · exact assignEach_fullInv gl al cb _ _ s s' h
      · split at h
        · exact assignFlat_fullInv gl al cb _ _ s 0 s' h
        · cases h
    · cases h
  · cases h
    exact ⟨fullInv_bbAddStmt gl al s cb _ (by rfl), by simp⟩

theorem fullInv_withLab {gl al : List Nat} {s s' : TransSt} (lb : Nat)
    (h : FullInv gl al [] s s') (hc : lb ∈ s'.bbs ∨ s'.cur = some lb) :
    FullInv gl al [lb] s s' := by
  refine ⟨h.step, h.tgt, ?_, h.stm, h.pgb⟩
  intro _ x hx
  simp at hx
  subst hx
  exact hc

theorem fullInv_addError (gl al : List Nat) (s : TransSt) (e : ErrKind × Nat) :
    FullInv gl al [] s { s with errors := s.errors ++ [e] } := by
  refine ⟨⟨by simp, rfl, fun x h => h, ⟨[e], rfl⟩, fun x h => h, Or.inl rfl, Or.inl rfl⟩,
          fun b br h => Or.inl h, ?_, fun b x h => Or.inl h, fun b x h => h⟩
  intro he
  exfalso
  have := congrArg List.length he
  simp at this

theorem retStep_fullInv (gl al : List Nat) (s : TransSt) (cb : Nat) (arg : Option Exp)
    (hcur : s.cur = some cb) :
    FullInv gl al [] s (retStep s cb arg) ∧ (retStep s cb arg).cur = none := by
  unfold retStep
  refine ⟨?_, rfl⟩
  have a := fullInv_bbAddStmt gl al s cb (.mk none (.retS arg)) (by rfl)
  have b := fullInv_bbAddBranch gl al (bbAddStmt s cb (.mk none (.retS arg))) cb none
    (bbAddStmt s cb (.mk none (.retS arg))).exitBB
    (Or.inr (Or.inr (Or.inl rfl)))
  have c := fullInv_fnAddBB gl al
    (bbAddBranch (bbAddStmt s cb (.mk none (.retS arg))) cb none
      (bbAddStmt s cb (.mk none (.retS arg))).exitBB) cb
  have d := fullInv_setCur gl al
    (fnAddBB (bbAddBranch (bbAddStmt s cb (.mk none (.retS arg))) cb none
      (bbAddStmt s cb (.mk none (.retS arg))).exitBB) cb) none
    (by
      intro x hx
      simp [hcur] at hx
      subst hx
      exact self_mem_fnAddBB _ _)
  simpa using ((a.comp b).comp c).comp d

theorem contStep_fullInv (gl al : List Nat) (s : TransSt) (cb : Nat) (s' : TransSt)
    (hcur : s.cur = some cb) (h : contStep s cb = .ok s') :
    FullInv gl al [] s s' ∧ s'.cur = none := by
  unfold contStep at h
  cases hct : s.contBB with
  | none => rw [hct] at h; cases h
  | some ct =>
    rw [hct] at h
    cases h
    refine ⟨?_, rfl⟩
    have a := fullInv_bbAddBranch gl al s cb none ct
      (Or.inr (Or.inr (Or.inr (Or.inr (Or.inl hct)))))
    have b := fullInv_fnAddBB gl al (bbAddBranch s cb none ct) cb
    have c := fullInv_setCur gl al (fnAddBB (bbAddBranch s cb none ct) cb) none
      (by
        intro x hx
        simp [hcur] at hx
        subst hx
        exact self_mem_fnAddBB _ _)
    simpa using (a.comp b).comp c

theorem gotoStep_fullInv (gl al : List Nat) (s : TransSt) (cb target : Nat)
    (hcur : s.cur = some cb) (htgt : target ∈ gl) :
    FullInv gl al [] s (gotoStep s cb target) ∧ (gotoStep s cb target).cur = none := by
  unfold gotoStep
  refine ⟨?_, rfl⟩
  have a := fullInv_bbAddBranch gl al s cb none target
    (Or.inr (Or.inr (Or.inr (Or.inl htgt))))
  have b := fullInv_fnAddBB gl al (bbAddBranch s cb none target) cb
  have c := fullInv_setCur gl al (fnAddBB (bbAddBranch s cb none target) cb) none
    (by
      intro x hx
      simp [hcur] at hx
      subst hx
      exact self_mem_fnAddBB _ _)
  simpa using (a.comp b).comp c

theorem breakStep_fullInv (gl al : List Nat) (s : TransSt) (cb : Nat) (cond : Option Exp)
    (s' : TransSt) (hcur : s.cur = some cb) (h : breakStep s cb cond = .ok s') :
    FullInv gl al [] s s' ∧ ∃ nb, s'.cur = some nb := by
  simp only [breakStep, bbNew_snd_breakBB] at h
  cases hbt : s.breakBB with
  | none => rw [hbt] at h; cases h
  | some bt =>
    rw [hbt] at h
    dsimp only at h
    have hbkS : (bbNew s).2.breakBB = some bt := by simpa using hbt
    cases cond with
    | none =>
      cases h
      have a := fullInv_bbNew (gl) ((bbNew s).1 :: al) s
      have b := fullInv_bbAddBranch gl ((bbNew s).1 :: al) (bbNew s).2 cb none bt
        (Or.inr (Or.inr (Or.inr (Or.inr (Or.inr (Or.inl hbkS))))))
      have c := fullInv_fnAddBB gl ((bbNew s).1 :: al)
        (bbAddBranch (bbNew s).2 cb none bt) cb
      have d := fullInv_setCur gl ((bbNew s).1 :: al)
        (fnAddBB (bbAddBranch (bbNew s).2 cb none bt) cb) (some (bbNew s).1)
        (by
          intro x hx
          simp [hcur] at hx
          subst hx
          exact self_mem_fnAddBB _ _)
      have e := ((a.comp b).comp c).comp d
      refine ⟨?_, (bbNew s).1, rfl⟩
      exact (FullInv.resolveAllow (by simpa using e) (Or.inr rfl))
    | some cexp =>
      cases h
      have a := fullInv_bbNew (gl) ((bbNew s).1 :: al) s
      have b1 := fullInv_bbAddBranch gl ((bbNew s).1 :: al) (bbNew s).2 cb (some cexp) bt
        (Or.inr (Or.inr (Or.inr (Or.inr (Or.inr (Or.inl hbkS))))))
      have b2 := fullInv_bbAddBranch gl ((bbNew s).1 :: al)
        (bbAddBranch (bbNew s).2 cb (some cexp) bt) cb none (bbNew s).1
        (Or.inr (Or.inr (Or.inr (Or.inr (Or.inr (Or.inr (by simp)))))))
      have c := fullInv_fnAddBB gl ((bbNew s).1 :: al)
        (bbAddBranch (bbAddBranch (bbNew s).2 cb (some cexp) bt) cb none (bbNew s).1) cb
      have d := fullInv_setCur gl ((bbNew s).1 :: al)
        (fnAddBB (bbAddBranch (bbAddBranch (bbNew s).2 cb (some cexp) bt) cb none
          (bbNew s).1) cb) (some (bbNew s).1)
        (by
          intro x hx
          simp [hcur] at hx
          subst hx
          exact self_mem_fnAddBB _ _)
      have e := (((a.comp b1).comp b2).comp c).comp d
      refine ⟨?_, (bbNew s).1, rfl⟩
      exact (FullInv.resolveAllow (by simpa using e) (Or.inr rfl))

theorem labelStep_fullInv (gl al : List Nat) (s : TransSt) (lb? : Option Nat) :
    FullInv gl al lb?.toList s (labelStep s lb?) := by
  cases lb? with
  | none =>
    cases hc : s.cur with
    | some cb =>
      rw [labelStep_none_of_cur s cb hc]
      exact fullInvRefl gl al s
    | none =>
      unfold labelStep
      rw [hc]
      have a := fullInv_bbNew (gl) (al) s
      have b := fullInv_setCur gl al (bbNew s).2 (some (bbNew s).1)
        (by intro x hx; simp [hc] at hx)
      simpa using a.comp b
  | some lb =>
    unfold labelStep
    cases hc : s.cur with
    | none =>
      have b := fullInv_setCur gl al s (some lb) (by intro x hx; rw [hc] at hx; cases hx)
      exact fullInv_withLab lb (by simpa using b) (Or.inr rfl)
    | some cb =>
      have a := fullInv_bbAddBranch gl (lb :: al) s cb none lb
        (Or.inr (Or.inr (Or.inr (Or.inr (Or.inr (Or.inr (by simp)))))))
      have b := fullInv_fnAddBB gl (lb :: al) (bbAddBranch s cb none lb) cb
      have c := fullInv_setCur gl (lb :: al) (fnAddBB (bbAddBranch s cb none lb) cb)
        (some lb)
        (by
          intro x hx
          simp [hc] at hx
          subst hx
          exact self_mem_fnAddBB _ _)
      have d := (a.comp b).comp c
      exact fullInv_withLab lb
        ((FullInv.resolveAllow (by simpa using d) (Or.inr rfl))) (Or.inr rfl)

theorem closeTo_commits (s : TransSt) (t : Nat) :
    ∀ x, (closeTo s t).cur = some x → x ∈ (closeTo s t).bbs := by
  intro x hx
  unfold closeTo at hx ⊢
  cases hc : s.cur with
  | none =>
    rw [hc] at hx
    dsimp only at hx
    rw [hx] at hc
    cases hc
  | some cb =>
    simp only [fnAddBB_cur, bbAddBranch_cur, hc, Option.some.injEq] at hx
    subst hx
    exact self_mem_fnAddBB _ _

theorem manyStep_fullInv (recur : TransSt → Work → TRes) (hrec : RecOK recur)
    (sts : List Stmt) : ∀ (s s' : TransSt),
    manyStep recur s sts = .ok s' → initsOkL sts = true →
    FullInv (stmtsGotos sts) [] (stmtsLabels sts) s s' := by
  cases sts with
  | nil =>
    intro s s' h _
    cases h
    exact fullInvRefl _ _ _
  | cons st rest =>
    intro s s' h hin
    unfold manyStep at h
    dsimp only at h
    cases h1 : recur s (.one st) with
    | failed => rw [h1] at h; cases h
    | fuelOut => rw [h1] at h; cases h
    | ok s1 =>
      rw [h1] at h
      have hin1 : initsOkS st = true ∧ initsOkL rest = true := by
        rw [initsOkL] at hin; simpa using hin
      obtain ⟨a, -⟩ := hrec s (.one st) s1 h1 hin1.1 trivial
      obtain ⟨b, -⟩ := hrec s1 (.many rest) s' h hin1.2 trivial
      have a' := a.mono (G := stmtsGotos (st :: rest)) (A := [])
        (fun x hx => by rw [stmtsGotos]; exact List.mem_append_left _ hx)
        (fun x hx => hx) (fun x hx => hx)
      have b' := b.mono (G := stmtsGotos (st :: rest)) (A := [])
        (fun x hx => by rw [stmtsGotos]; exact List.mem_append_right _ hx)
        (fun x hx => hx) (fun x hx => hx)
      have hc := a'.comp b'
      rw [stmtsLabels]
      exact hc

theorem elifsStep_fullInv (recur : TransSt → Work → TRes) (hrec : RecOK recur)
    (prev next : Nat) (es : List (Exp × List Stmt)) :
    ∀ (s s' : TransSt), elifsStep recur s prev next es = .ok s' →
    initsOkEl es = true → (∀ x, s.cur = some x → x ∈ s.bbs) →
    FullInv (elifsGotos es) [next] (elifsLabels es) s s' ∧
    (∀ x, s'.cur = some x → x ∈ s'.bbs) := by
  cases es with
  | nil =>
    intro s s' h _ hpre
    cases h
    exact ⟨fullInvRefl _ _ _, hpre⟩
  | cons e rest =>
    obtain ⟨cond, blk⟩ := e
    intro s s' h hin hpre
    unfold elifsStep at h
    dsimp only at h
    have hin1 : initsOkL blk = true ∧ initsOkEl rest = true := by
      rw [initsOkEl] at hin; simpa using hin
    cases h1 : recur (bbAddBranch { (bbNew s).2 with cur := some (bbNew s).1 } prev
        (some cond) (bbNew s).1) (.many blk) with
    | failed => rw [h1] at h; cases h
    | fuelOut => rw [h1] at h; cases h
    | ok s4 =>
      rw [h1] at h
      dsimp only at h
      have A1 := fullInv_bbNew (elifsGotos ((cond, blk) :: rest)) ([next]) s
      have A2 := fullInv_setCur (elifsGotos ((cond, blk) :: rest)) [next] (bbNew s).2
        (some (bbNew s).1)
        (by intro x hx; simp at hx; exact hpre x hx)
      have A3 := fullInv_bbAddBranch (elifsGotos ((cond, blk) :: rest)) [next]
        { (bbNew s).2 with cur := some (bbNew s).1 } prev (some cond) (bbNew s).1
        (Or.inr (Or.inl rfl))
      obtain ⟨B, -⟩ := hrec _ (.many blk) s4 h1 hin1.1 trivial
      have B' := B.mono (G := elifsGotos ((cond, blk) :: rest)) (A := [next])
        (fun x hx => by
          simp only [workGotos] at hx
          simp [elifsGotos]
          exact Or.inl hx)
        (fun x hx => by simp [workAllow] at hx) (fun x hx => hx)
      have C := closeTo_fullInv (elifsGotos ((cond, blk) :: rest)) [next] s4 next
        (Or.inr (Or.inr (Or.inr (Or.inr (Or.inr (Or.inr (by simp)))))))
      obtain ⟨D, hpost⟩ := hrec _ (.elifs prev next rest) s' h hin1.2 (closeTo_commits s4 next)
      have D' := D.mono (G := elifsGotos ((cond, blk) :: rest)) (A := [next])
        (fun x hx => by
          simp only [workGotos] at hx
          simp [elifsGotos]
          exact Or.inr hx)
        (fun x hx => by simpa [workAllow] using hx) (fun x hx => hx)
      have big := (((A1.comp A2).comp A3).comp B').comp (C.comp D')
      refine ⟨big.mono (fun x hx => hx) (fun x hx => hx) ?_, hpost⟩
      intro x hx
      simp only [elifsLabels] at hx
      simp only [workLabels]
      simp at hx ⊢
      rcases hx with hx | hx
      · exact .inl hx
      · exact .inr hx

theorem casesStep_fullInv (recur : TransSt → Work → TRes) (hrec : RecOK recur)
    (prev next : Nat) (cs : List (Option Exp × List Stmt)) :
    ∀ (s s' : TransSt), casesStep recur s prev next cs = .ok s' →
    initsOkCs cs = true →
    FullInv (casesGotos cs) [next] (casesLabels cs) s s' := by
  cases cs with
  | nil =>
    intro s s' h _
    cases h
    exact fullInvRefl _ _ _
  | cons c rest =>
    obtain ⟨val, body⟩ := c
    intro s s' h hin
    unfold casesStep at h
    dsimp only at h
    have hin1 : initsOkL body = true ∧ initsOkCs rest = true := by
      rw [initsOkCs] at hin; simpa using hin
    have hglB : ∀ x, x ∈ stmtsGotos body → x ∈ casesGotos ((val, body) :: rest) := by
      intro x hx; simp [casesGotos]; exact Or.inl hx
    have hglR : ∀ x, x ∈ casesGotos rest → x ∈ casesGotos ((val, body) :: rest) := by
      intro x hx; simp [casesGotos]; exact Or.inr hx
    have hlbs : ∀ x, x ∈ casesLabels ((val, body) :: rest) →
        x ∈ stmtsLabels body ++ casesLabels rest := by
      intro x hx; simpa [casesLabels] using hx
    cases hc : s.cur with
    | none => rw [hc] at h; cases h
    | some cb =>
      rw [hc] at h
      dsimp only at h
      have A1 := fullInv_bbAddBranch (casesGotos ((val, body) :: rest)) [next] s prev val cb
        (Or.inr (Or.inl hc))
      cases h1 : recur (bbAddBranch s prev val cb) (.many body) with
      | failed => rw [h1] at h; cases h
      | fuelOut => rw [h1] at h; cases h
      | ok s2 =>
        rw [h1] at h
        dsimp only at h
        obtain ⟨B, -⟩ := hrec _ (.many body) s2 h1 hin1.1 trivial
        have B' := B.mono (G := casesGotos ((val, body) :: rest)) (A := [next])
          (fun x hx => hglB x (by simpa [workGotos] using hx))
          (fun x hx => by simp [workAllow] at hx) (fun x hx => hx)
        have AB := A1.comp B'
        cases hc2 : s2.cur with
        | some cb2 =>
          rw [hc2] at h
          dsimp only at h
          cases rest with
          | nil =>
            have C1 := fullInv_bbAddBranch (casesGotos [(val, body)]) [next] s2 cb2 none next
              (Or.inr (Or.inr (Or.inr (Or.inr (Or.inr (Or.inr (by simp)))))))
            have C2 := fullInv_fnAddBB (casesGotos [(val, body)]) [next]
              (bbAddBranch s2 cb2 none next) cb2
            obtain ⟨D, -⟩ := hrec _ (.cases prev next []) s' h (by rfl) trivial
            have D' := D.mono (G := casesGotos [(val, body)]) (A := [next])
              (fun x hx => by simp [workGotos, casesGotos] at hx)
              (fun x hx => by simpa [workAllow] using hx) (fun x hx => hx)
            have big := AB.comp ((C1.comp C2).comp D')
            refine big.mono (fun x hx => hx) (fun x hx => hx) ?_
            intro x hx
            simp only [workLabels] at hx ⊢
            simp [casesLabels] at hx ⊢
            simpa using hx
          | cons r rs =>
            dsimp only at h
            have C1 := fullInv_bbNew
              (casesGotos ((val, body) :: r :: rs)) ((bbNew s2).1 :: [next]) s2
            have C2 := fullInv_bbAddBranch (casesGotos ((val, body) :: r :: rs))
              ((bbNew s2).1 :: [next]) (bbNew s2).2 cb2 none (bbNew s2).1
              (Or.inr (Or.inr (Or.inr (Or.inr (Or.inr (Or.inr (by simp)))))))
            have C3 := fullInv_fnAddBB (casesGotos ((val, body) :: r :: rs))
              ((bbNew s2).1 :: [next])
              (bbAddBranch (bbNew s2).2 cb2 none (bbNew s2).1) cb2
            have C4 := fullInv_setCur (casesGotos ((val, body) :: r :: rs))
              ((bbNew s2).1 :: [next])
              (fnAddBB (bbAddBranch (bbNew s2).2 cb2 none (bbNew s2).1) cb2)
              (some (bbNew s2).1)
              (by
                intro x hx
                simp [hc2] at hx
                subst hx
                exact self_mem_fnAddBB _ _)
            obtain ⟨D, -⟩ := hrec _ (.cases prev next (r :: rs)) s' h hin1.2 trivial
            have D' := D.mono (G := casesGotos ((val, body) :: r :: rs))
              (A := (bbNew s2).1 :: [next])
              (fun x hx => hglR x (by simpa [workGotos] using hx))
              (fun x hx => by
                simp only [workAllow] at hx
                simpa using Or.inr (by simpa using hx))
              (fun x hx => hx)
            have hper := D.step.persist (bbNew s2).1 (Or.inr rfl)
            have big := AB.mono (fun x hx => hx)
              (fun x hx => by simpa using Or.inr (by simpa using hx)) (fun x hx => hx)
              |>.comp ((((C1.comp C2).comp C3).comp C4).comp D')
            have resolved := FullInv.resolveAllow big (by
              rcases hper with hp | hp
              · exact .inl hp
              · exact .inr hp)
            refine resolved.mono (fun x hx => hx) (fun x hx => hx) ?_
            intro x hx
            simp only [workLabels] at hx ⊢
            simp [casesLabels] at hx ⊢
            simpa using hx
        | none =>
          rw [hc2] at h
          dsimp only at h
          cases rest with
          | nil =>
            obtain ⟨D, -⟩ := hrec _ (.cases prev next []) s' h (by rfl) trivial
            have D' := D.mono (G := casesGotos [(val, body)]) (A := [next])
              (fun x hx => by simp [workGotos, casesGotos] at hx)
              (fun x hx => by simpa [workAllow] using hx) (fun x hx => hx)
            have big := AB.comp D'
            refine big.mono (fun x hx => hx) (fun x hx => hx) ?_
            intro x hx
            simp only [workLabels] at hx ⊢
            simp [casesLabels] at hx ⊢
            simpa using hx
          | cons r rs =>
            dsimp only at h
            have C1 := fullInv_bbNew
              (casesGotos ((val, body) :: r :: rs)) ([next]) s2
            have C2 := fullInv_setCur (casesGotos ((val, body) :: r :: rs)) [next]
              (bbNew s2).2 (some (bbNew s2).1)
              (by intro x hx; simp [hc2] at hx)
            obtain ⟨D, -⟩ := hrec _ (.cases prev next (r :: rs)) s' h hin1.2 trivial
            have D' := D.mono (G := casesGotos ((val, body) :: r :: rs)) (A := [next])
              (fun x hx => hglR x (by simpa [workGotos] using hx))
              (fun x hx => by simpa [workAllow] using hx) (fun x hx => hx)
            have big := AB.comp ((C1.comp C2).comp D')
            refine big.mono (fun x hx => hx) (fun x hx => hx) ?_
            intro x hx
            simp only [workLabels] at hx ⊢
            simp [casesLabels] at hx ⊢
            simpa using hx

theorem ifStep_fullInv (recur : TransSt → Work → TRes) (hrec : RecOK recur)
    (s : TransSt) (cb : Nat) (cond : Exp) (ifBlk : List Stmt)
    (elifs : List (Exp × List Stmt)) (elseBlk : Option (List Stmt)) (s' : TransSt)
    (h : ifStep recur s cb cond ifBlk elifs elseBlk = .ok s')
    (hcur : s.cur = some cb)
    (hin : initsOkK (.ifS cond ifBlk elifs elseBlk) = true) :
    FullInv (kindGotos (.ifS cond ifBlk elifs elseBlk)) []
      (kindLabels (.ifS cond ifBlk elifs elseBlk)) s s' := by
  unfold ifStep at h
  dsimp only at h
  have hin3 : initsOkL ifBlk = true ∧ initsOkEl elifs = true ∧ initsOkOB elseBlk = true := by
    rw [initsOkK] at hin
    simp only [Bool.and_eq_true] at hin
    exact ⟨hin.1.1, hin.1.2, hin.2⟩
  set G := kindGotos (.ifS cond ifBlk elifs elseBlk) with hGdef
  have hGa : ∀ x, x ∈ stmtsGotos ifBlk → x ∈ G := by
    intro x hx; rw [hGdef]; simp [kindGotos]; exact Or.inl hx
  have hGe : ∀ x, x ∈ elifsGotos elifs → x ∈ G := by
    intro x hx; rw [hGdef]; simp [kindGotos]; exact Or.inr (Or.inl hx)
  have hGo : ∀ x, x ∈ optBlkGotos elseBlk → x ∈ G := by
    intro x hx; rw [hGdef]; simp [kindGotos]; exact Or.inr (Or.inr hx)
  set nx := (bbNew s).1 with hnx
  have A1 := fullInv_bbNew (G) ([nx]) s
  have A2 := fullInv_fnAddBB G [nx] (bbNew s).2 cb
  have A3 := fullInv_bbNew (G) ([nx]) (fnAddBB (bbNew s).2 cb)
  have A4 := fullInv_setCur G [nx] (bbNew (fnAddBB (bbNew s).2 cb)).2
    (some (bbNew (fnAddBB (bbNew s).2 cb)).1)
    (by
      intro x hx
      simp [hcur] at hx
      subst hx
      have : cb ∈ (fnAddBB (bbNew s).2 cb).bbs := self_mem_fnAddBB _ _
      simpa using this)
  have A5 := fullInv_bbAddBranch G [nx]
    { (bbNew (fnAddBB (bbNew s).2 cb)).2 with
        cur := some (bbNew (fnAddBB (bbNew s).2 cb)).1 } cb (some cond)
    (bbNew (fnAddBB (bbNew s).2 cb)).1
    (Or.inr (Or.inl rfl))
  have A := (((A1.comp A2).comp A3).comp A4).comp A5
  cases h1 : recur (bbAddBranch
      { (bbNew (fnAddBB (bbNew s).2 cb)).2 with
          cur := some (bbNew (fnAddBB (bbNew s).2 cb)).1 } cb (some cond)
      (bbNew (fnAddBB (bbNew s).2 cb)).1) (.many ifBlk) with
  | failed => rw [h1] at h; cases h
  | fuelOut => rw [h1] at h; cases h
  | ok s5 =>
    rw [h1] at h
    dsimp only at h
    obtain ⟨B, -⟩ := hrec _ (.many ifBlk) s5 h1 hin3.1 trivial
    have B' := B.mono (G := G) (A := [nx])
      (fun x hx => hGa x (by simpa [workGotos] using hx))
      (fun x hx => by simp [workAllow] at hx) (fun x hx => hx)
    have C := closeTo_fullInv G [nx] s5 nx
      (Or.inr (Or.inr (Or.inr (Or.inr (Or.inr (Or.inr (by simp)))))))
    cases h2 : recur (closeTo s5 nx) (.elifs cb nx elifs) with
    | failed => rw [h2] at h; cases h
    | fuelOut => rw [h2] at h; cases h
    | ok s7 =>
      rw [h2] at h
      dsimp only at h
      obtain ⟨D, hpost⟩ := hrec _ (.elifs cb nx elifs) s7 h2 hin3.2.1
        (closeTo_commits s5 nx)
      have D' := D.mono (G := G) (A := [nx])
        (fun x hx => hGe x (by simpa [workGotos] using hx))
        (fun x hx => by simpa [workAllow] using hx) (fun x hx => hx)
      have AD := ((A.comp B').comp C).comp D'
      have hpost7 : ∀ x, s7.cur = some x → x ∈ s7.bbs := by
        simpa [workPost] using hpost
      cases elseBlk with
      | none =>
        cases h
        have E := fullInv_bbAddBranch G [nx] s7 cb none nx
          (Or.inr (Or.inr (Or.inr (Or.inr (Or.inr (Or.inr (by simp)))))))
        have H := fullInv_setCur G [nx] (bbAddBranch s7 cb none nx) (some nx)
          (by
            intro x hx
            simp at hx
            exact hpost7 x hx)
        have big := AD.comp (E.comp H)
        have resolved := FullInv.resolveAllow (by simpa using big) (Or.inr rfl)
        refine resolved.mono (fun x hx => hx) (fun x hx => by simp at hx) ?_
        intro x hx
        simp only [kindLabels] at hx
        simp only [workLabels]
        simp at hx ⊢
        rcases hx with hx | hx | hx
        · exact .inl hx
        · exact .inr hx
        · simp [optBlkLabels] at hx
      | some eb =>
        dsimp only at h
        have E1 := fullInv_bbNew (G) ([nx]) s7
        have E2 := fullInv_setCur G [nx] (bbNew s7).2 (some (bbNew s7).1)
          (by
            intro x hx
            simp at hx
            have := hpost7 x hx
            simpa using this)
        have E3 := fullInv_bbAddBranch G [nx]
          { (bbNew s7).2 with cur := some (bbNew s7).1 } cb none (bbNew s7).1
          (Or.inr (Or.inl rfl))
        cases h3 : recur (bbAddBranch { (bbNew s7).2 with cur := some (bbNew s7).1 }
            cb none (bbNew s7).1) (.many eb) with
        | failed => rw [h3] at h; cases h
        | fuelOut => rw [h3] at h; cases h
        | ok s10 =>
          rw [h3] at h
          cases h
          obtain ⟨F, -⟩ := hrec _ (.many eb) s10 h3 (by simpa [initsOkOB] using hin3.2.2)
            trivial
          have F' := F.mono (G := G) (A := [nx])
            (fun x hx => hGo x (by simpa [workGotos, optBlkGotos] using hx))
            (fun x hx => by simp [workAllow] at hx) (fun x hx => hx)
          have Gc := closeTo_fullInv G [nx] s10 nx
            (Or.inr (Or.inr (Or.inr (Or.inr (Or.inr (Or.inr (by simp)))))))
          have H := fullInv_setCur G [nx] (closeTo s10 nx) (some nx)
            (closeTo_commits s10 nx)
          have big := AD.comp ((((E1.comp E2).comp E3).comp F').comp (Gc.comp H))
          have resolved := FullInv.resolveAllow (by simpa using big) (Or.inr rfl)
          refine resolved.mono (fun x hx => hx) (fun x hx => by simp at hx) ?_
          intro x hx
          simp only [kindLabels] at hx
          simp only [workLabels]
          simp [optBlkLabels] at hx ⊢
          rcases hx with hx | hx | hx
          · exact .inl hx
          · exact .inr (.inl hx)
          · exact .inr (.inr hx)

theorem fullInv_resetJumpsCur (gl al : List Nat) (s : TransSt) (v cB bB : Option Nat)
    (hcm : ∀ x, s.cur = some x → x ∈ s.bbs)
    (hcont : cB = s.contBB ∨ cB = none) (hbreak : bB = s.breakBB ∨ bB = none) :
    FullInv gl al [] s { s with cur := v, contBB := cB, breakBB := bB } := by
  refine ⟨⟨by simp, rfl, fun x h => h, ⟨[], by simp⟩, ?_, hcont, hbreak⟩,
          ?_, ?_, ?_, ?_⟩
  · intro x h
    rcases h with h | h
    · exact .inl h
    · exact .inl (hcm x h)
  · intro b br h; exact Or.inl h
  · intro _ lb h; simp at h
  · intro b x h; exact Or.inl h
  · intro b x h; exact h

/-- Fusing three invariant segments across the two jump-field
discontinuities of a loop/switch handler: the handler saves nothing and
instead writes `cont_bb`/`break_bb` in place at entry and nulls them at
exit. -/
theorem FullInv.fuse3 {gl al lbs1 lbs2 lbs3 : List Nat} {s sA sB sC sD s' : TransSt}
    (P1 : FullInv gl al lbs1 s sA) (P2 : FullInv gl al lbs2 sB sC)
    (P3 : FullInv gl al lbs3 sD s')
    (hBAb : sB.blocks = sA.blocks) (hBAs : sB.bbs = sA.bbs)
    (hBAe : sB.exitBB = sA.exitBB) (hBAr : sB.errors = sA.errors)
    (hcurA : ∀ x, sA.cur = some x → x ∈ sA.bbs)
    (hcontB : ∀ t, sB.contBB = some t → t ∈ al)
    (hbreakB : ∀ t, sB.breakBB = some t → t ∈ al)
    (hDCb : sD.blocks = sC.blocks) (hDCs : sD.bbs = sC.bbs)
    (hDCe : sD.exitBB = sC.exitBB) (hDCr : sD.errors = sC.errors)
    (hDCc : sD.cur = sC.cur)
    (hcontD : ∀ t, sD.contBB = some t → t ∈ al)
    (hbreakD : ∀ t, sD.breakBB = some t → t ∈ al)
    (hcontF : s'.contBB = s.contBB ∨ s'.contBB = none)
    (hbreakF : s'.breakBB = s.breakBB ∨ s'.breakBB = none) :
    FullInv gl al (lbs1 ++ (lbs2 ++ lbs3)) s s' := by
  have hgBA : ∀ b, getBlock sB b = getBlock sA b := by
    intro b; unfold getBlock; rw [hBAb]
  have hgDC : ∀ b, getBlock sD b = getBlock sC b := by
    intro b; unfold getBlock; rw [hDCb]
  have mbbsA : ∀ x, x ∈ sA.bbs → x ∈ s'.bbs := by
    intro x h
    have h1 : x ∈ sB.bbs := by rw [hBAs]; exact h
    have h2 : x ∈ sD.bbs := by rw [hDCs]; exact P2.step.bbs x h1
    exact P3.step.bbs x h2
  have hexit : s'.exitBB = s.exitBB :=
    P3.step.exit.trans (hDCe.trans (P2.step.exit.trans (hBAe.trans P1.step.exit)))
  have hcurDpersist : ∀ x, sC.cur = some x → x ∈ s'.bbs ∨ s'.cur = some x := by
    intro x h
    exact P3.step.persist x (Or.inr (hDCc.trans h))
  refine ⟨⟨?_, hexit, fun x h => mbbsA x (P1.step.bbs x h), ?_, ?_, hcontF, hbreakF⟩,
          ?_, ?_, ?_, ?_⟩
  · calc s.blocks.length ≤ sA.blocks.length := P1.step.len
      _ = sB.blocks.length := by rw [hBAb]
      _ ≤ sC.blocks.length := P2.step.len
      _ = sD.blocks.length := by rw [hDCb]
      _ ≤ s'.blocks.length := P3.step.len
  · obtain ⟨d1, h1⟩ := P1.step.err
    obtain ⟨d2, h2⟩ := P2.step.err
    obtain ⟨d3, h3⟩ := P3.step.err
    refine ⟨d1 ++ (d2 ++ d3), ?_⟩
    rw [h3, hDCr, h2, hBAr, h1]
    simp
  · intro x h
    rcases P1.step.persist x h with h' | h'
    · exact .inl (mbbsA x h')
    · exact .inl (mbbsA x (hcurA x h'))
  · intro b br hbr
    rcases P3.tgt b br hbr with h | h | h | h | h | h | h | h
    · rw [hgDC] at h
      rcases P2.tgt b br h with h | h | h | h | h | h | h | h
      · rw [hgBA] at h
        rcases P1.tgt b br h with h | h | h | h | h | h | h | h
        · exact .inl h
        · exact .inr (.inl (mbbsA _ h))
        · exact .inr (.inl (mbbsA _ (hcurA _ h)))
        · exact .inr (.inr (.inr (.inl h)))
        · exact .inr (.inr (.inr (.inr (.inl h))))
        · exact .inr (.inr (.inr (.inr (.inr (.inl h)))))
        · exact .inr (.inr (.inr (.inr (.inr (.inr (.inl h))))))
        · exact .inr (.inr (.inr (.inr (.inr (.inr (.inr h))))))
      · have h1 : br.target ∈ sD.bbs := by rw [hDCs]; exact h
        exact Or.inr (Or.inl (P3.step.bbs _ h1))
      · rcases hcurDpersist _ h with h' | h'
        · exact .inr (.inl h')
        · exact .inr (.inr (.inl h'))
      · exact .inr (.inr (.inr (.inl
          (h.trans (hBAe.trans P1.step.exit)))))
      · exact .inr (.inr (.inr (.inr (.inl h))))
      · exact .inr (.inr (.inr (.inr (.inr (.inr (.inr (hcontB _ h)))))))
      · exact .inr (.inr (.inr (.inr (.inr (.inr (.inr (hbreakB _ h)))))))
      · exact .inr (.inr (.inr (.inr (.inr (.inr (.inr h))))))
    · exact .inr (.inl h)
    · exact .inr (.inr (.inl h))
    · exact .inr (.inr (.inr (.inl
        (h.trans ((hDCe.trans (P2.step.exit.trans (hBAe.trans P1.step.exit))))))))
    · exact .inr (.inr (.inr (.inr (.inl h))))
    · exact .inr (.inr (.inr (.inr (.inr (.inr (.inr (hcontD _ h)))))))
    · exact .inr (.inr (.inr (.inr (.inr (.inr (.inr (hbreakD _ h)))))))
    · exact .inr (.inr (.inr (.inr (.inr (.inr (.inr h))))))
  · intro herr lb hlb
    obtain ⟨d1, h1⟩ := P1.step.err
    obtain ⟨d2, h2⟩ := P2.step.err
    obtain ⟨d3, h3⟩ := P3.step.err
    have hall : s'.errors = s.errors ++ (d1 ++ (d2 ++ d3)) := by
      rw [h3, hDCr, h2, hBAr, h1]; simp
    rw [herr] at hall
    have hd : d1 = [] ∧ d2 = [] ∧ d3 = [] := by
      have hl := congrArg List.length hall
      simp at hl
      exact hl
    have herrA : sA.errors = s.errors := by rw [h1, hd.1]; simp
    have herrC : sC.errors = sB.errors := by rw [h2, hd.2.1]; simp
    have herrD : s'.errors = sD.errors := by rw [h3, hd.2.2]; simp
    rcases List.mem_append.mp hlb with hlb | hlb
    · rcases P1.lab herrA lb hlb with h' | h'
      · exact .inl (mbbsA _ h')
      · exact .inl (mbbsA _ (hcurA _ h'))
    · rcases List.mem_append.mp hlb with hlb | hlb
      · rcases P2.lab herrC lb hlb with h' | h'
        · have : lb ∈ sD.bbs := by rw [hDCs]; exact h'
          exact Or.inl (P3.step.bbs _ this)
        · exact hcurDpersist _ h'
      · exact P3.lab herrD lb hlb
  · intro b x h
    rcases P3.stm b x h with h | h | h
    · rw [hgDC] at h
      rcases P2.stm b x h with h | h | h
      · rw [hgBA] at h
        rcases P1.stm b x h with h | h | h
        · exact .inl h
        · exact .inr (.inl h)
        · exact .inr (.inr h)
      · rw [hgBA] at h
        exact Or.inr (Or.inl (P1.pgb b x h))
      · exact .inr (.inr h)
    · rw [hgDC] at h
      have h' := P2.pgb b x h
      rw [hgBA] at h'
      exact Or.inr (Or.inl (P1.pgb b x h'))
    · exact .inr (.inr h)
  · intro b x h
    have h1 := P3.pgb b x h
    rw [hgDC] at h1
    have h2 := P2.pgb b x h1
    rw [hgBA] at h2
    exact P1.pgb b x h2

/-- A simple for-loop init statement (spec section 4.F.1: "init
statement emitted into the predecessor") leaves the current block
unchanged: it only appends instructions. -/
theorem oneStep_simple_cur (recur : TransSt → Work → TRes) (s0 : TransSt) (st : Stmt)
    (s' : TransSt) (c : Nat)
    (hsim : simpleInit (some st) = true) (hc : s0.cur = some c)
    (h : oneStep recur s0 st = .ok s') : s'.cur = some c := by
  obtain ⟨lb, k⟩ := st
  simp only [simpleInit, Bool.and_eq_true, Option.isNone_iff_eq_none] at hsim
  obtain ⟨hlb, hk⟩ := hsim
  subst hlb
  unfold oneStep at h
  dsimp only [Stmt.labelOf, Stmt.kindOf] at h
  rw [labelStep_none_of_cur s0 c hc, hc] at h
  dsimp only at h
  cases k with
  | nullS => cases h; exact hc
  | expS e =>
    cases h
    rw [(expStep_fullInv [] [] s0 c e).2]
    exact hc
  | assignS l r =>
    dsimp only at h
    cases hm : stmtTransAssign s0 c (.mk none (.assignS l r)) l r with
    | none => rw [hm] at h; cases h
    | some s1 =>
      rw [hm] at h
      cases h
      rw [(stmtTransAssign_fullInv [] [] s0 c l r _ hm).2]
      exact hc
  | ddlS tag => cases h; simpa using hc
  | ifS a b cx d => simp [simpleInitKind] at hk
  | forLoop a b => simp [simpleInitKind] at hk
  | arrayLoop a b => simp [simpleInitKind] at hk
  | switchS a b => simp [simpleInitKind] at hk
  | caseS => simp [simpleInitKind] at hk
  | retS a => simp [simpleInitKind] at hk
  | contS => simp [simpleInitKind] at hk
  | breakS a => simp [simpleInitKind] at hk
  | gotoS a => simp [simpleInitKind] at hk
  | blkS a => simp [simpleInitKind] at hk

theorem transF_simpleInit_cur (n : Nat) (i : Stmt) (t t' : TransSt) (c : Nat)
    (hsim : simpleInit (some i) = true) (hc : t.cur = some c)
    (h : transF n t (.one i) = .ok t') : t'.cur = some c := by
  cases n with
  | zero => cases h
  | succ m =>
    rw [transF_one] at h
    exact oneStep_simple_cur (transF m) t i t' c hsim hc h

/-- The case chain either ends with a committed current block or was
empty and did nothing. -/
theorem transF_cases_post (n : Nat) :
    ∀ (p nx : Nat) (cs : List (Option Exp × List Stmt)) (t t' : TransSt),
      transF n t (.cases p nx cs) = .ok t' →
      (∀ x, t'.cur = some x → x ∈ t'.bbs) ∨ (cs = [] ∧ t' = t) := by
  induction n with
  | zero => intro p nx cs t t' h; cases h
  | succ m ih =>
    intro p nx cs t t' h
    rw [transF_cases] at h
    cases cs with
    | nil =>
      cases h
      exact Or.inr ⟨rfl, rfl⟩
    | cons c rest =>
      obtain ⟨val, body⟩ := c
      unfold casesStep at h
      dsimp only at h
      cases hcu : t.cur with
      | none => rw [hcu] at h; cases h
      | some cb =>
        rw [hcu] at h
        dsimp only at h
        cases h1 : transF m (bbAddBranch t p val cb) (.many body) with
        | failed => rw [h1] at h; cases h
        | fuelOut => rw [h1] at h; cases h
        | ok s2 =>
          rw [h1] at h
          dsimp only at h
          cases hc2 : s2.cur with
          | some cb2 =>
            rw [hc2] at h
            dsimp only at h
            cases rest with
            | nil =>
              rcases ih p nx [] _ t' h with hcm | ⟨-, hid⟩
              · exact .inl hcm
              · subst hid
                left
                intro x hx
                simp only [fnAddBB_cur, bbAddBranch_cur, hc2, Option.some.injEq] at hx
                subst hx
                exact self_mem_fnAddBB _ _
            | cons c2 r2 =>
              rcases ih p nx (c2 :: r2) _ t' h with hcm | ⟨hr, -⟩
              · exact .inl hcm
              · cases hr
          | none =>
            rw [hc2] at h
            dsimp only at h
            cases rest with
            | nil =>
              rcases ih p nx [] _ t' h with hcm | ⟨-, hid⟩
              · exact .inl hcm
              · subst hid
                left
                intro x hx
                rw [hc2] at hx
                cases hx
            | cons c2 r2 =>
              rcases ih p nx (c2 :: r2) _ t' h with hcm | ⟨hr, -⟩
              · exact .inl hcm
              · cases hr

theorem simpleInit_initsOk (i : Stmt) (h : simpleInit (some i) = true) :
    initsOkS i = true := by
  obtain ⟨lb, k⟩ := i
  simp only [simpleInit, Bool.and_eq_true] at h
  cases k <;> first
    | rfl
    | (exfalso; simpa [simpleInitKind] using h.2)

theorem forLoopStep_fullInv (recur : TransSt → Work → TRes) (hrec : RecOK recur)
    (s : TransSt) (cb : Nat) (init : Option Stmt) (body : List Stmt) (s' : TransSt)
    (h : forLoopStep recur s cb init body = .ok s')
    (hcur : s.cur = some cb)
    (hin : initsOkK (.forLoop init body) = true)
    (hinitcur : ∀ i, init = some i → ∀ (t t' : TransSt) (c : Nat), t.cur = some c →
        recur t (.one i) = .ok t' → t'.cur = some c) :
    FullInv (kindGotos (.forLoop init body)) [] (kindLabels (.forLoop init body)) s s' := by
  unfold forLoopStep at h
  dsimp only at h
  have hin2 : simpleInit init = true ∧ initsOkL body = true := by
    rw [initsOkK] at hin; simpa using hin
  set G := kindGotos (.forLoop init body) with hGdef
  have hGi : ∀ x, x ∈ optStmtGotos init → x ∈ G := by
    intro x hx; rw [hGdef]; simp [kindGotos]; exact Or.inl hx
  have hGb : ∀ x, x ∈ stmtsGotos body → x ∈ G := by
    intro x hx; rw [hGdef]; simp [kindGotos]; exact Or.inr hx
  set condBB := (bbNew s).1 with hcondBB
  set s1 := (bbNew s).2 with hs1
  set nx := (bbNew s1).1 with hnx
  set s2 := (bbNew s1).2 with hs2
  set AL : List Nat := [condBB, nx] with hAL
  cases hi3 : (match init with | some i => recur s2 (.one i) | none => .ok s2) with
  | failed => rw [hi3] at h; cases h
  | fuelOut => rw [hi3] at h; cases h
  | ok s3 =>
    rw [hi3] at h
    dsimp only at h
    have hs2cur : s2.cur = some cb := by rw [hs2, hs1]; simpa using hcur
    have hBinit : FullInv G AL (optStmtLabels init) s2 s3 ∧ s3.cur = some cb := by
      cases hi : init with
      | none =>
        rw [hi] at hi3
        cases hi3
        exact ⟨by simpa [optStmtLabels] using fullInvRefl G AL s2, hs2cur⟩
      | some i =>
        rw [hi] at hi3
        obtain ⟨B, -⟩ := hrec s2 (.one i) s3 hi3
          (by simpa using simpleInit_initsOk i (by rw [hi] at hin2; exact hin2.1)) trivial
        refine ⟨?_, hinitcur i hi s2 s3 cb hs2cur hi3⟩
        refine B.mono (fun x hx => hGi x ?_) (fun x hx => by simp [workAllow] at hx) ?_
        · rw [hi]
          simpa [workGotos, optStmtGotos] using hx
        · intro x hx
          simpa [workLabels, optStmtLabels] using hx
    obtain ⟨Binit, hs3cur⟩ := hBinit
    have A1 := fullInv_bbNew (G) (AL) s
    have A2 := fullInv_bbNew (G) (AL) s1
    have A3 := fullInv_bbAddBranch G AL s3 cb none condBB
      (Or.inr (Or.inr (Or.inr (Or.inr (Or.inr (Or.inr (by rw [hAL]; simp)))))))
    have A4 := fullInv_fnAddBB G AL (bbAddBranch s3 cb none condBB) cb
    have P1 := (((A1.comp A2).comp Binit).comp A3).comp A4
    set s4 := fnAddBB (bbAddBranch s3 cb none condBB) cb with hs4
    have hcurA : ∀ x, s4.cur = some x → x ∈ s4.bbs := by
      intro x hx
      rw [hs4] at hx
      simp only [fnAddBB_cur, bbAddBranch_cur, hs3cur, Option.some.injEq] at hx
      subst hx
      rw [hs4]
      exact self_mem_fnAddBB _ _
    cases h6 : recur { s4 with cur := some condBB, contBB := some condBB, breakBB := some nx }
        (.many body) with
    | failed => rw [h6] at h; cases h
    | fuelOut => rw [h6] at h; cases h
    | ok s6 =>
      rw [h6] at h
      dsimp only at h
      obtain ⟨P2w, -⟩ := hrec _ (.many body) s6 h6 hin2.2 trivial
      have P2 := P2w.mono (G := G) (A := AL)
        (fun x hx => hGb x (by simpa [workGotos] using hx))
        (fun x hx => by simp [workAllow] at hx) (fun x hx => hx)
      set s7 : TransSt := { s6 with contBB := none, breakBB := none } with hs7
      have hcond67 : ∀ x, s6.cur = some x → s7.cur = some x := by
        intro x hx; rw [hs7]; exact hx
      cases hc7 : s7.cur with
      | some cb2 =>
        have hc6 : s6.cur = some cb2 := hc7
        rw [hc7] at h
        cases h
        have C1 := fullInv_bbAddBranch G AL s7 cb2 none condBB
          (Or.inr (Or.inr (Or.inr (Or.inr (Or.inr (Or.inr (by rw [hAL]; simp)))))))
        have C2 := fullInv_fnAddBB G AL (bbAddBranch s7 cb2 none condBB) cb2
        have C3 := fullInv_setCur G AL (fnAddBB (bbAddBranch s7 cb2 none condBB) cb2)
          (some nx)
          (by
            intro x hx
            simp only [fnAddBB_cur, bbAddBranch_cur] at hx
            have hx2 : s6.cur = some x := hx
            rw [hc6] at hx2
            cases hx2
            exact self_mem_fnAddBB _ _)
        have P3 := (C1.comp C2).comp C3
        have big := FullInv.fuse3 P1 P2 P3 rfl rfl rfl rfl hcurA
          (by intro t ht; simp only at ht; cases ht; rw [hAL]; simp)
          (by intro t ht; simp only at ht; cases ht; rw [hAL]; simp)
          rfl rfl rfl rfl rfl
          (by intro t ht; rw [hs7] at ht; simp at ht)
          (by intro t ht; rw [hs7] at ht; simp at ht)
          (Or.inr (by simp))
          (Or.inr (by simp))
        have hcondIn : condBB ∈ (fnAddBB (bbAddBranch s7 cb2 none condBB) cb2).bbs ∨
            ({ fnAddBB (bbAddBranch s7 cb2 none condBB) cb2 with cur := some nx }).cur =
              some condBB := by
          rcases P2.step.persist condBB (Or.inr rfl) with hp | hp
          · left
            have hp7 : condBB ∈ s7.bbs := hp
            exact mem_fnAddBB _ _ _ hp7
          · rw [hc6] at hp
            have heq : cb2 = condBB := by injection hp
            left
            rw [← heq]
            exact self_mem_fnAddBB _ _
        have r1 := FullInv.resolveAllow (by rw [hAL] at big; exact big) (by simpa using hcondIn)
        have r2 := FullInv.resolveAllow r1 (Or.inr rfl)
        refine r2.mono (fun x hx => hx) (fun x hx => by simp at hx) ?_
        intro x hx
        simp only [kindLabels] at hx
        simp at hx ⊢
        rcases hx with hx | hx
        · exact .inl hx
        · exact .inr (by simpa [workLabels] using hx)
      | none =>
        have hc6 : s6.cur = none := hc7
        rw [hc7] at h
        cases h
        have C1 := fullInv_bbAddBranch G AL s7 condBB none condBB
          (Or.inr (Or.inr (Or.inr (Or.inr (Or.inr (Or.inr (by rw [hAL]; simp)))))))
        have C2 := fullInv_setCur G AL (bbAddBranch s7 condBB none condBB) (some nx)
          (by
            intro x hx
            simp only [bbAddBranch_cur] at hx
            have hx2 : s6.cur = some x := hx
            rw [hc6] at hx2
            cases hx2)
        have P3 := C1.comp C2
        have big := FullInv.fuse3 P1 P2 P3 rfl rfl rfl rfl hcurA
          (by intro t ht; simp only at ht; cases ht; rw [hAL]; simp)
          (by intro t ht; simp only at ht; cases ht; rw [hAL]; simp)
          rfl rfl rfl rfl rfl
          (by intro t ht; rw [hs7] at ht; simp at ht)
          (by intro t ht; rw [hs7] at ht; simp at ht)
          (Or.inr (by simp))
          (Or.inr (by simp))
        have hcondIn : condBB ∈ ({ bbAddBranch s7 condBB none condBB with cur := some nx }).bbs ∨
            ({ bbAddBranch s7 condBB none condBB with cur := some nx }).cur = some condBB := by
          rcases P2.step.persist condBB (Or.inr rfl) with hp | hp
          · left
            exact hp
          · exfalso
            rw [hc6] at hp
            cases hp
        have r1 := FullInv.resolveAllow (by rw [hAL] at big; exact big) (by simpa using hcondIn)
        have r2 := FullInv.resolveAllow r1 (Or.inr rfl)
        refine r2.mono (fun x hx => hx) (fun x hx => by simp at hx) ?_
        intro x hx
        simp only [kindLabels] at hx
        simp at hx ⊢
        rcases hx with hx | hx
        · exact .inl hx
        · exact .inr (by simpa [workLabels] using hx)

theorem switchStep_fullInv (recur : TransSt → Work → TRes) (hrec : RecOK recur)
    (s : TransSt) (cb : Nat) (cs : List (Option Exp × List Stmt)) (hasDflt : Bool)
    (s' : TransSt)
    (h : switchStep recur s cb cs hasDflt = .ok s')
    (hcur : s.cur = some cb)
    (hin : initsOkK (.switchS cs hasDflt) = true)
    (hcpost : ∀ (t t' : TransSt), recur t (.cases cb (bbNew s).1 cs) = .ok t' →
        (∀ x, t'.cur = some x → x ∈ t'.bbs) ∨ (cs = [] ∧ t' = t)) :
    FullInv (kindGotos (.switchS cs hasDflt)) []
      (kindLabels (.switchS cs hasDflt)) s s' := by
  unfold switchStep at h
  dsimp only at h
  have hinc : initsOkCs cs = true := by rw [initsOkK] at hin; exact hin
  set G := kindGotos (.switchS cs hasDflt) with hGdef
  have hGc : ∀ x, x ∈ casesGotos cs → x ∈ G := by
    intro x hx; rw [hGdef]; simpa [kindGotos] using hx
  set nx := (bbNew s).1 with hnx
  set s1 := (bbNew s).2 with hs1
  set AL : List Nat := [nx] with hAL
  set s2 := fnAddBB s1 cb with hs2
  set s3 : TransSt := { s2 with contBB := none, breakBB := some nx } with hs3
  set b0 := (bbNew s3).1 with hb0
  set s4 := (bbNew s3).2 with hs4
  cases h5 : recur { s4 with cur := some b0 } (.cases cb nx cs) with
  | failed => rw [h5] at h; cases h
  | fuelOut => rw [h5] at h; cases h
  | ok s5 =>
    rw [h5] at h
    dsimp only at h
    have hs2cur : s2.cur = some cb := by rw [hs2, hs1]; simpa using hcur
    have hs2cb : cb ∈ s2.bbs := by rw [hs2]; exact self_mem_fnAddBB _ _
    obtain ⟨P2raw, -⟩ := hrec _ (.cases cb nx cs) s5 h5 (by simpa [workInits] using hinc)
      trivial
    have P2r := P2raw.mono (G := G) (A := AL)
      (fun x hx => hGc x (by simpa [workGotos] using hx))
      (fun x hx => by rw [hAL]; simpa [workAllow] using hx) (fun x hx => hx)
    rcases hcpost _ _ h5 with hcm | ⟨hnil, hid⟩
    · -- the case chain ended with a committed (or null) current block
      have P1 := (fullInv_bbNew (G) (AL) s).comp (fullInv_fnAddBB G AL s1 cb)
      have B1 := fullInv_bbNew (G) (AL) s3
      have B2 := fullInv_setCur G AL s4 (some b0)
        (by
          intro x hx
          have hx2 : s2.cur = some x := by rw [hs4, hs3] at hx; simpa using hx
          rw [hs2cur] at hx2
          cases hx2
          have : cb ∈ s2.bbs := hs2cb
          rw [hs4, hs3]
          simpa using this)
      have hB6 : FullInv G AL []  s5
          (if hasDflt = true then s5 else bbAddBranch s5 cb none nx) := by
        split
        · exact fullInvRefl G AL s5
        · exact fullInv_bbAddBranch G AL s5 cb none nx
            (Or.inr (Or.inr (Or.inr (Or.inr (Or.inr (Or.inr (by rw [hAL]; simp)))))))
      set S6 := if hasDflt = true then s5 else bbAddBranch s5 cb none nx with hS6
      have P2 := ((B1.comp B2).comp P2r).comp hB6
      have h6bbs : S6.bbs = s5.bbs := by rw [hS6]; split <;> simp
      have h6cur : S6.cur = s5.cur := by rw [hS6]; split <;> simp
      have h6cont : S6.contBB = none := by
        have h5cont : s5.contBB = none := by
          rcases P2raw.step.contSh with hcc | hcc
          · rw [hcc]; rfl
          · exact hcc
        rw [hS6]; split <;> simpa using h5cont
      cases h
      set SD : TransSt := { S6 with breakBB := none } with hSD
      have P3 := fullInv_setCur G AL SD (some nx)
        (by
          intro x hx
          have hx2 : s5.cur = some x := by
            have : S6.cur = some x := hx
            rw [h6cur] at this
            exact this
          have : x ∈ s5.bbs := hcm x hx2
          have : x ∈ S6.bbs := by rw [h6bbs]; exact this
          exact this)
      have big := FullInv.fuse3 P1 P2 P3 rfl rfl rfl rfl
        (by
          intro x hx
          rw [hs2cur] at hx
          cases hx
          exact hs2cb)
        (by intro t ht; have : (none : Option Nat) = some t := ht; cases this)
        (by intro t ht; have : some nx = some t := ht; cases ht; rw [hAL]; simp)
        rfl rfl rfl rfl rfl
        (by
          intro t ht
          have : S6.contBB = some t := ht
          rw [h6cont] at this
          cases this)
        (by intro t ht; have : (none : Option Nat) = some t := ht; cases this)
        (Or.inr (by
          have hSDc : SD.contBB = none := by rw [hSD]; simpa using h6cont
          simpa using hSDc))
        (Or.inr rfl)
      have r1 := FullInv.resolveAllow (by rw [hAL] at big; exact big) (Or.inr rfl)
      refine r1.mono (fun x hx => hx) (fun x hx => by simp at hx) ?_
      intro x hx
      simp only [kindLabels] at hx
      simp
      exact hx
    · -- empty case list: the chain did nothing and the fresh body block
      -- is abandoned unreferenced
      subst hnil
      cases h
      have hidc : s5 = { s4 with cur := some b0 } := hid
      have D1 := fullInv_bbNew (G) (AL) s
      have D2 := fullInv_fnAddBB G AL s1 cb
      have D3 := fullInv_bbNew (G) (AL) s2
      set u1 := (bbNew s2).2 with hu1
      have hD4 : FullInv G AL [] u1 (if hasDflt = true then u1 else bbAddBranch u1 cb none nx) := by
        split
        · exact fullInvRefl G AL u1
        · exact fullInv_bbAddBranch G AL u1 cb none nx
            (Or.inr (Or.inr (Or.inr (Or.inr (Or.inr (Or.inr (by rw [hAL]; simp)))))))
      set u2 := if hasDflt = true then u1 else bbAddBranch u1 cb none nx with hu2
      have hu2cur : u2.cur = some cb := by
        rw [hu2]
        have : u1.cur = some cb := by rw [hu1]; simpa using hs2cur
        split <;> simpa using this
      have hu2bbs : u2.bbs = s2.bbs := by
        rw [hu2, hu1]; split <;> simp
      have D5 := fullInv_resetJumpsCur G AL u2 (some nx) none none
        (by
          intro x hx
          rw [hu2cur] at hx
          cases hx
          rw [hu2bbs]
          exact hs2cb)
        (Or.inr rfl) (Or.inr rfl)
      have chain := (((D1.comp D2).comp D3).comp hD4).comp D5
      set u3 : TransSt := { u2 with cur := some nx, contBB := none, breakBB := none } with hu3
      set sfin : TransSt := { (if hasDflt = true then s5 else bbAddBranch s5 cb none nx) with
            breakBB := none
            cur := some nx } with hsfin
      have e1 : sfin.blocks = u3.blocks := by
        rw [hsfin, hu3, hidc, hu2, hu1, hs4, hs3]
        cases hasDflt <;> simp [bbAddBranch]
      have e2 : sfin.bbs = u3.bbs := by
        rw [hsfin, hu3, hidc, hu2, hu1, hs4, hs3]
        cases hasDflt <;> simp [bbAddBranch]
      have e3 : sfin.exitBB = u3.exitBB := by
        rw [hsfin, hu3, hidc, hu2, hu1, hs4, hs3]
        cases hasDflt <;> simp [bbAddBranch]
      have e4 : sfin.cur = u3.cur := by
        rw [hsfin, hu3]
      have e5 : sfin.contBB = u3.contBB := by
        rw [hsfin, hu3, hidc, hu2, hu1, hs4, hs3]
        cases hasDflt <;> simp [bbAddBranch]
      have e6 : sfin.breakBB = u3.breakBB := by
        rw [hsfin, hu3]
      have e7 : sfin.errors = u3.errors := by
        rw [hsfin, hu3, hidc, hu2, hu1, hs4, hs3]
        cases hasDflt <;> simp [bbAddBranch]
      have hfin := fullInv_eqFields G AL u3 sfin e1 e2 e3 e4 e5 e6 e7
      have res := chain.comp hfin
      have res2 : FullInv G AL (([] ++ [] ++ [] ++ [] ++ []) ++ []) s
          { (if hasDflt = true then s5 else bbAddBranch s5 cb none nx) with
              breakBB := none
              cur := some nx } := by
        rw [hsfin] at res
        exact res
      have res3 := FullInv.resolveAllow (by rw [hAL] at res2; exact res2) (Or.inr rfl)
      refine res3.mono (fun x hx => hx) (fun x hx => hx) ?_
      intro x hx
      simp only [kindLabels, casesLabels] at hx
      simp at hx

theorem FullInv.withLabsOfError {gl al : List Nat} (lbs : List Nat) {s s' : TransSt}
    (h : FullInv gl al [] s s') (hne : s'.errors = s.errors → False) :
    FullInv gl al lbs s s' :=
  ⟨h.step, h.tgt, fun he => absurd he hne, h.stm, h.pgb⟩

theorem oneStep_assemble {gl : List Nat} {lb : Option Nat} {k : SKind} {s0 sL s' : TransSt}
    (L : FullInv gl [] lb.toList s0 sL) (K : FullInv gl [] (kindLabels k) sL s') :
    FullInv gl [] (stmtLabels (.mk lb k)) s0 s' := by
  have c := L.comp K
  refine c.mono (fun x hx => hx) (fun x hx => hx) ?_
  intro x hx
  cases lb <;> simpa [stmtLabels, Option.toList] using hx

/-- `stmt_trans` on one statement obeys the invariant, given the
translator callback does. -/
theorem oneStep_fullInv (recur : TransSt → Work → TRes) (hrec : RecOK recur)
    (hinitcur : ∀ (i : Stmt) (t t' : TransSt) (c : Nat), simpleInit (some i) = true →
        t.cur = some c → recur t (.one i) = .ok t' → t'.cur = some c)
    (hcpost : ∀ (p nx : Nat) (cs : List (Option Exp × List Stmt)) (t t' : TransSt),
        recur t (.cases p nx cs) = .ok t' →
        (∀ x, t'.cur = some x → x ∈ t'.bbs) ∨ (cs = [] ∧ t' = t))
    (s0 : TransSt) (st : Stmt) (s' : TransSt)
    (h : oneStep recur s0 st = .ok s')
    (hin : initsOkS st = true) :
    FullInv (stmtGotos st) [] (stmtLabels st) s0 s' := by
  obtain ⟨lb, k⟩ := st
  show FullInv (kindGotos k) [] (stmtLabels (.mk lb k)) s0 s'
  have hink : initsOkK k = true := hin
  unfold oneStep at h
  dsimp only [Stmt.labelOf, Stmt.kindOf] at h
  have L := labelStep_fullInv (kindGotos k) [] s0 lb
  cases hcL : (labelStep s0 lb).cur with
  | none => rw [hcL] at h; cases h
  | some cb =>
    rw [hcL] at h
    dsimp only at h
    cases k with
    | nullS =>
      cases h
      exact oneStep_assemble L (fullInvRefl _ _ _)
    | caseS =>
      cases h
      exact oneStep_assemble L (fullInvRefl _ _ _)
    | expS e =>
      cases h
      exact oneStep_assemble L (expStep_fullInv _ [] _ cb e).1
    | assignS l r =>
      dsimp only at h
      cases hm : stmtTransAssign (labelStep s0 lb) cb (.mk none (.assignS l r)) l r with
      | none => rw [hm] at h; cases h
      | some s1 =>
        rw [hm] at h
        cases h
        exact oneStep_assemble L (stmtTransAssign_fullInv _ [] _ cb l r _ hm).1
    | ifS cond ifBlk elifs elseBlk =>
      exact oneStep_assemble L
        (ifStep_fullInv recur hrec _ cb cond ifBlk elifs elseBlk s' h hcL hink)
    | forLoop init body =>
      exact oneStep_assemble L
        (forLoopStep_fullInv recur hrec _ cb init body s' h hcL hink
          (fun i hi t t' c hc hr => by
            refine hinitcur i t t' c ?_ hc hr
            rw [initsOkK] at hink
            rw [hi] at hink
            simpa using (Bool.and_eq_true _ _ ▸ hink).1))
    | arrayLoop pos body =>
      cases h
      have K1 := fullInv_addError (kindGotos (.arrayLoop pos body)) []
        (labelStep s0 lb) (.notSupported, pos)
      have K2 := fullInv_eqFields (kindGotos (.arrayLoop pos body)) []
        { labelStep s0 lb with errors := (labelStep s0 lb).errors ++ [(.notSupported, pos)] }
        { labelStep s0 lb with
            cur := some cb
            errors := (labelStep s0 lb).errors ++ [(.notSupported, pos)] }
        rfl rfl rfl hcL.symm rfl rfl rfl
      refine oneStep_assemble L (FullInv.withLabsOfError _ (by simpa using K1.comp K2) ?_)
      intro he
      have := congrArg List.length he
      simp at this
    | switchS cs hasDflt =>
      exact oneStep_assemble L
        (switchStep_fullInv recur hrec _ cb cs hasDflt s' h hcL hink
          (fun t t' hr => hcpost cb (bbNew (labelStep s0 lb)).1 cs t t' hr))
    | retS arg =>
      cases h
      exact oneStep_assemble L (retStep_fullInv _ [] _ cb arg hcL).1
    | contS =>
      exact oneStep_assemble L (contStep_fullInv _ [] _ cb s' hcL h).1
    | breakS cond =>
      exact oneStep_assemble L (breakStep_fullInv _ [] _ cb cond s' hcL h).1
    | gotoS target =>
      cases h
      exact oneStep_assemble L
        (gotoStep_fullInv _ [] _ cb target hcL (by simp [kindGotos])).1
    | ddlS tag =>
      cases h
      exact oneStep_assemble L (fullInv_bbAddStmt _ [] _ cb _ (by rfl))
    | blkS b =>
      obtain ⟨K, -⟩ := hrec _ (.many b) s' h (by simpa [initsOkK] using hink) trivial
      exact oneStep_assemble L K

/-- The fuel-indexed translator obeys the invariant contract at every
fuel. -/
theorem transF_fullInv : ∀ n, RecOK (transF n) := by
  intro n
  induction n with
  | zero =>
    intro s w s' h
    cases h
  | succ m ih =>
    intro s w s' h hinits hpre
    cases w with
    | one st =>
      rw [transF_one] at h
      refine ⟨oneStep_fullInv (transF m) ih
        (fun i t t' c hsim hc hr => transF_simpleInit_cur m i t t' c hsim hc hr)
        (fun p nx cs t t' hr => transF_cases_post m p nx cs t t' hr)
        s st s' h hinits, trivial⟩
    | many sts =>
      rw [transF_many] at h
      exact ⟨manyStep_fullInv (transF m) ih sts s s' h hinits, trivial⟩
    | elifs prev next es =>
      rw [transF_elifs] at h
      exact elifsStep_fullInv (transF m) ih prev next es s s' h hinits hpre
    | cases prev next cs =>
      rw [transF_cases] at h
      exact ⟨casesStep_fullInv (transF m) ih prev next cs s s' h hinits, trivial⟩

theorem getBlock_bbNew_lt (s : TransSt) (b : Nat) (h : b < s.blocks.length) :
    getBlock (bbNew s).2 b = getBlock s b := by
  unfold getBlock bbNew
  dsimp only
  rw [List.getD_eq_getElem?_getD, List.getD_eq_getElem?_getD,
      List.getElem?_append_left h]

theorem exbr_bbAddStmt (s : TransSt) (cb : Nat) (st : Stmt) :
    exbr (bbAddStmt s cb st) = exbr s := by
  unfold exbr
  rw [branches_bbAddStmt]

theorem exbr_bbAddBranch (s : TransSt) (cb : Nat) (g : Option Exp) (t : Nat)
    (h : cb ≠ 1) : exbr (bbAddBranch s cb g t) = exbr s := by
  unfold exbr
  rw [getBlock_bbAddBranch_ne s cb 1 g t h]

theorem exbr_fnAddBB (s : TransSt) (b : Nat) : exbr (fnAddBB s b) = exbr s := by
  unfold exbr
  rw [getBlock_fnAddBB]

theorem exbr_bbNew (s : TransSt) (h : 2 ≤ s.blocks.length) :
    exbr (bbNew s).2 = exbr s := by
  unfold exbr
  rw [getBlock_bbNew_lt s 1 (by omega)]

theorem exbr_closeTo (s : TransSt) (t : Nat) (h : s.cur ≠ some 1) :
    exbr (closeTo s t) = exbr s := by
  unfold closeTo
  cases hc : s.cur with
  | none => rfl
  | some cb =>
    have hcb : cb ≠ 1 := by
      intro he
      subst he
      exact h hc
    rw [exbr_fnAddBB, exbr_bbAddBranch _ _ _ _ hcb]

theorem exbr_expStep (s : TransSt) (cb : Nat) (e : Exp) :
    exbr (expStep s cb e) = exbr s := by
  unfold expStep
  dsimp only
  split
  · rw [exbr_bbAddStmt]
    exact rfl
  · split
    · rfl
    · unfold exbr
      rcases getBlock_updAt_cases
          (fun b => { b with stmts := b.stmts ++ b.pgbacks, pgbacks := [] })
          { s with isLval := false } cb 1 with he | he
      · rw [he]
        exact rfl
      · rw [he]
        exact rfl

theorem exbr_assignEach (cb : Nat) : ∀ (vars vals : List Exp) (s s' : TransSt),
    assignEach cb s vars vals = some s' → exbr s' = exbr s := by
  intro vars
  induction vars with
  | nil =>
    intro vals s s' h
    cases vals with
    | nil => cases h; rfl
    | cons v vs => simp [assignEach] at h
  | cons var vars ih =>
    intro vals s s' h
    cases vals with
    | nil => simp [assignEach] at h
    | cons val vals =>
      unfold assignEach at h
      split at h
      · rw [ih vals _ s' h, exbr_bbAddStmt]
      · cases h

theorem exbr_assignElems (cb : Nat) (varExps elems : List Exp) :
    ∀ (cnt : Nat) (s : TransSt) (vi j : Nat) (s' : TransSt) (vi' : Nat),
      assignElems cb varExps elems s vi j cnt = some (s', vi') → exbr s' = exbr s := by
  intro cnt
  induction cnt with
  | zero =>
    intro s vi j s' vi' h
    cases h; rfl
  | succ n ih =>
    intro s vi j s' vi' h
    unfold assignElems at h
    cases hv : varExps[vi]? with
    | none => rw [hv] at h; simp at h
    | some var =>
      cases he : elems[j]? with
      | none => rw [hv, he] at h; simp at h
      | some elem =>
        rw [hv, he] at h
        dsimp only at h
        split at h
        · rw [ih _ _ _ _ _ h, exbr_bbAddStmt]
        · cases h

theorem exbr_assignFlat (cb : Nat) (varExps : List Exp) :
    ∀ (vals : List Exp) (s : TransSt) (vi : Nat) (s' : TransSt),
      assignFlat cb varExps s vi vals = some s' → exbr s' = exbr s := by
  intro vals
  induction vals with
  | nil =>
    intro s vi s' h
    cases h; rfl
  | cons val vals ih =>
    intro s vi s' h
    unfold assignFlat at h
    split at h
    · split at h
      · split at h
        · rename_i htup s1 vi1 heq
          rw [ih _ _ _ h, exbr_assignElems cb varExps _ _ _ _ _ _ _ heq]
        · cases h
      · cases h
    · split at h
      · split at h
        · split at h
          · rw [ih _ _ _ h, exbr_bbAddStmt]
          · cases h
        · cases h
      · cases h

theorem exbr_stmtTransAssign (s : TransSt) (cb : Nat) (orig : Stmt) (l r : Exp)
    (s' : TransSt) (h : stmtTransAssign s cb orig l r = some s') : exbr s' = exbr s := by
  unfold stmtTransAssign at h
  split at h
  · split at h
    · split at h
      · exact exbr_assignEach cb _ _ s s' h
      · split at h
        · exact exbr_assignFlat cb _ _ s 0 s' h
        · cases h
    · cases h
  · cases h
    rw [exbr_bbAddStmt]

theorem EOut.ecomp {s s2 s3 : TransSt} (a : EOut s s2) (b : EOut s2 s3) : EOut s s3 :=
  ⟨b.1.trans a.1, b.2.1, b.2.2⟩

theorem EOut.erefl (s : TransSt) (hc : s.cur ≠ some 1) (hl : 2 ≤ s.blocks.length) :
    EOut s s := ⟨rfl, hc, hl⟩

theorem E_labelStep (s : TransSt) (lb? : Option Nat)
    (hlen : 2 ≤ s.blocks.length) (hc : s.cur ≠ some 1)
    (hlb : 1 ∈ lb?.toList → False) :
    EOut s (labelStep s lb?) := by
  cases lb? with
  | some lb =>
    have hlb1 : lb ≠ 1 := by
      intro he
      exact hlb (by simp [he])
    unfold labelStep
    cases hcs : s.cur with
    | none =>
      exact ⟨rfl, by simp [Option.some.injEq]; exact fun he => hlb1 he, hlen⟩
    | some cb =>
      have hcb : cb ≠ 1 := fun he => hc (he ▸ hcs)
      refine ⟨?_, by simp [Option.some.injEq]; exact fun he => hlb1 he, by simpa using hlen⟩
      show exbr (fnAddBB (bbAddBranch s cb none lb) cb) = exbr s
      rw [exbr_fnAddBB, exbr_bbAddBranch _ _ _ _ hcb]
  | none =>
    unfold labelStep
    cases hcs : s.cur with
    | some cb => exact ⟨rfl, by simpa [hcs] using hc, hlen⟩
    | none =>
      refine ⟨by exact exbr_bbNew s hlen, ?_, by simp; omega⟩
      simp only [bbNew_fst]
      intro he
      have : s.blocks.length = 1 := by simpa using he
      omega

theorem E_manyStep (recur : TransSt → Work → TRes) (herec : ERecOK recur)
    (sts : List Stmt) : ∀ (s s' : TransSt),
    manyStep recur s sts = .ok s' → EPre (.many sts) s → EOut s s' := by
  cases sts with
  | nil =>
    intro s s' h hpre
    cases h
    exact ⟨rfl, hpre.2.1, hpre.1⟩
  | cons st rest =>
    intro s s' h hpre
    unfold manyStep at h
    dsimp only at h
    cases h1 : recur s (.one st) with
    | failed => rw [h1] at h; cases h
    | fuelOut => rw [h1] at h; cases h
    | ok s1 =>
      rw [h1] at h
      have a := herec s (.one st) s1 h1
        ⟨hpre.1, hpre.2.1, fun hm => hpre.2.2.1 (by
          simp only [workLabels] at hm ⊢
          simp [stmtsLabels]
          exact Or.inl (by simpa [workLabels] using hm)), trivial⟩
      have b := herec s1 (.many rest) s' h
        ⟨a.2.2, a.2.1, fun hm => hpre.2.2.1 (by
          simp only [workLabels] at hm ⊢
          simp [stmtsLabels]
          exact Or.inr (by simpa [workLabels] using hm)), trivial⟩
      exact a.ecomp b

theorem E_elifsStep (recur : TransSt → Work → TRes) (herec : ERecOK recur)
    (prev next : Nat) (es : List (Exp × List Stmt)) :
    ∀ (s s' : TransSt), elifsStep recur s prev next es = .ok s' →
    2 ≤ s.blocks.length → s.cur ≠ some 1 → (1 ∈ elifsLabels es → False) → prev ≠ 1 →
    EOut s s' := by
  cases es with
  | nil =>
    intro s s' h hlen hc _ _
    cases h
    exact ⟨rfl, hc, hlen⟩
  | cons e rest =>
    obtain ⟨cond, blk⟩ := e
    intro s s' h hlen hc hlb hprev
    unfold elifsStep at h
    dsimp only at h
    cases h1 : recur (bbAddBranch { (bbNew s).2 with cur := some (bbNew s).1 } prev
        (some cond) (bbNew s).1) (.many blk) with
    | failed => rw [h1] at h; cases h
    | fuelOut => rw [h1] at h; cases h
    | ok s4 =>
      rw [h1] at h
      dsimp only at h
      have e0 : EOut s (bbAddBranch { (bbNew s).2 with cur := some (bbNew s).1 } prev
          (some cond) (bbNew s).1) := by
        refine ⟨?_, ?_, by simp; omega⟩
        · rw [exbr_bbAddBranch _ _ _ _ hprev]
          show exbr (bbNew s).2 = exbr s
          exact exbr_bbNew s hlen
        · simp only [bbAddBranch_cur, bbNew_fst]
          intro he
          have : s.blocks.length = 1 := by simpa using he
          omega
      have a := herec _ (.many blk) s4 h1
        ⟨e0.2.2, e0.2.1, fun hm => hlb (by
          simp [elifsLabels]
          exact Or.inl (by simpa [workLabels] using hm)), trivial⟩
      have ec : EOut s4 (closeTo s4 next) :=
        ⟨exbr_closeTo s4 next a.2.1, by
          have : (closeTo s4 next).cur = s4.cur := by
            unfold closeTo
            cases hcs : s4.cur <;> simp [hcs]
          rw [this]; exact a.2.1, by
          have hle : (closeTo s4 next).blocks.length = s4.blocks.length := by
            unfold closeTo
            cases hcs : s4.cur <;> simp
          rw [hle]; exact a.2.2⟩
      have b := herec _ (.elifs prev next rest) s' h
        ⟨ec.2.2, ec.2.1, fun hm => hlb (by
          simp [elifsLabels]
          exact Or.inr (by simpa [workLabels] using hm)), hprev⟩
      exact ((e0.ecomp a).ecomp ec).ecomp b

theorem closeTo_cur (s : TransSt) (t : Nat) : (closeTo s t).cur = s.cur := by
  unfold closeTo
  cases hcs : s.cur <;> simp [hcs]

theorem closeTo_len (s : TransSt) (t : Nat) :
    (closeTo s t).blocks.length = s.blocks.length := by
  unfold closeTo
  cases hcs : s.cur <;> simp

theorem fresh_ne_one (s : TransSt) (h : 2 ≤ s.blocks.length) :
    ¬ (some (bbNew s).1 = (some 1 : Option Nat)) := by
  simp only [bbNew_fst, Option.some.injEq]
  omega

theorem E_casesStep (recur : TransSt → Work → TRes) (herec : ERecOK recur)
    (prev next : Nat) (cs : List (Option Exp × List Stmt)) :
    ∀ (s s' : TransSt), casesStep recur s prev next cs = .ok s' →
    2 ≤ s.blocks.length → s.cur ≠ some 1 → (1 ∈ casesLabels cs → False) → prev ≠ 1 →
    EOut s s' := by
  cases cs with
  | nil =>
    intro s s' h hlen hc _ _
    cases h
    exact ⟨rfl, hc, hlen⟩
  | cons c rest =>
    obtain ⟨val, body⟩ := c
    intro s s' h hlen hc hlb hprev
    unfold casesStep at h
    dsimp only at h
    cases hcs : s.cur with
    | none => rw [hcs] at h; cases h
    | some cb =>
      rw [hcs] at h
      dsimp only at h
      have e0 : EOut s (bbAddBranch s prev val cb) :=
        ⟨exbr_bbAddBranch _ _ _ _ hprev, by simpa [hcs] using hc, by simpa using hlen⟩
      cases h1 : recur (bbAddBranch s prev val cb) (.many body) with
      | failed => rw [h1] at h; cases h
      | fuelOut => rw [h1] at h; cases h
      | ok s2 =>
        rw [h1] at h
        dsimp only at h
        have a := herec _ (.many body) s2 h1
          ⟨e0.2.2, e0.2.1, fun hm => hlb (by
            simp [casesLabels]
            exact Or.inl (by simpa [workLabels] using hm)), trivial⟩
        have hrest : (1 ∈ casesLabels rest → False) := fun hm => hlb (by
          simp [casesLabels]
          exact Or.inr hm)
        have ea := e0.ecomp a
        cases hc2 : s2.cur with
        | some cb2 =>
          rw [hc2] at h
          dsimp only at h
          have hcb2 : cb2 ≠ 1 := by
            intro he
            exact a.2.1 (he ▸ hc2)
          cases rest with
          | nil =>
            have e3 : EOut s2 (fnAddBB (bbAddBranch s2 cb2 none next) cb2) :=
              ⟨by rw [exbr_fnAddBB, exbr_bbAddBranch _ _ _ _ hcb2],
               by simpa [hc2] using a.2.1, by simpa using a.2.2⟩
            dsimp only at h
            have b := herec _ (.cases prev next []) s' h
              ⟨e3.2.2, e3.2.1, by simp [workLabels, casesLabels], hprev⟩
            exact (ea.ecomp e3).ecomp b
          | cons c2 r2 =>
            have e3 : EOut s2 { fnAddBB (bbAddBranch (bbNew s2).2 cb2 none (bbNew s2).1)
                cb2 with cur := some (bbNew s2).1 } := by
              have hq := a.2.2
              refine ⟨?_, ?_, by simp; omega⟩
              · show exbr (fnAddBB (bbAddBranch (bbNew s2).2 cb2 none (bbNew s2).1) cb2) =
                  exbr s2
                rw [exbr_fnAddBB, exbr_bbAddBranch _ _ _ _ hcb2, exbr_bbNew s2 a.2.2]
              · exact fresh_ne_one s2 a.2.2
            have b := herec _ (.cases prev next (c2 :: r2)) s' h
              ⟨e3.2.2, e3.2.1, fun hm => hrest (by simpa [workLabels] using hm), hprev⟩
            exact (ea.ecomp e3).ecomp b
        | none =>
          rw [hc2] at h
          dsimp only at h
          cases rest with
          | nil =>
            have b := herec _ (.cases prev next []) s' h
              ⟨a.2.2, a.2.1, by simp [workLabels, casesLabels], hprev⟩
            exact ea.ecomp b
          | cons c2 r2 =>
            have e3 : EOut s2 { (bbNew s2).2 with cur := some (bbNew s2).1 } := by
              have hq := a.2.2
              refine ⟨?_, fresh_ne_one s2 a.2.2, by simp; omega⟩
              show exbr (bbNew s2).2 = exbr s2
              exact exbr_bbNew s2 a.2.2
            have b := herec _ (.cases prev next (c2 :: r2)) s' h
              ⟨e3.2.2, e3.2.1, fun hm => hrest (by simpa [workLabels] using hm), hprev⟩
            exact (ea.ecomp e3).ecomp b

theorem E_ifStep (recur : TransSt → Work → TRes) (herec : ERecOK recur)
    (s : TransSt) (cb : Nat) (cond : Exp) (ifBlk : List Stmt)
    (elifs : List (Exp × List Stmt)) (elseBlk : Option (List Stmt)) (s' : TransSt)
    (h : ifStep recur s cb cond ifBlk elifs elseBlk = .ok s')
    (hlen : 2 ≤ s.blocks.length) (hcb : cb ≠ 1)
    (hlb : 1 ∈ kindLabels (.ifS cond ifBlk elifs elseBlk) → False) :
    EOut s s' := by
  unfold ifStep at h
  dsimp only at h
  have hlbA : 1 ∈ stmtsLabels ifBlk → False := fun hm => hlb (by simp [kindLabels]; exact Or.inl hm)
  have hlbE : 1 ∈ elifsLabels elifs → False := fun hm => hlb (by simp [kindLabels]; exact Or.inr (Or.inl hm))
  have hlbO : 1 ∈ optBlkLabels elseBlk → False := fun hm => hlb (by simp [kindLabels]; exact Or.inr (Or.inr hm))
  set nx := (bbNew s).1 with hnx
  have hnx1 : ¬ (some nx = (some 1 : Option Nat)) := fresh_ne_one s hlen
  have e0 : EOut s (bbAddBranch
      { (bbNew (fnAddBB (bbNew s).2 cb)).2 with
          cur := some (bbNew (fnAddBB (bbNew s).2 cb)).1 } cb (some cond)
      (bbNew (fnAddBB (bbNew s).2 cb)).1) := by
    refine ⟨?_, ?_, by simp <;> omega⟩
    · rw [exbr_bbAddBranch _ _ _ _ hcb]
      show exbr (bbNew (fnAddBB (bbNew s).2 cb)).2 = exbr s
      rw [exbr_bbNew _ (by simp <;> omega), exbr_fnAddBB, exbr_bbNew s hlen]
    · simp only [bbAddBranch_cur]
      exact fresh_ne_one _ (by simp <;> omega)
  cases h1 : recur (bbAddBranch
      { (bbNew (fnAddBB (bbNew s).2 cb)).2 with
          cur := some (bbNew (fnAddBB (bbNew s).2 cb)).1 } cb (some cond)
      (bbNew (fnAddBB (bbNew s).2 cb)).1) (.many ifBlk) with
  | failed => rw [h1] at h; cases h
  | fuelOut => rw [h1] at h; cases h
  | ok s5 =>
    rw [h1] at h
    dsimp only at h
    have a := herec _ (.many ifBlk) s5 h1
      ⟨e0.2.2, e0.2.1, fun hm => hlbA (by simpa [workLabels] using hm), trivial⟩
    have ecl : EOut s5 (closeTo s5 nx) :=
      ⟨exbr_closeTo _ _ a.2.1, by rw [closeTo_cur]; exact a.2.1,
       by rw [closeTo_len]; exact a.2.2⟩
    cases h2 : recur (closeTo s5 nx) (.elifs cb nx elifs) with
    | failed => rw [h2] at h; cases h
    | fuelOut => rw [h2] at h; cases h
    | ok s7 =>
      rw [h2] at h
      dsimp only at h
      have b := herec _ (.elifs cb nx elifs) s7 h2
        ⟨ecl.2.2, ecl.2.1, fun hm => hlbE (by simpa [workLabels] using hm), hcb⟩
      have eab := ((e0.ecomp a).ecomp ecl).ecomp b
      cases elseBlk with
      | none =>
        cases h
        refine eab.ecomp ⟨?_, ?_, by simpa using b.2.2⟩
        · show exbr (bbAddBranch s7 cb none nx) = exbr s7
          rw [exbr_bbAddBranch _ _ _ _ hcb]
        · simpa using hnx1
      | some eb =>
        dsimp only at h
        have e4 : EOut s7 (bbAddBranch { (bbNew s7).2 with cur := some (bbNew s7).1 }
            cb none (bbNew s7).1) := by
          have hq := b.2.2
          refine ⟨?_, ?_, by simp <;> omega⟩
          · rw [exbr_bbAddBranch _ _ _ _ hcb]
            show exbr (bbNew s7).2 = exbr s7
            exact exbr_bbNew s7 b.2.2
          · simp only [bbAddBranch_cur]
            exact fresh_ne_one s7 b.2.2
        cases h3 : recur (bbAddBranch { (bbNew s7).2 with cur := some (bbNew s7).1 }
            cb none (bbNew s7).1) (.many eb) with
        | failed => rw [h3] at h; cases h
        | fuelOut => rw [h3] at h; cases h
        | ok s10 =>
          rw [h3] at h
          cases h
          have c := herec _ (.many eb) s10 h3
            ⟨e4.2.2, e4.2.1,
             fun hm => hlbO (by simpa [workLabels, optBlkLabels] using hm), trivial⟩
          have ecl2 : EOut s10 (closeTo s10 nx) :=
            ⟨exbr_closeTo _ _ c.2.1, by rw [closeTo_cur]; exact c.2.1,
             by rw [closeTo_len]; exact c.2.2⟩
          refine (((eab.ecomp e4).ecomp c).ecomp ecl2).ecomp ⟨rfl, ?_, ?_⟩
          · simpa using hnx1
          · exact ecl2.2.2

theorem E_forLoopStep (recur : TransSt → Work → TRes) (herec : ERecOK recur)
    (s : TransSt) (cb : Nat) (init : Option Stmt) (body : List Stmt) (s' : TransSt)
    (h : forLoopStep recur s cb init body = .ok s')
    (hlen : 2 ≤ s.blocks.length) (hcur : s.cur = some cb) (hcb : cb ≠ 1)
    (hlb : 1 ∈ kindLabels (.forLoop init body) → False) :
    EOut s s' := by
  unfold forLoopStep at h
  dsimp only at h
  have hlbI : 1 ∈ optStmtLabels init → False := fun hm => hlb (by simp [kindLabels]; exact Or.inl hm)
  have hlbB : 1 ∈ stmtsLabels body → False := fun hm => hlb (by simp [kindLabels]; exact Or.inr hm)
  set condBB := (bbNew s).1 with hcondBB
  set nx := (bbNew (bbNew s).2).1 with hnx
  have hcond1 : condBB ≠ 1 := by
    intro he
    exact fresh_ne_one s hlen (by rw [← hcondBB, he])
  have hnx1 : ¬ (some nx = (some 1 : Option Nat)) := fresh_ne_one _ (by simp <;> omega)
  have e0 : EOut s (bbNew (bbNew s).2).2 := by
    refine ⟨?_, ?_, by simp <;> omega⟩
    · show exbr (bbNew (bbNew s).2).2 = exbr s
      rw [exbr_bbNew _ (by simp <;> omega), exbr_bbNew s hlen]
    · show ¬ ((bbNew (bbNew s).2).2.cur = some 1)
      simp only [bbNew_snd_cur]
      rw [hcur]
      intro he
      injection he with he2
      exact hcb he2
  cases hi3 : (match init with
      | some i => recur (bbNew (bbNew s).2).2 (.one i)
      | none => .ok (bbNew (bbNew s).2).2) with
  | failed => rw [hi3] at h; cases h
  | fuelOut => rw [hi3] at h; cases h
  | ok s3 =>
    rw [hi3] at h
    dsimp only at h
    have a : EOut s s3 := by
      cases hi : init with
      | none =>
        rw [hi] at hi3
        cases hi3
        exact e0
      | some i =>
        rw [hi] at hi3
        have ai := herec _ (.one i) s3 hi3
          ⟨e0.2.2, e0.2.1, fun hm => hlbI (by
            rw [hi]
            simpa [workLabels, optStmtLabels] using hm), trivial⟩
        exact e0.ecomp ai
    have e1 : EOut s3 { fnAddBB (bbAddBranch s3 cb none condBB) cb with
        cur := some condBB
        contBB := some condBB
        breakBB := some nx } := by
      refine ⟨?_, ?_, by simpa using a.2.2⟩
      · show exbr (fnAddBB (bbAddBranch s3 cb none condBB) cb) = exbr s3
        rw [exbr_fnAddBB, exbr_bbAddBranch _ _ _ _ hcb]
      · intro he
        injection he with he2
        exact hcond1 he2
    cases h6 : recur { fnAddBB (bbAddBranch s3 cb none condBB) cb with
        cur := some condBB
        contBB := some condBB
        breakBB := some nx } (.many body) with
    | failed => rw [h6] at h; cases h
    | fuelOut => rw [h6] at h; cases h
    | ok s6 =>
      rw [h6] at h
      dsimp only at h
      have bb := herec _ (.many body) s6 h6
        ⟨e1.2.2, e1.2.1, fun hm => hlbB (by simpa [workLabels] using hm), trivial⟩
      have eb := (a.ecomp e1).ecomp bb
      cases hc7 : ({ s6 with contBB := none, breakBB := none } : TransSt).cur with
      | some cb2 =>
        rw [hc7] at h
        cases h
        have hcb2 : cb2 ≠ 1 := by
          intro he
          subst he
          exact bb.2.1 hc7
        refine eb.ecomp ⟨?_, by simpa using hnx1, by simpa using bb.2.2⟩
        show exbr (fnAddBB (bbAddBranch { s6 with
            cur := some cb2
            contBB := none
            breakBB := none } cb2 none condBB) cb2) = exbr s6
        rw [exbr_fnAddBB, exbr_bbAddBranch _ _ _ _ hcb2]
        exact rfl
      | none =>
        rw [hc7] at h
        cases h
        refine eb.ecomp ⟨?_, by simpa using hnx1, by simpa using bb.2.2⟩
        show exbr (bbAddBranch { s6 with
            cur := (none : Option Nat)
            contBB := none
            breakBB := none } condBB none condBB) = exbr s6
        rw [exbr_bbAddBranch _ _ _ _ hcond1]
        exact rfl

theorem E_switchStep (recur : TransSt → Work → TRes) (herec : ERecOK recur)
    (s : TransSt) (cb : Nat) (cs : List (Option Exp × List Stmt)) (hasDflt : Bool)
    (s' : TransSt)
    (h : switchStep recur s cb cs hasDflt = .ok s')
    (hlen : 2 ≤ s.blocks.length) (hcur : s.cur = some cb) (hcb : cb ≠ 1)
    (hlb : 1 ∈ kindLabels (.switchS cs hasDflt) → False) :
    EOut s s' := by
  unfold switchStep at h
  dsimp only at h
  set nx := (bbNew s).1 with hnx
  have hnx1 : ¬ (some nx = (some 1 : Option Nat)) := fresh_ne_one s hlen
  have e0 : EOut s { (bbNew { fnAddBB (bbNew s).2 cb with
      contBB := none
      breakBB := some nx }).2 with
        cur := some (bbNew { fnAddBB (bbNew s).2 cb with
          contBB := none
          breakBB := some nx }).1 } := by
    refine ⟨?_, fresh_ne_one _ (by simp <;> omega), by simp <;> omega⟩
    show exbr (bbNew { fnAddBB (bbNew s).2 cb with
        contBB := none
        breakBB := some nx }).2 = exbr s
    rw [exbr_bbNew _ (by simp <;> omega)]
    show exbr (fnAddBB (bbNew s).2 cb) = exbr s
    rw [exbr_fnAddBB, exbr_bbNew s hlen]
  cases h5 : recur { (bbNew { fnAddBB (bbNew s).2 cb with
      contBB := none
      breakBB := some nx }).2 with
        cur := some (bbNew { fnAddBB (bbNew s).2 cb with
          contBB := none
          breakBB := some nx }).1 } (.cases cb nx cs) with
  | failed => rw [h5] at h; cases h
  | fuelOut => rw [h5] at h; cases h
  | ok s5 =>
    rw [h5] at h
    dsimp only at h
    cases h
    have a := herec _ (.cases cb nx cs) s5 h5
      ⟨e0.2.2, e0.2.1, fun hm => hlb (by simpa [workLabels, kindLabels] using hm), hcb⟩
    have ea := e0.ecomp a
    refine ea.ecomp ⟨?_, by simpa using hnx1, ?_⟩
    · show exbr (if hasDflt = true then s5 else bbAddBranch s5 cb none nx) = exbr s5
      split
      · rfl
      · rw [exbr_bbAddBranch _ _ _ _ hcb]
    · have hq := a.2.2
      split <;> simp <;> omega

theorem E_oneStep (recur : TransSt → Work → TRes) (herec : ERecOK recur)
    (s0 : TransSt) (st : Stmt) (s' : TransSt)
    (h : oneStep recur s0 st = .ok s')
    (hpre : EPre (.one st) s0) : EOut s0 s' := by
  obtain ⟨lb, k⟩ := st
  obtain ⟨hlen, hc, hlb, -⟩ := hpre
  have hlbS : 1 ∈ stmtLabels (.mk lb k) → False := fun hm => hlb (by simpa [workLabels] using hm)
  have hlbK : 1 ∈ kindLabels k → False := fun hm => hlbS (by
    cases lb with
    | none => simpa [stmtLabels] using hm
    | some l => simp [stmtLabels]; exact Or.inr hm)
  have eL : EOut s0 (labelStep s0 lb) := E_labelStep s0 lb hlen hc
    (fun hm => hlbS (by
      cases lb with
      | none => simp [Option.toList] at hm
      | some l =>
        simp [Option.toList] at hm
        simp [stmtLabels]
        exact Or.inl hm))
  unfold oneStep at h
  dsimp only [Stmt.labelOf, Stmt.kindOf] at h
  cases hcL : (labelStep s0 lb).cur with
  | none => rw [hcL] at h; cases h
  | some cb =>
    rw [hcL] at h
    dsimp only at h
    have hcb : cb ≠ 1 := by
      intro he
      exact eL.2.1 (he ▸ hcL)
    cases k with
    | nullS =>
      cases h
      exact eL
    | caseS =>
      cases h
      exact eL
    | expS e =>
      cases h
      refine eL.ecomp ⟨exbr_expStep _ cb e, ?_, ?_⟩
      · rw [(expStep_fullInv [] [] _ cb e).2]
        exact eL.2.1
      · have := (expStep_fullInv [] [] (labelStep s0 lb) cb e).1.step.len
        have h2 := eL.2.2
        omega
    | assignS l r =>
      dsimp only at h
      cases hm : stmtTransAssign (labelStep s0 lb) cb (.mk none (.assignS l r)) l r with
      | none => rw [hm] at h; cases h
      | some s1 =>
        rw [hm] at h
        cases h
        refine eL.ecomp ⟨exbr_stmtTransAssign _ cb _ l r _ hm, ?_, ?_⟩
        · rw [(stmtTransAssign_fullInv [] [] _ cb l r _ hm).2]
          exact eL.2.1
        · have := (stmtTransAssign_fullInv [] [] (labelStep s0 lb) cb l r _ hm).1.step.len
          have h2 := eL.2.2
          omega
    | ifS cond ifBlk elifs elseBlk =>
      exact eL.ecomp (E_ifStep recur herec _ cb cond ifBlk elifs elseBlk s' h
        eL.2.2 hcb hlbK)
    | forLoop init body =>
      exact eL.ecomp (E_forLoopStep recur herec _ cb init body s' h
        eL.2.2 hcL hcb hlbK)
    | arrayLoop pos body =>
      cases h
      refine eL.ecomp ⟨rfl, ?_, by simpa using eL.2.2⟩
      intro he
      exact hcb (by injection he)
    | switchS cs hasDflt =>
      exact eL.ecomp (E_switchStep recur herec _ cb cs hasDflt s' h
        eL.2.2 hcL hcb hlbK)
    | retS arg =>
      cases h
      refine eL.ecomp ⟨?_, by simp [retStep], by simpa [retStep] using eL.2.2⟩
      show exbr (fnAddBB (bbAddBranch (bbAddStmt (labelStep s0 lb) cb
          (.mk none (.retS arg))) cb none (bbAddStmt (labelStep s0 lb) cb
          (.mk none (.retS arg))).exitBB) cb) = exbr (labelStep s0 lb)
      rw [exbr_fnAddBB, exbr_bbAddBranch _ _ _ _ hcb, exbr_bbAddStmt]
    | contS =>
      unfold contStep at h
      cases hct : (labelStep s0 lb).contBB with
      | none => rw [hct] at h; cases h
      | some ct =>
        rw [hct] at h
        cases h
        refine eL.ecomp ⟨?_, by simp, by simpa using eL.2.2⟩
        show exbr (fnAddBB (bbAddBranch (labelStep s0 lb) cb none ct) cb) =
          exbr (labelStep s0 lb)
        rw [exbr_fnAddBB, exbr_bbAddBranch _ _ _ _ hcb]
    | breakS cond =>
      simp only [breakStep, bbNew_snd_breakBB] at h
      cases hbt : (labelStep s0 lb).breakBB with
      | none => rw [hbt] at h; cases h
      | some bt =>
        rw [hbt] at h
        dsimp only at h
        cases cond with
        | none =>
          cases h
          have h2 := eL.2.2
          refine eL.ecomp ⟨?_, fresh_ne_one _ eL.2.2, by simp <;> omega⟩
          show exbr (fnAddBB (bbAddBranch (bbNew (labelStep s0 lb)).2 cb none bt) cb) =
            exbr (labelStep s0 lb)
          rw [exbr_fnAddBB, exbr_bbAddBranch _ _ _ _ hcb, exbr_bbNew _ eL.2.2]
        | some cexp =>
          cases h
          have h2 := eL.2.2
          refine eL.ecomp ⟨?_, fresh_ne_one _ eL.2.2, by simp <;> omega⟩
          show exbr (fnAddBB (bbAddBranch (bbAddBranch (bbNew (labelStep s0 lb)).2 cb
              (some cexp) bt) cb none (bbNew (labelStep s0 lb)).1) cb) =
            exbr (labelStep s0 lb)
          rw [exbr_fnAddBB, exbr_bbAddBranch _ _ _ _ hcb,
              exbr_bbAddBranch _ _ _ _ hcb, exbr_bbNew _ eL.2.2]
    | gotoS target =>
      cases h
      refine eL.ecomp ⟨?_, by simp [gotoStep], by simpa [gotoStep] using eL.2.2⟩
      show exbr (fnAddBB (bbAddBranch (labelStep s0 lb) cb none target) cb) =
        exbr (labelStep s0 lb)
      rw [exbr_fnAddBB, exbr_bbAddBranch _ _ _ _ hcb]
    | ddlS tag =>
      cases h
      exact eL.ecomp ⟨exbr_bbAddStmt _ cb _, by simpa [hcL] using eL.2.1,
        by simpa using eL.2.2⟩
    | blkS b =>
      refine eL.ecomp (herec _ (.many b) s' h ⟨eL.2.2, eL.2.1, ?_, trivial⟩)
      intro hm
      exact hlbK (by simpa [kindLabels, workLabels] using hm)

theorem E_transF : ∀ n, ERecOK (transF n) := by
  intro n
  induction n with
  | zero =>
    intro s w s' h
    cases h
  | succ m ih =>
    intro s w s' h hpre
    cases w with
    | one st =>
      rw [transF_one] at h
      exact E_oneStep (transF m) ih s st s' h hpre
    | many sts =>
      rw [transF_many] at h
      exact E_manyStep (transF m) ih sts s s' h hpre
    | elifs prev next es =>
      rw [transF_elifs] at h
      exact E_elifsStep (transF m) ih prev next es s s' h hpre.1 hpre.2.1
        (fun hm => hpre.2.2.1 (by simpa [workLabels] using hm)) hpre.2.2.2
    | cases prev next cs =>
      rw [transF_cases] at h
      exact E_casesStep (transF m) ih prev next cs s s' h hpre.1 hpre.2.1
        (fun hm => hpre.2.2.1 (by simpa [workLabels] using hm)) hpre.2.2.2

theorem closeTo_errors (s : TransSt) (t : Nat) : (closeTo s t).errors = s.errors := by
  unfold closeTo
  cases hcs : s.cur <;> simp

theorem closeTo_exitBB (s : TransSt) (t : Nat) : (closeTo s t).exitBB = s.exitBB := by
  unfold closeTo
  cases hcs : s.cur <;> simp

theorem mem_closeTo_bbs (s : TransSt) (t x : Nat) (h : x ∈ s.bbs) :
    x ∈ (closeTo s t).bbs := by
  unfold closeTo
  cases hcs : s.cur with
  | none => exact h
  | some cb => exact mem_fnAddBB _ _ _ h

theorem getBlock_initSt (n b : Nat) : getBlock (initSt n) b = emptyBB := by
  unfold getBlock initSt
  dsimp only
  rw [List.getD_eq_getElem?_getD, List.getElem?_replicate]
  split <;> rfl

/-- C3 amended: after a successful, error-free run of `trans` on a
resolver-checked body, the CFG is well-formed except that a block may
be unreachable from the entry block: every branch target of a committed
block is itself committed, the entry block and the exit block are
committed, the exit block has zero outgoing branches, and no committed
block contains a structured statement kind.  The original claim's
reachability conjunct fails (`trans_leaves_unreachable_block`). -/
theorem transFn_cfgOk (fuel nBlocks : Nat) (body : List Stmt) (s' : TransSt)
    (h : transFn fuel nBlocks body = .ok s')
    (hwf : wfBody nBlocks body = true)
    (hini : initsOkL body = true)
    (herr : s'.errors = []) :
    cfgOkNoReach s' = true := by
  unfold transFn at h
  cases hr : transF fuel (initSt nBlocks) (.many body) with
  | failed => rw [hr] at h; cases h
  | fuelOut => rw [hr] at h; cases h
  | ok s =>
    rw [hr] at h
    cases h
    simp only [wfBody, Bool.and_eq_true, List.all_eq_true, decide_eq_true_eq] at hwf
    obtain ⟨⟨hn2, hlab⟩, hgt⟩ := hwf
    have hn2' : 2 ≤ nBlocks := by simpa using hn2
    have hlab' : ∀ lb ∈ stmtsLabels body, 2 ≤ lb := by
      intro lb hm
      have := hlab lb hm
      omega
    obtain ⟨F, -⟩ := transF_fullInv fuel (initSt nBlocks) (.many body) s hr
      (by simpa [workInits] using hini) trivial
    have E := E_transF fuel (initSt nBlocks) (.many body) s hr
      ⟨by simp [initSt]; omega, by simp [initSt], fun hm => by
        have := hlab' 1 (by simpa [workLabels] using hm)
        omega, trivial⟩
    have hsE : s.exitBB = 1 := F.step.exit
    have hscur1 : s.cur ≠ some 1 := E.2.1
    set sC := closeTo s s.exitBB with hsC
    set sF := fnAddBB sC s.exitBB with hsF
    -- errors along the run
    have herrS : s.errors = [] := by
      have h1 : sF.errors = sC.errors := by rw [hsF]; simp
      have h2 : sC.errors = s.errors := by rw [hsC]; exact closeTo_errors s s.exitBB
      rw [← h2, ← h1]
      exact herr
    have herr0 : s.errors = (initSt nBlocks).errors := by
      rw [herrS]; rfl
    -- committed-or-current blocks of s are committed in sF
    have hcommit : ∀ x, (x ∈ s.bbs ∨ s.cur = some x) → x ∈ sF.bbs := by
      intro x hx
      rcases hx with hx | hx
      · exact mem_fnAddBB _ _ _ (mem_closeTo_bbs s _ x hx)
      · have hcc : sC.cur = some x := by rw [hsC, closeTo_cur]; exact hx
        have := closeTo_commits s s.exitBB x (by rw [← hsC]; exact hcc)
        exact mem_fnAddBB _ _ _ (by rw [hsC]; exact this)
    -- entry committed
    have h0 : 0 ∈ sF.bbs := by
      refine hcommit 0 ?_
      rcases F.step.persist 0 (Or.inr (by simp [initSt])) with hx | hx
      · exact .inl hx
      · exact .inr hx
    -- exit committed, and sF.exitBB = 1
    have hexitIn : s.exitBB ∈ sF.bbs := by
      rw [hsF]
      exact self_mem_fnAddBB _ _
    have hsFE : sF.exitBB = 1 := by
      rw [hsF, hsC]
      rw [fnAddBB_exitBB, closeTo_exitBB]
      exact hsE
    -- exit block has no branches
    have hexbr : exbr sF = [] := by
      have h1 : exbr sF = exbr sC := by rw [hsF]; exact exbr_fnAddBB _ _
      have h2 : exbr sC = exbr s := by rw [hsC]; exact exbr_closeTo s _ hscur1
      have h3 : exbr (initSt nBlocks) = [] := by
        unfold exbr
        rw [getBlock_initSt]
        rfl
      rw [h1, h2, E.1, h3]
    -- the labels of the body are committed in sF
    have hlabcom : ∀ lb, lb ∈ stmtsLabels body → lb ∈ sF.bbs := by
      intro lb hm
      exact hcommit lb (F.lab herr0 lb (by simpa [workLabels] using hm))
    -- full-run invariant from the initial state to sF
    have C := closeTo_fullInv (stmtsGotos body) [] s s.exitBB
      (Or.inr (Or.inr (Or.inl rfl)))
    have D := fullInv_fnAddBB (stmtsGotos body) [] sC s.exitBB
    have total : FullInv (stmtsGotos body) [] (stmtsLabels body ++ ([] ++ []))
        (initSt nBlocks) sF := by
      refine F.mono (fun x hx => by simpa [workGotos] using hx) (fun x hx => hx)
        (fun x hx => by simpa [workLabels] using hx) |>.comp (C.comp D)
    -- branch targets of committed blocks are committed
    have htgt : ∀ b br, br ∈ (getBlock sF b).branches → br.target ∈ sF.bbs := by
      intro b br hbr
      rcases total.tgt b br hbr with hx | hx | hx | hx | hx | hx | hx | hx
      · rw [getBlock_initSt] at hx
        cases hx
      · exact hx
      · have hcc : sC.cur = some br.target := by
          have : sF.cur = sC.cur := by rw [hsF]; simp
          rw [← this]; exact hx
        have := closeTo_commits s s.exitBB br.target (by rw [← hsC]; exact hcc)
        exact mem_fnAddBB _ _ _ (by rw [hsC]; exact this)
      · have : br.target = 1 := by simpa [initSt] using hx
        rw [this, ← hsE]
        exact hexitIn
      · exact hlabcom br.target (by
          have := hgt br.target hx
          simpa using this)
      · simp [initSt] at hx
      · simp [initSt] at hx
      · simp at hx
    -- statements of every block are unstructured
    have hstm : ∀ b x, x ∈ (getBlock sF b).stmts → structuredKind x.kindOf = false := by
      intro b x hx
      rcases total.stm b x hx with hx | hx | hx
      · rw [getBlock_initSt] at hx
        cases hx
      · rw [getBlock_initSt] at hx
        cases hx
      · exact hx
    -- assemble the checker
    simp only [cfgOkNoReach, Bool.and_eq_true, List.all_eq_true]
    refine ⟨⟨⟨?_, ?_⟩, ?_⟩, ?_⟩
    · simpa using h0
    · rw [hsFE]
      simpa using (hsE ▸ hexitIn)
    · rw [hsFE]
      have : (getBlock sF 1).branches = [] := hexbr
      simp [this]
    · intro b hb
      refine ⟨?_, ?_⟩
      · intro br hbr
        simpa using htgt b br hbr
      · intro st hst
        simp [hstm b st hst]

/-- C3 counterexample: lowering `for (;;) { break; }` succeeds with no
errors on a resolver-checked body, yet the committed loop-condition
block (id 4) is unreachable from the entry block: the only edges are
0 to 2, 2 to 3, 3 to 1 and the back-edge 4 to 2. -/
theorem trans_leaves_unreachable_block :
    (transFn 20 2 body0).isOk = true ∧
    (transFn 20 2 body0).resSt.errors = [] ∧
    wfBody 2 body0 = true ∧
    initsOkL body0 = true ∧
    cfgOkNoReach (transFn 20 2 body0).resSt = true ∧
    4 ∈ (transFn 20 2 body0).resSt.bbs ∧
    ¬ Reaches (transFn 20 2 body0).resSt 0 4 := by
  refine ⟨rfl, rfl, rfl, rfl, rfl, ?_, ?_⟩
  · rw [show (transFn 20 2 body0).resSt.bbs = [0, 2, 4, 3, 1] from rfl]
    simp
  intro hr
  have key : ∀ b, Reaches (transFn 20 2 body0).resSt 0 b →
      (b = 0 ∨ b = 2 ∨ b = 3 ∨ b = 1) := by
    intro b h
    induction h with
    | refl => exact Or.inl rfl
    | step br hprev hmem htgt ih =>
      rcases ih with rfl | rfl | rfl | rfl
      · rw [show (getBlock (transFn 20 2 body0).resSt 0).branches =
          [⟨none, 2⟩] from rfl] at hmem
        rw [List.mem_singleton] at hmem
        subst hmem
        subst htgt
        exact Or.inr (Or.inl rfl)
      · rw [show (getBlock (transFn 20 2 body0).resSt 2).branches =
          [⟨none, 3⟩] from rfl] at hmem
        rw [List.mem_singleton] at hmem
        subst hmem
        subst htgt
        exact Or.inr (Or.inr (Or.inl rfl))
      · rw [show (getBlock (transFn 20 2 body0).resSt 3).branches =
          [⟨none, 1⟩] from rfl] at hmem
        rw [List.mem_singleton] at hmem
        subst hmem
        subst htgt
        exact Or.inr (Or.inr (Or.inr rfl))
      · rw [show (getBlock (transFn 20 2 body0).resSt 1).branches =
          [] from rfl] at hmem
        cases hmem
  have h4 := key 4 hr
  simp at h4

theorem FOut.fcomp {N : Nat} {s s2 s3 : TransSt} (a : FOut N s s2) (b : FOut N s2 s3) :
    FOut N s s3 :=
  ⟨fun x hx => (b.1 x hx).trans (a.1 x hx), b.2.1, b.2.2⟩

theorem FOut.frefl {N : Nat} (s : TransSt) (hc : ∀ c, s.cur = some c → N ≤ c)
    (hl : N ≤ s.blocks.length) : FOut N s s := ⟨fun _ _ => rfl, hc, hl⟩

theorem F_bbAddStmt {N : Nat} (s : TransSt) (cb : Nat) (st : Stmt)
    (hcb : N ≤ cb) (hc : ∀ c, s.cur = some c → N ≤ c) (hl : N ≤ s.blocks.length) :
    FOut N s (bbAddStmt s cb st) := by
  refine ⟨?_, by simpa using hc, by simpa using hl⟩
  intro b hb
  exact getBlock_bbAddStmt_ne s cb b st (by omega)

theorem F_bbAddBranch {N : Nat} (s : TransSt) (cb : Nat) (g : Option Exp) (t : Nat)
    (hcb : N ≤ cb) (hc : ∀ c, s.cur = some c → N ≤ c) (hl : N ≤ s.blocks.length) :
    FOut N s (bbAddBranch s cb g t) := by
  refine ⟨?_, by simpa using hc, by simpa using hl⟩
  intro b hb
  exact getBlock_bbAddBranch_ne s cb b g t (by omega)

theorem F_fnAddBB {N : Nat} (s : TransSt) (x : Nat)
    (hc : ∀ c, s.cur = some c → N ≤ c) (hl : N ≤ s.blocks.length) :
    FOut N s (fnAddBB s x) := by
  refine ⟨?_, by simpa using hc, by simpa using hl⟩
  intro b hb
  rw [getBlock_fnAddBB]

theorem F_bbNew {N : Nat} (s : TransSt)
    (hc : ∀ c, s.cur = some c → N ≤ c) (hl : N ≤ s.blocks.length) :
    FOut N s (bbNew s).2 := by
  refine ⟨?_, by simpa using hc, by simp; omega⟩
  intro b hb
  exact getBlock_bbNew_lt s b (by omega)

theorem F_closeTo {N : Nat} (s : TransSt) (t : Nat)
    (hc : ∀ c, s.cur = some c → N ≤ c) (hl : N ≤ s.blocks.length) :
    FOut N s (closeTo s t) := by
  unfold closeTo
  cases hcs : s.cur with
  | none => exact FOut.frefl s hc hl
  | some cb =>
    have hcb : N ≤ cb := hc cb hcs
    exact (F_bbAddBranch s cb none t hcb hc hl).fcomp
      (F_fnAddBB _ cb (by simpa [hcs] using hc) (by simpa using hl))

theorem F_expStep {N : Nat} (s : TransSt) (cb : Nat) (e : Exp)
    (hcb : N ≤ cb) (hc : ∀ c, s.cur = some c → N ≤ c) (hl : N ≤ s.blocks.length) :
    FOut N s (expStep s cb e) := by
  unfold expStep
  dsimp only
  split
  · exact F_bbAddStmt _ cb _ hcb (by simpa using hc) (by simpa using hl)
  · split
    · exact FOut.frefl _ (by simpa using hc) (by simpa using hl)
    · refine ⟨?_, by simpa using hc, by simpa [updAt_length] using hl⟩
      intro b hb
      unfold getBlock
      dsimp only
      rw [updAt_getD_ne _ _ _ _ _ (show cb ≠ b by omega)]

theorem F_assignEach {N : Nat} (cb : Nat) (hcb : N ≤ cb) :
    ∀ (vars vals : List Exp) (s s' : TransSt), assignEach cb s vars vals = some s' →
    (∀ b, b < N → getBlock s' b = getBlock s b) := by
  intro vars
  induction vars with
  | nil =>
    intro vals s s' h
    cases vals with
    | nil => cases h; exact fun _ _ => rfl
    | cons v vs => simp [assignEach] at h
  | cons var vars ih =>
    intro vals s s' h
    cases vals with
    | nil => simp [assignEach] at h
    | cons val vals =>
      unfold assignEach at h
      split at h
      · intro b hb
        rw [ih vals _ s' h b hb]
        exact getBlock_bbAddStmt_ne s cb b _ (by omega)
      · cases h

theorem F_assignElems {N : Nat} (cb : Nat) (hcb : N ≤ cb) (varExps elems : List Exp) :
    ∀ (cnt : Nat) (s : TransSt) (vi j : Nat) (s' : TransSt) (vi' : Nat),
      assignElems cb varExps elems s vi j cnt = some (s', vi') →
      (∀ b, b < N → getBlock s' b = getBlock s b) := by
  intro cnt
  induction cnt with
  | zero =>
    intro s vi j s' vi' h
    cases h; exact fun _ _ => rfl
  | succ n ih =>
    intro s vi j s' vi' h
    unfold assignElems at h
    cases hv : varExps[vi]? with
    | none => rw [hv] at h; simp at h
    | some var =>
      cases he : elems[j]? with
      | none => rw [hv, he] at h; simp at h
      | some elem =>
        rw [hv, he] at h
        dsimp only at h
        split at h
        · intro b hb
          rw [ih _ _ _ _ _ h b hb]
          exact getBlock_bbAddStmt_ne s cb b _ (by omega)
        · cases h

theorem F_assignFlat {N : Nat} (cb : Nat) (hcb : N ≤ cb) (varExps : List Exp) :
    ∀ (vals : List Exp) (s : TransSt) (vi : Nat) (s' : TransSt),
      assignFlat cb varExps s vi vals = some s' →
      (∀ b, b < N → getBlock s' b = getBlock s b) := by
  intro vals
  induction vals with
  | nil =>
    intro s vi s' h
    cases h; exact fun _ _ => rfl
  | cons val vals ih =>
    intro s vi s' h
    unfold assignFlat at h
    split at h
    · split at h
      · split at h
        · rename_i htup s1 vi1 heq
          intro b hb
          rw [ih _ _ _ h b hb, F_assignElems cb hcb varExps _ _ _ _ _ _ _ heq b hb]
        · cases h
      · cases h
    · split at h
      · split at h
        · split at h
          · intro b hb
            rw [ih _ _ _ h b hb]
            exact getBlock_bbAddStmt_ne s cb b _ (by omega)
          · cases h
        · cases h
      · cases h

theorem F_stmtTransAssign {N : Nat} (s : TransSt) (cb : Nat) (orig : Stmt) (l r : Exp)
    (s' : TransSt) (hcb : N ≤ cb) (h : stmtTransAssign s cb orig l r = some s') :
    (∀ b, b < N → getBlock s' b = getBlock s b) := by
  unfold stmtTransAssign at h
  split at h
  · split at h
    · split at h
      · exact F_assignEach cb hcb _ _ s s' h
      · split at h
        · exact F_assignFlat cb hcb _ _ s 0 s' h
        · cases h
    · cases h
  · cases h
    intro b hb
    exact getBlock_bbAddStmt_ne s cb b _ (by omega)

theorem F_labelStep_none {N : Nat} (s : TransSt)
    (hc : ∀ c, s.cur = some c → N ≤ c) (hl : N ≤ s.blocks.length) :
    FOut N s (labelStep s none) := by
  unfold labelStep
  cases hcs : s.cur with
  | some cb => exact FOut.frefl s (by simpa [hcs] using hc) hl
  | none =>
    refine ⟨?_, ?_, by simp; omega⟩
    · intro b hb
      exact getBlock_bbNew_lt s b (by omega)
    · intro c hcc
      have : s.blocks.length = c := by simpa using hcc
      omega

theorem F_manyStep (recur : TransSt → Work → TRes) (hfrec : FRecOK recur)
    (N : Nat) (sts : List Stmt) : ∀ (s s' : TransSt),
    manyStep recur s sts = .ok s' → FPre N (.many sts) s → FOut N s s' := by
  cases sts with
  | nil =>
    intro s s' h hpre
    cases h
    exact FOut.frefl s hpre.2.1 hpre.1
  | cons st rest =>
    intro s s' h hpre
    have hnl : stmtLabels st = [] ∧ stmtsLabels rest = [] := by
      have := hpre.2.2.1
      simp only [workLabels, stmtsLabels] at this
      simpa using this
    unfold manyStep at h
    dsimp only at h
    cases h1 : recur s (.one st) with
    | failed => rw [h1] at h; cases h
    | fuelOut => rw [h1] at h; cases h
    | ok s1 =>
      rw [h1] at h
      have a := hfrec N s (.one st) s1 h1
        ⟨hpre.1, hpre.2.1, by simpa [workLabels] using hnl.1, trivial⟩
      have b := hfrec N s1 (.many rest) s' h
        ⟨a.2.2, a.2.1, by simpa [workLabels] using hnl.2, trivial⟩
      exact a.fcomp b

theorem F_elifsStep (recur : TransSt → Work → TRes) (hfrec : FRecOK recur)
    (N : Nat) (prev next : Nat) (es : List (Exp × List Stmt)) :
    ∀ (s s' : TransSt), elifsStep recur s prev next es = .ok s' →
    N ≤ s.blocks.length → (∀ c, s.cur = some c → N ≤ c) → elifsLabels es = [] →
    N ≤ prev → FOut N s s' := by
  cases es with
  | nil =>
    intro s s' h hl hc _ _
    cases h
    exact FOut.frefl s hc hl
  | cons e rest =>
    obtain ⟨cond, blk⟩ := e
    intro s s' h hl hc hnl hprev
    have hnl2 : stmtsLabels blk = [] ∧ elifsLabels rest = [] := by
      simp only [elifsLabels] at hnl
      simpa using hnl
    unfold elifsStep at h
    dsimp only at h
    cases h1 : recur (bbAddBranch { (bbNew s).2 with cur := some (bbNew s).1 } prev
        (some cond) (bbNew s).1) (.many blk) with
    | failed => rw [h1] at h; cases h
    | fuelOut => rw [h1] at h; cases h
    | ok s4 =>
      rw [h1] at h
      dsimp only at h
      have e0 : FOut N s (bbAddBranch { (bbNew s).2 with cur := some (bbNew s).1 } prev
          (some cond) (bbNew s).1) := by
        have eb := F_bbNew s hc hl
        have hcur1 : ∀ c, ({ (bbNew s).2 with cur := some (bbNew s).1 } : TransSt).cur =
            some c → N ≤ c := by
          intro c hcc
          have : s.blocks.length = c := by simpa using hcc
          omega
        have em : FOut N (bbNew s).2 { (bbNew s).2 with cur := some (bbNew s).1 } :=
          ⟨fun b hb => rfl, hcur1, by simp; omega⟩
        exact eb.fcomp (em.fcomp
          (F_bbAddBranch _ prev (some cond) (bbNew s).1 hprev hcur1 (by simp; omega)))
      have a := hfrec N _ (.many blk) s4 h1
        ⟨e0.2.2, e0.2.1, by simpa [workLabels] using hnl2.1, trivial⟩
      have ec : FOut N s4 (closeTo s4 next) := F_closeTo s4 next a.2.1 a.2.2
      have b := hfrec N _ (.elifs prev next rest) s' h
        ⟨ec.2.2, ec.2.1, by simpa [workLabels] using hnl2.2, hprev⟩
      exact ((e0.fcomp a).fcomp ec).fcomp b

theorem F_casesStep (recur : TransSt → Work → TRes) (hfrec : FRecOK recur)
    (N : Nat) (prev next : Nat) (cs : List (Option Exp × List Stmt)) :
    ∀ (s s' : TransSt), casesStep recur s prev next cs = .ok s' →
    N ≤ s.blocks.length → (∀ c, s.cur = some c → N ≤ c) → casesLabels cs = [] →
    N ≤ prev → FOut N s s' := by
  cases cs with
  | nil =>
    intro s s' h hl hc _ _
    cases h
    exact FOut.frefl s hc hl
  | cons c rest =>
    obtain ⟨val, body⟩ := c
    intro s s' h hl hc hnl hprev
    have hnl2 : stmtsLabels body = [] ∧ casesLabels rest = [] := by
      simp only [casesLabels] at hnl
      simpa using hnl
    unfold casesStep at h
    dsimp only at h
    cases hcs : s.cur with
    | none => rw [hcs] at h; cases h
    | some cb =>
      rw [hcs] at h
      dsimp only at h
      have hcb : N ≤ cb := hc cb hcs
      have e0 : FOut N s (bbAddBranch s prev val cb) :=
        F_bbAddBranch s prev val cb hprev hc hl
      cases h1 : recur (bbAddBranch s prev val cb) (.many body) with
      | failed => rw [h1] at h; cases h
      | fuelOut => rw [h1] at h; cases h
      | ok s2 =>
        rw [h1] at h
        dsimp only at h
        have a := hfrec N _ (.many body) s2 h1
          ⟨e0.2.2, e0.2.1, by simpa [workLabels] using hnl2.1, trivial⟩
        have ea := e0.fcomp a
        cases hc2 : s2.cur with
        | some cb2 =>
          rw [hc2] at h
          dsimp only at h
          have hcb2 : N ≤ cb2 := a.2.1 cb2 hc2
          cases rest with
          | nil =>
            have e3 : FOut N s2 (fnAddBB (bbAddBranch s2 cb2 none next) cb2) :=
              (F_bbAddBranch s2 cb2 none next hcb2 a.2.1 a.2.2).fcomp
                (F_fnAddBB _ cb2 (by simpa using a.2.1) (by simpa using a.2.2))
            dsimp only at h
            have b := hfrec N _ (.cases prev next []) s' h
              ⟨e3.2.2, e3.2.1, by simp [workLabels, casesLabels], hprev⟩
            exact (ea.fcomp e3).fcomp b
          | cons c2 r2 =>
            have eb := F_bbNew s2 a.2.1 a.2.2
            have hcurb : ∀ c, ((bbNew s2).2 : TransSt).cur = some c → N ≤ c := by
              simpa using a.2.1
            have e3 : FOut N s2 { fnAddBB (bbAddBranch (bbNew s2).2 cb2 none
                (bbNew s2).1) cb2 with cur := some (bbNew s2).1 } := by
              have hs2l := a.2.2
              have e4 := (F_bbAddBranch (bbNew s2).2 cb2 none (bbNew s2).1 hcb2 hcurb
                (by simp; omega)).fcomp
                (F_fnAddBB _ cb2 (by simpa using hcurb) (by simp; omega))
              refine (eb.fcomp e4).fcomp ⟨fun b hb => rfl, ?_, ?_⟩
              · intro c hcc
                have hs2l := a.2.2
                have : s2.blocks.length = c := by simpa using hcc
                omega
              · simp
                have := a.2.2
                omega
            have b := hfrec N _ (.cases prev next (c2 :: r2)) s' h
              ⟨e3.2.2, e3.2.1, by simpa [workLabels] using hnl2.2, hprev⟩
            exact (ea.fcomp e3).fcomp b
        | none =>
          rw [hc2] at h
          dsimp only at h
          cases rest with
          | nil =>
            have b := hfrec N _ (.cases prev next []) s' h
              ⟨a.2.2, a.2.1, by simp [workLabels, casesLabels], hprev⟩
            exact ea.fcomp b
          | cons c2 r2 =>
            have eb := F_bbNew s2 a.2.1 a.2.2
            have e3 : FOut N s2 { (bbNew s2).2 with cur := some (bbNew s2).1 } := by
              refine eb.fcomp ⟨fun b hb => rfl, ?_, by simp; have := a.2.2; omega⟩
              intro c hcc
              have := a.2.2
              have h2 : s2.blocks.length = c := by simpa using hcc
              omega
            have b := hfrec N _ (.cases prev next (c2 :: r2)) s' h
              ⟨e3.2.2, e3.2.1, by simpa [workLabels] using hnl2.2, hprev⟩
            exact (ea.fcomp e3).fcomp b

theorem F_ifStep (recur : TransSt → Work → TRes) (hfrec : FRecOK recur)
    (N : Nat) (s : TransSt) (cb : Nat) (cond : Exp) (ifBlk : List Stmt)
    (elifs : List (Exp × List Stmt)) (elseBlk : Option (List Stmt)) (s' : TransSt)
    (h : ifStep recur s cb cond ifBlk elifs elseBlk = .ok s')
    (hl : N ≤ s.blocks.length) (hcb : N ≤ cb)
    (hc : ∀ c, s.cur = some c → N ≤ c)
    (hnl : kindLabels (.ifS cond ifBlk elifs elseBlk) = []) :
    FOut N s s' := by
  unfold ifStep at h
  dsimp only at h
  have hnl3 : stmtsLabels ifBlk = [] ∧ elifsLabels elifs = [] ∧
      optBlkLabels elseBlk = [] := by
    simp only [kindLabels] at hnl
    simpa using hnl
  have e0 : FOut N s (bbAddBranch
      { (bbNew (fnAddBB (bbNew s).2 cb)).2 with
          cur := some (bbNew (fnAddBB (bbNew s).2 cb)).1 } cb (some cond)
      (bbNew (fnAddBB (bbNew s).2 cb)).1) := by
    have e1 := (F_bbNew s hc hl).fcomp
      (F_fnAddBB _ cb (by simpa using hc) (by simp; omega))
    have hcur1 : ∀ c, ({ (bbNew (fnAddBB (bbNew s).2 cb)).2 with
        cur := some (bbNew (fnAddBB (bbNew s).2 cb)).1 } : TransSt).cur = some c →
        N ≤ c := by
      intro c hcc
      have : (fnAddBB (bbNew s).2 cb).blocks.length = c := by simpa using hcc
      simp at this
      omega
    have emr : FOut N (bbNew (fnAddBB (bbNew s).2 cb)).2
        { (bbNew (fnAddBB (bbNew s).2 cb)).2 with
            cur := some (bbNew (fnAddBB (bbNew s).2 cb)).1 } :=
      ⟨fun b hb => rfl, hcur1, by simp; omega⟩
    have e2 := (F_bbNew (fnAddBB (bbNew s).2 cb) (by simpa using hc)
      (by simp; omega)).fcomp emr
    exact (e1.fcomp e2).fcomp
      (F_bbAddBranch _ cb (some cond) _ hcb hcur1 (by simp; omega))
  cases h1 : recur (bbAddBranch
      { (bbNew (fnAddBB (bbNew s).2 cb)).2 with
          cur := some (bbNew (fnAddBB (bbNew s).2 cb)).1 } cb (some cond)
      (bbNew (fnAddBB (bbNew s).2 cb)).1) (.many ifBlk) with
  | failed => rw [h1] at h; cases h
  | fuelOut => rw [h1] at h; cases h
  | ok s5 =>
    rw [h1] at h
    dsimp only at h
    have a := hfrec N _ (.many ifBlk) s5 h1
      ⟨e0.2.2, e0.2.1, by simpa [workLabels] using hnl3.1, trivial⟩
    have ecl : FOut N s5 (closeTo s5 (bbNew s).1) := F_closeTo s5 _ a.2.1 a.2.2
    cases h2 : recur (closeTo s5 (bbNew s).1) (.elifs cb (bbNew s).1 elifs) with
    | failed => rw [h2] at h; cases h
    | fuelOut => rw [h2] at h; cases h
    | ok s7 =>
      rw [h2] at h
      dsimp only at h
      have b := hfrec N _ (.elifs cb (bbNew s).1 elifs) s7 h2
        ⟨ecl.2.2, ecl.2.1, by simpa [workLabels] using hnl3.2.1, hcb⟩
      have eab := ((e0.fcomp a).fcomp ecl).fcomp b
      cases elseBlk with
      | none =>
        cases h
        refine eab.fcomp ((F_bbAddBranch s7 cb none (bbNew s).1 hcb b.2.1 b.2.2).fcomp
          ⟨fun x hx => rfl, ?_, by simpa using b.2.2⟩)
        intro c hcc
        have : s.blocks.length = c := by simpa using hcc
        omega
      | some eb =>
        dsimp only at h
        have hcurb : ∀ c, ({ (bbNew s7).2 with cur := some (bbNew s7).1 } : TransSt).cur =
            some c → N ≤ c := by
          intro c hcc
          have h2l := b.2.2
          have : s7.blocks.length = c := by simpa using hcc
          omega
        have emr2 : FOut N (bbNew s7).2
            { (bbNew s7).2 with cur := some (bbNew s7).1 } :=
          ⟨fun x hx => rfl, hcurb, by simp; have := b.2.2; omega⟩
        have e4 : FOut N s7 (bbAddBranch { (bbNew s7).2 with cur := some (bbNew s7).1 }
            cb none (bbNew s7).1) := by
          refine ((F_bbNew s7 b.2.1 b.2.2).fcomp emr2).fcomp
            (F_bbAddBranch _ cb none _ hcb hcurb (by simp; have := b.2.2; omega))
        cases h3 : recur (bbAddBranch { (bbNew s7).2 with cur := some (bbNew s7).1 }
            cb none (bbNew s7).1) (.many eb) with
        | failed => rw [h3] at h; cases h
        | fuelOut => rw [h3] at h; cases h
        | ok s10 =>
          rw [h3] at h
          cases h
          have c := hfrec N _ (.many eb) s10 h3
            ⟨e4.2.2, e4.2.1,
             by simpa [workLabels, optBlkLabels] using hnl3.2.2, trivial⟩
          have ecl2 : FOut N s10 (closeTo s10 (bbNew s).1) := F_closeTo s10 _ c.2.1 c.2.2
          refine (((eab.fcomp e4).fcomp c).fcomp ecl2).fcomp
            ⟨fun x hx => rfl, ?_, by simpa using ecl2.2.2⟩
          intro cc hcc
          have : s.blocks.length = cc := by simpa using hcc
          omega

theorem F_forLoopStep (recur : TransSt → Work → TRes) (hfrec : FRecOK recur)
    (N : Nat) (s : TransSt) (cb : Nat) (init : Option Stmt) (body : List Stmt)
    (s' : TransSt)
    (h : forLoopStep recur s cb init body = .ok s')
    (hl : N ≤ s.blocks.length) (hcb : N ≤ cb)
    (hc : ∀ c, s.cur = some c → N ≤ c)
    (hnl : kindLabels (.forLoop init body) = []) :
    FOut N s s' := by
  unfold forLoopStep at h
  dsimp only at h
  have hnl2 : optStmtLabels init = [] ∧ stmtsLabels body = [] := by
    simp only [kindLabels] at hnl
    simpa using hnl
  have e0 : FOut N s (bbNew (bbNew s).2).2 :=
    (F_bbNew s hc hl).fcomp (F_bbNew _ (by simpa using hc) (by simp; omega))
  cases hi3 : (match init with
      | some i => recur (bbNew (bbNew s).2).2 (.one i)
      | none => .ok (bbNew (bbNew s).2).2) with
  | failed => rw [hi3] at h; cases h
  | fuelOut => rw [hi3] at h; cases h
  | ok s3 =>
    rw [hi3] at h
    dsimp only at h
    have a : FOut N s s3 := by
      cases hi : init with
      | none =>
        rw [hi] at hi3
        cases hi3
        exact e0
      | some i =>
        rw [hi] at hi3
        refine e0.fcomp (hfrec N _ (.one i) s3 hi3
          ⟨e0.2.2, e0.2.1, ?_, trivial⟩)
        have := hnl2.1
        rw [hi] at this
        simpa [workLabels, optStmtLabels] using this
    have e1 : FOut N s3 { fnAddBB (bbAddBranch s3 cb none (bbNew s).1) cb with
        cur := some (bbNew s).1
        contBB := some (bbNew s).1
        breakBB := some (bbNew (bbNew s).2).1 } := by
      refine ((F_bbAddBranch s3 cb none (bbNew s).1 hcb a.2.1 a.2.2).fcomp
        (F_fnAddBB _ cb (by simpa using a.2.1) (by simpa using a.2.2))).fcomp
        ⟨fun x hx => rfl, ?_, by simpa using a.2.2⟩
      intro c hcc
      have : s.blocks.length = c := by simpa using hcc
      omega
    cases h6 : recur { fnAddBB (bbAddBranch s3 cb none (bbNew s).1) cb with
        cur := some (bbNew s).1
        contBB := some (bbNew s).1
        breakBB := some (bbNew (bbNew s).2).1 } (.many body) with
    | failed => rw [h6] at h; cases h
    | fuelOut => rw [h6] at h; cases h
    | ok s6 =>
      rw [h6] at h
      dsimp only at h
      have bb := hfrec N _ (.many body) s6 h6
        ⟨e1.2.2, e1.2.1, by simpa [workLabels] using hnl2.2, trivial⟩
      have eb := (a.fcomp e1).fcomp bb
      cases hc7 : ({ s6 with contBB := none, breakBB := none } : TransSt).cur with
      | some cb2 =>
        rw [hc7] at h
        cases h
        have hcb2 : N ≤ cb2 := bb.2.1 cb2 hc7
        refine eb.fcomp ⟨?_, ?_, by simpa using bb.2.2⟩
        · intro x hx
          have h1 : getBlock (bbAddBranch { s6 with
              cur := some cb2
              contBB := none
              breakBB := none } cb2 none (bbNew s).1) x = getBlock { s6 with
              cur := some cb2
              contBB := none
              breakBB := none } x :=
            getBlock_bbAddBranch_ne _ cb2 x none _ (by omega)
          show getBlock (fnAddBB _ cb2) x = getBlock s6 x
          rw [getBlock_fnAddBB, h1]
          exact rfl
        · intro c hcc
          have h2 : s.blocks.length + 1 = c := by simpa using hcc
          omega
      | none =>
        rw [hc7] at h
        cases h
        have hcond : N ≤ (bbNew s).1 := by simp; omega
        refine eb.fcomp ⟨?_, ?_, by simpa using bb.2.2⟩
        · intro x hx
          have h1 : getBlock (bbAddBranch { s6 with
              cur := (none : Option Nat)
              contBB := none
              breakBB := none } (bbNew s).1 none (bbNew s).1) x = getBlock { s6 with
              cur := (none : Option Nat)
              contBB := none
              breakBB := none } x :=
            getBlock_bbAddBranch_ne _ _ x none _ (by simp; omega)
          show getBlock (bbAddBranch _ (bbNew s).1 none (bbNew s).1) x = getBlock s6 x
          rw [h1]
          exact rfl
        · intro c hcc
          have h2 : s.blocks.length + 1 = c := by simpa using hcc
          omega

theorem F_switchStep (recur : TransSt → Work → TRes) (hfrec : FRecOK recur)
    (N : Nat) (s : TransSt) (cb : Nat) (cs : List (Option Exp × List Stmt))
    (hasDflt : Bool) (s' : TransSt)
    (h : switchStep recur s cb cs hasDflt = .ok s')
    (hl : N ≤ s.blocks.length) (hcb : N ≤ cb)
    (hc : ∀ c, s.cur = some c → N ≤ c)
    (hnl : kindLabels (.switchS cs hasDflt) = []) :
    FOut N s s' := by
  unfold switchStep at h
  dsimp only at h
  have e0 : FOut N s { (bbNew { fnAddBB (bbNew s).2 cb with
      contBB := none
      breakBB := some (bbNew s).1 }).2 with
        cur := some (bbNew { fnAddBB (bbNew s).2 cb with
          contBB := none
          breakBB := some (bbNew s).1 }).1 } := by
    have e1 := (F_bbNew s hc hl).fcomp
      (F_fnAddBB _ cb (by simpa using hc) (by simp; omega))
    have e2 : FOut N (fnAddBB (bbNew s).2 cb) { fnAddBB (bbNew s).2 cb with
        contBB := none
        breakBB := some (bbNew s).1 } :=
      ⟨fun x hx => rfl, by simpa using hc, by simp; omega⟩
    have e3 := F_bbNew { fnAddBB (bbNew s).2 cb with
        contBB := none
        breakBB := some (bbNew s).1 } (by simpa using hc) (by simp; omega)
    refine ((e1.fcomp e2).fcomp e3).fcomp ⟨fun x hx => rfl, ?_, by simp; omega⟩
    intro c hcc
    have : (bbNew s).2.blocks.length = c := by simpa using hcc
    simp at this
    omega
  cases h5 : recur { (bbNew { fnAddBB (bbNew s).2 cb with
      contBB := none
      breakBB := some (bbNew s).1 }).2 with
        cur := some (bbNew { fnAddBB (bbNew s).2 cb with
          contBB := none
          breakBB := some (bbNew s).1 }).1 } (.cases cb (bbNew s).1 cs) with
  | failed => rw [h5] at h; cases h
  | fuelOut => rw [h5] at h; cases h
  | ok s5 =>
    rw [h5] at h
    dsimp only at h
    cases h
    have a := hfrec N _ (.cases cb (bbNew s).1 cs) s5 h5
      ⟨e0.2.2, e0.2.1, by simpa [workLabels, kindLabels] using hnl, hcb⟩
    have ea := e0.fcomp a
    refine ea.fcomp ⟨?_, ?_, ?_⟩
    · intro x hx
      show getBlock { (if hasDflt = true then s5 else bbAddBranch s5 cb none (bbNew s).1)
          with breakBB := none, cur := some (bbNew s).1 } x = getBlock s5 x
      have : getBlock (if hasDflt = true then s5 else bbAddBranch s5 cb none (bbNew s).1)
          x = getBlock s5 x := by
        split
        · rfl
        · exact getBlock_bbAddBranch_ne s5 cb x none _ (by omega)
      rw [← this]
      exact rfl
    · intro c hcc
      have : (bbNew s).1 = c := by simpa using hcc
      simp at this
      omega
    · have hq := a.2.2
      split <;> simp <;> omega

theorem F_oneStep (recur : TransSt → Work → TRes) (hfrec : FRecOK recur)
    (N : Nat) (s0 : TransSt) (st : Stmt) (s' : TransSt)
    (h : oneStep recur s0 st = .ok s')
    (hpre : FPre N (.one st) s0) : FOut N s0 s' := by
  obtain ⟨lb, k⟩ := st
  obtain ⟨hl, hc, hnl, -⟩ := hpre
  have hnl2 : lb = none ∧ kindLabels k = [] := by
    simp only [workLabels, stmtLabels] at hnl
    cases lb with
    | none => simpa using hnl
    | some l => simp at hnl
  obtain ⟨rfl, hnlk⟩ := hnl2
  have eL : FOut N s0 (labelStep s0 none) := F_labelStep_none s0 hc hl
  unfold oneStep at h
  dsimp only [Stmt.labelOf, Stmt.kindOf] at h
  cases hcL : (labelStep s0 none).cur with
  | none => rw [hcL] at h; cases h
  | some cb =>
    rw [hcL] at h
    dsimp only at h
    have hcb : N ≤ cb := eL.2.1 cb hcL
    cases k with
    | nullS =>
      cases h
      exact eL
    | caseS =>
      cases h
      exact eL
    | expS e =>
      cases h
      exact eL.fcomp (F_expStep _ cb e hcb (by simpa [hcL] using eL.2.1) eL.2.2)
    | assignS l r =>
      dsimp only at h
      cases hm : stmtTransAssign (labelStep s0 none) cb (.mk none (.assignS l r)) l r with
      | none => rw [hm] at h; cases h
      | some s1 =>
        rw [hm] at h
        cases h
        refine eL.fcomp ⟨F_stmtTransAssign _ cb _ l r _ hcb hm, ?_, ?_⟩
        · rw [(stmtTransAssign_fullInv [] [] _ cb l r _ hm).2]
          exact eL.2.1
        · have := (stmtTransAssign_fullInv [] [] (labelStep s0 none) cb l r _ hm).1.step.len
          have h2 := eL.2.2
          omega
    | ifS cond ifBlk elifs elseBlk =>
      exact eL.fcomp (F_ifStep recur hfrec N _ cb cond ifBlk elifs elseBlk s' h
        eL.2.2 hcb (by simpa [hcL] using eL.2.1) hnlk)
    | forLoop init body =>
      exact eL.fcomp (F_forLoopStep recur hfrec N _ cb init body s' h
        eL.2.2 hcb (by simpa [hcL] using eL.2.1) hnlk)
    | arrayLoop pos body =>
      cases h
      refine eL.fcomp ⟨fun x hx => rfl, ?_, by simpa using eL.2.2⟩
      intro c hcc
      have : cb = c := by simpa using hcc
      omega
    | switchS cs hasDflt =>
      exact eL.fcomp (F_switchStep recur hfrec N _ cb cs hasDflt s' h
        eL.2.2 hcb (by simpa [hcL] using eL.2.1) hnlk)
    | retS arg =>
      cases h
      refine eL.fcomp ((((F_bbAddStmt _ cb (Stmt.mk none (.retS arg)) hcb
        (by simpa [hcL] using eL.2.1) eL.2.2).fcomp
        (F_bbAddBranch _ cb none _ hcb
          (by simpa [hcL] using eL.2.1) (by simpa using eL.2.2))).fcomp
        (F_fnAddBB _ cb (by simpa [hcL] using eL.2.1) (by simpa using eL.2.2))).fcomp
        ⟨fun x hx => rfl, by simp [retStep], by simpa [retStep] using eL.2.2⟩)
    | contS =>
      unfold contStep at h
      cases hct : (labelStep s0 none).contBB with
      | none => rw [hct] at h; cases h
      | some ct =>
        rw [hct] at h
        cases h
        refine eL.fcomp (((F_bbAddBranch _ cb none ct hcb
          (by simpa [hcL] using eL.2.1) eL.2.2).fcomp
          (F_fnAddBB _ cb (by simpa [hcL] using eL.2.1) (by simpa using eL.2.2))).fcomp
          ⟨fun x hx => rfl, by simp, by simpa using eL.2.2⟩)
    | breakS cond =>
      simp only [breakStep, bbNew_snd_breakBB] at h
      cases hbt : (labelStep s0 none).breakBB with
      | none => rw [hbt] at h; cases h
      | some bt =>
        rw [hbt] at h
        dsimp only at h
        have ebn := F_bbNew (labelStep s0 none) (by simpa [hcL] using eL.2.1) eL.2.2
        have hfr : ∀ c, some (bbNew (labelStep s0 none)).1 = some c → N ≤ c := by
          intro c hcc
          have h2 := eL.2.2
          have : (labelStep s0 none).blocks.length = c := by simpa using hcc
          omega
        cases cond with
        | none =>
          cases h
          refine eL.fcomp ((ebn.fcomp ((F_bbAddBranch _ cb none bt hcb
            (by simpa [hcL] using ebn.2.1) (by simp; have := eL.2.2; omega)).fcomp
            (F_fnAddBB _ cb (by simpa [hcL] using ebn.2.1)
              (by simp; have := eL.2.2; omega)))).fcomp
            ⟨fun x hx => rfl, hfr, by simp; have := eL.2.2; omega⟩)
        | some cexp =>
          cases h
          refine eL.fcomp ((ebn.fcomp (((F_bbAddBranch _ cb (some cexp) bt hcb
            (by simpa [hcL] using ebn.2.1) (by simp; have := eL.2.2; omega)).fcomp
            (F_bbAddBranch _ cb none (bbNew (labelStep s0 none)).1 hcb
              (by simpa [hcL] using ebn.2.1) (by simp; have := eL.2.2; omega))).fcomp
            (F_fnAddBB _ cb (by simpa [hcL] using ebn.2.1)
              (by simp; have := eL.2.2; omega)))).fcomp
            ⟨fun x hx => rfl, hfr, by simp; have := eL.2.2; omega⟩)
    | gotoS target =>
      cases h
      refine eL.fcomp (((F_bbAddBranch _ cb none target hcb
        (by simpa [hcL] using eL.2.1) eL.2.2).fcomp
        (F_fnAddBB _ cb (by simpa [hcL] using eL.2.1) (by simpa using eL.2.2))).fcomp
        ⟨fun x hx => rfl, by simp [gotoStep], by simpa [gotoStep] using eL.2.2⟩)
    | ddlS tag =>
      cases h
      exact eL.fcomp (F_bbAddStmt _ cb _ hcb (by simpa [hcL] using eL.2.1) eL.2.2)
    | blkS b =>
      refine eL.fcomp (hfrec N _ (.many b) s' h ⟨eL.2.2, eL.2.1, ?_, trivial⟩)
      simpa [workLabels, kindLabels] using hnlk

theorem F_transF : ∀ n, FRecOK (transF n) := by
  intro n
  induction n with
  | zero =>
    intro N s w s' h
    cases h
  | succ m ih =>
    intro N s w s' h hpre
    cases w with
    | one st =>
      rw [transF_one] at h
      exact F_oneStep (transF m) ih N s st s' h hpre
    | many sts =>
      rw [transF_many] at h
      exact F_manyStep (transF m) ih N sts s s' h hpre
    | elifs prev next es =>
      rw [transF_elifs] at h
      exact F_elifsStep (transF m) ih N prev next es s s' h hpre.1 hpre.2.1
        (by simpa [workLabels] using hpre.2.2.1) hpre.2.2.2
    | cases prev next cs =>
      rw [transF_cases] at h
      exact F_casesStep (transF m) ih N prev next cs s s' h hpre.1 hpre.2.1
        (by simpa [workLabels] using hpre.2.2.1) hpre.2.2.2

/-- The case chain of `stmt_trans_switch` appends to the predecessor
block exactly one branch per case, in case order, guarded by that
case's value expression and targeting that case's (committed) body
block. -/
theorem transF_cases_layout (n : Nat) :
    ∀ (N prev next : Nat) (cs : List (Option Exp × List Stmt)) (s s' : TransSt),
    transF n s (.cases prev next cs) = .ok s' →
    N ≤ s.blocks.length → (∀ c, s.cur = some c → N ≤ c) →
    casesLabels cs = [] → initsOkCs cs = true → prev < N →
    ∃ ts : List Nat, ts.length = cs.length ∧ (∀ t, t ∈ ts → t ∈ s'.bbs) ∧
      (getBlock s' prev).branches =
        (getBlock s prev).branches ++
          ((cs.map Prod.fst).zip ts).map (fun p => ⟨p.1, p.2⟩) := by
  induction n with
  | zero =>
    intro N prev next cs s s' h
    cases h
  | succ m ih =>
    intro N prev next cs s s' h hl hc hnl hin hprev
    rw [transF_cases] at h
    cases cs with
    | nil =>
      cases h
      exact ⟨[], rfl, by simp, by simp⟩
    | cons c rest =>
      obtain ⟨val, body⟩ := c
      have hnl2 : stmtsLabels body = [] ∧ casesLabels rest = [] := by
        simp only [casesLabels] at hnl
        simpa using hnl
      have hin2 : initsOkL body = true ∧ initsOkCs rest = true := by
        rw [initsOkCs] at hin
        simpa using hin
      unfold casesStep at h
      dsimp only at h
      cases hcs : s.cur with
      | none => rw [hcs] at h; cases h
      | some cb =>
        rw [hcs] at h
        dsimp only at h
        have hcb : N ≤ cb := hc cb hcs
        have hprevlen : prev < s.blocks.length := by omega
        -- the predecessor gains exactly the branch (val, cb)
        have hbr1 : (getBlock (bbAddBranch s prev val cb) prev).branches =
            (getBlock s prev).branches ++ [⟨val, cb⟩] := by
          rw [getBlock_bbAddBranch_self s prev val cb hprevlen]
        cases h1 : transF m (bbAddBranch s prev val cb) (.many body) with
        | failed => rw [h1] at h; cases h
        | fuelOut => rw [h1] at h; cases h
        | ok s2 =>
          rw [h1] at h
          dsimp only at h
          -- frame: the body run does not touch the predecessor
          have hF := F_transF m N (bbAddBranch s prev val cb) (.many body) s2 h1
            ⟨by simpa using hl, by simpa [hcs] using hc,
             by simpa [workLabels] using hnl2.1, trivial⟩
          have hbemono := (transF_fullInv m (bbAddBranch s prev val cb) (.many body)
            s2 h1 (by simpa [workInits] using hin2.1) trivial).1.step
          -- the case block stays committed-or-current
          have hpers : cb ∈ s2.bbs ∨ s2.cur = some cb :=
            hbemono.persist cb (Or.inr (by simpa using hcs))
          have hbr2 : (getBlock s2 prev).branches =
              (getBlock s prev).branches ++ [⟨val, cb⟩] := by
            rw [hF.1 prev hprev, hbr1]
          cases hc2 : s2.cur with
          | some cb2 =>
            rw [hc2] at h
            dsimp only at h
            have hcb2 : N ≤ cb2 := hF.2.1 cb2 hc2
            cases rest with
            | nil =>
              dsimp only at h
              obtain ⟨ts', hts'len, -, hts'br⟩ := ih N prev next []
                (fnAddBB (bbAddBranch s2 cb2 none next) cb2) s' h
                (by simpa using hF.2.2) (by simpa [hc2] using hF.2.1)
                (by simp [casesLabels]) rfl hprev
              have hrest := (transF_fullInv m
                (fnAddBB (bbAddBranch s2 cb2 none next) cb2)
                (.cases prev next []) s' h (by simp [workInits, initsOkCs])
                trivial).1.step
              refine ⟨[cb], rfl, ?_, ?_⟩
              · intro t ht
                have ht2 : t = cb := by simpa using ht
                rw [ht2]
                refine hrest.bbs cb ?_
                rcases hpers with hp | hp
                · exact mem_fnAddBB _ _ _ hp
                · rw [hc2] at hp
                  have hp2 : cb2 = cb := by injection hp
                  rw [← hp2]
                  exact self_mem_fnAddBB _ _
              · rw [hts'br]
                have : (getBlock (fnAddBB (bbAddBranch s2 cb2 none next) cb2)
                    prev).branches = (getBlock s2 prev).branches := by
                  rw [getBlock_fnAddBB,
                      getBlock_bbAddBranch_ne s2 cb2 prev none next (by omega)]
                rw [this, hbr2]
                simp
            | cons c2 r2 =>
              obtain ⟨ts', hts'len, hts'mem, hts'br⟩ := ih N prev next (c2 :: r2)
                { fnAddBB (bbAddBranch (bbNew s2).2 cb2 none (bbNew s2).1) cb2 with
                    cur := some (bbNew s2).1 } s' h
                (by simp; have := hF.2.2; omega)
                (by
                  intro c hcc
                  have h2 : s2.blocks.length = c := by simpa using hcc
                  have := hF.2.2
                  omega)
                hnl2.2 hin2.2 hprev
              have hrest := (transF_fullInv m
                { fnAddBB (bbAddBranch (bbNew s2).2 cb2 none (bbNew s2).1) cb2 with
                    cur := some (bbNew s2).1 }
                (.cases prev next (c2 :: r2)) s' h
                (by simpa [workInits] using hin2.2) trivial).1.step
              refine ⟨cb :: ts', by simpa using hts'len, ?_, ?_⟩
              · intro t ht
                rcases List.mem_cons.mp ht with ht2 | ht2
                · rw [ht2]
                  refine hrest.bbs cb ?_
                  show cb ∈ (fnAddBB (bbAddBranch (bbNew s2).2 cb2 none
                    (bbNew s2).1) cb2).bbs
                  rcases hpers with hp | hp
                  · exact mem_fnAddBB _ _ _ (by simpa using hp)
                  · rw [hc2] at hp
                    have hp2 : cb2 = cb := by injection hp
                    rw [← hp2]
                    exact self_mem_fnAddBB _ _
                · exact hts'mem t ht2
              · rw [hts'br]
                have hstep : (getBlock { fnAddBB (bbAddBranch (bbNew s2).2 cb2 none
                    (bbNew s2).1) cb2 with cur := some (bbNew s2).1 } prev).branches =
                    (getBlock s2 prev).branches := by
                  show (getBlock (fnAddBB (bbAddBranch (bbNew s2).2 cb2 none
                    (bbNew s2).1) cb2) prev).branches = _
                  rw [getBlock_fnAddBB,
                      getBlock_bbAddBranch_ne _ cb2 prev none _ (by omega),
                      getBlock_bbNew_lt s2 prev (by have := hF.2.2; omega)]
                rw [hstep, hbr2]
                simp
          | none =>
            rw [hc2] at h
            dsimp only at h
            have hpcm : cb ∈ s2.bbs := by
              rcases hpers with hp | hp
              · exact hp
              · rw [hc2] at hp
                cases hp
            cases rest with
            | nil =>
              obtain ⟨ts', hts'len, -, hts'br⟩ := ih N prev next [] s2 s' h
                hF.2.2 hF.2.1 (by simp [casesLabels]) rfl hprev
              have hrest := (transF_fullInv m s2 (.cases prev next []) s' h
                (by simp [workInits, initsOkCs]) trivial).1.step
              refine ⟨[cb], rfl, ?_, ?_⟩
              · intro t ht
                have ht2 : t = cb := by simpa using ht
                rw [ht2]
                exact hrest.bbs cb hpcm
              · rw [hts'br, hbr2]
                simp
            | cons c2 r2 =>
              obtain ⟨ts', hts'len, hts'mem, hts'br⟩ := ih N prev next (c2 :: r2)
                { (bbNew s2).2 with cur := some (bbNew s2).1 } s' h
                (by simp; have := hF.2.2; omega)
                (by
                  intro c hcc
                  have h2 : s2.blocks.length = c := by simpa using hcc
                  have := hF.2.2
                  omega)
                hnl2.2 hin2.2 hprev
              have hrest := (transF_fullInv m
                { (bbNew s2).2 with cur := some (bbNew s2).1 }
                (.cases prev next (c2 :: r2)) s' h
                (by simpa [workInits] using hin2.2) trivial).1.step
              refine ⟨cb :: ts', by simpa using hts'len, ?_, ?_⟩
              · intro t ht
                rcases List.mem_cons.mp ht with ht2 | ht2
                · rw [ht2]
                  exact hrest.bbs cb (by simpa using hpcm)
                · exact hts'mem t ht2
              · rw [hts'br]
                have hstep : (getBlock { (bbNew s2).2 with cur := some (bbNew s2).1 }
                    prev).branches = (getBlock s2 prev).branches := by
                  show (getBlock (bbNew s2).2 prev).branches = _
                  rw [getBlock_bbNew_lt s2 prev (by have := hF.2.2; omega)]
                rw [hstep, hbr2]
                simp

/-- C4: in `stmt_trans_switch` the predecessor block gains exactly one
branch per case, in case order, guarded by that case's value expression
(the default case's `NULL` value making its branch unguarded, hence
last whenever the default is the last case), each branch targeting that
case's committed sibling body block; when the switch has no default the
predecessor gains one final unguarded branch to the join block. -/
theorem switchStep_layout (n : Nat) (s : TransSt) (cb : Nat)
    (cs : List (Option Exp × List Stmt)) (hasDflt : Bool) (s' : TransSt)
    (h : switchStep (transF n) s cb cs hasDflt = .ok s')
    (hcur : s.cur = some cb) (hcb : cb < s.blocks.length)
    (hnl : casesLabels cs = []) (hin : initsOkCs cs = true) :
    ∃ ts : List Nat, ts.length = cs.length ∧ (∀ t, t ∈ ts → t ∈ s'.bbs) ∧
      (getBlock s' cb).branches =
        (getBlock s cb).branches ++
          ((cs.map Prod.fst).zip ts).map (fun p => ⟨p.1, p.2⟩) ++
          (if hasDflt then [] else [⟨none, (bbNew s).1⟩]) := by
  unfold switchStep at h
  dsimp only at h
  cases h5 : transF n { (bbNew { fnAddBB (bbNew s).2 cb with
      contBB := none
      breakBB := some (bbNew s).1 }).2 with
        cur := some (bbNew { fnAddBB (bbNew s).2 cb with
          contBB := none
          breakBB := some (bbNew s).1 }).1 } (.cases cb (bbNew s).1 cs) with
  | failed => rw [h5] at h; cases h
  | fuelOut => rw [h5] at h; cases h
  | ok s5 =>
    rw [h5] at h
    dsimp only at h
    cases h
    set entry : TransSt := { (bbNew { fnAddBB (bbNew s).2 cb with
        contBB := none
        breakBB := some (bbNew s).1 }).2 with
          cur := some (bbNew { fnAddBB (bbNew s).2 cb with
            contBB := none
            breakBB := some (bbNew s).1 }).1 } with hentry
    have hentrylen : entry.blocks.length = s.blocks.length + 2 := by
      rw [hentry]; simp
    have hgbentry : getBlock entry cb = getBlock s cb := by
      rw [hentry]
      show getBlock (bbNew { fnAddBB (bbNew s).2 cb with
        contBB := none
        breakBB := some (bbNew s).1 }).2 cb = getBlock s cb
      rw [getBlock_bbNew_lt _ cb (by simp; omega)]
      show getBlock (fnAddBB (bbNew s).2 cb) cb = getBlock s cb
      rw [getBlock_fnAddBB, getBlock_bbNew_lt s cb hcb]
    obtain ⟨ts, htslen, htsmem, htsbr⟩ := transF_cases_layout n s.blocks.length
      cb (bbNew s).1 cs entry s5 h5 (by omega)
      (by
        intro c hcc
        have : (bbNew { fnAddBB (bbNew s).2 cb with
          contBB := none
          breakBB := some (bbNew s).1 }).1 = c := by
          rw [hentry] at hcc
          simpa using hcc
        simp at this
        omega)
      hnl hin hcb
    have hlen5 : entry.blocks.length ≤ s5.blocks.length :=
      (transF_fullInv n entry (.cases cb (bbNew s).1 cs) s5 h5
        (by simpa [workInits] using hin) trivial).1.step.len
    refine ⟨ts, htslen, ?_, ?_⟩
    · intro t ht
      have h1 : t ∈ s5.bbs := htsmem t ht
      show t ∈ (if hasDflt = true then s5 else bbAddBranch s5 cb none (bbNew s).1).bbs
      split
      · exact h1
      · simpa using h1
    · show (getBlock (if hasDflt = true then s5 else bbAddBranch s5 cb none
        (bbNew s).1) cb).branches = _
      by_cases hD : hasDflt = true
      · rw [if_pos hD]
        rw [htsbr, hgbentry, if_pos hD]
        simp
      · rw [if_neg hD]
        rw [getBlock_bbAddBranch_self s5 cb none (bbNew s).1 (by omega)]
        show (getBlock s5 cb).branches ++ [⟨none, (bbNew s).1⟩] = _
        rw [htsbr, hgbentry, if_neg hD]

theorem switchStep_layout_witness :
    (initSt 2).cur = some 0 ∧ 0 < (initSt 2).blocks.length ∧
    casesLabels c4cases = [] ∧ initsOkCs c4cases = true ∧
    (∃ s', switchStep (transF 9) (initSt 2) 0 c4cases true = .ok s' ∧
      ∃ ts : List Nat, ts.length = c4cases.length ∧ (∀ t, t ∈ ts → t ∈ s'.bbs) ∧
        (getBlock s' 0).branches =
          (getBlock (initSt 2) 0).branches ++
            ((c4cases.map Prod.fst).zip ts).map (fun p => ⟨p.1, p.2⟩) ++
            (if true then [] else [⟨none, (bbNew (initSt 2)).1⟩])) := by
  refine ⟨rfl, by simp [initSt], rfl, rfl, ?_⟩
  refine ⟨(switchStep (transF 9) (initSt 2) 0 c4cases true).resSt, rfl, ?_⟩
  exact switchStep_layout 9 (initSt 2) 0 c4cases true _ rfl rfl
    (by simp [initSt]) rfl rfl

theorem transFn_cfgOk_witness :
    wfBody 2 body0 = true ∧ initsOkL body0 = true ∧
    ∃ s', transFn 20 2 body0 = .ok s' ∧ s'.errors = [] ∧ cfgOkNoReach s' = true := by
  refine ⟨rfl, rfl, (transFn 20 2 body0).resSt, rfl, rfl, ?_⟩
  exact transFn_cfgOk 20 2 body0 _ rfl rfl rfl rfl
